import Mathlib

/-! # CPU scheduling simulator: SJF and priority scheduling with aging

A shallow embedding of `src/main.cpp` (`simulateSJF`, `simulateWithPriorityAndAging`)
and a verification of the testable properties of its specification.

Modelling conventions.

* A C++ `int` is an `Int` that lies between -2147483648 and 2147483647.  Every
  arithmetic result that the program stores in an `int` passes through
  `wrapInt`, the two's-complement wrap-around to 32 bits that the compiled
  program performs.  Signed overflow is undefined behaviour in C++, so the
  properties that speak about times carry the hypothesis `NoOverflow`, under
  which no result leaves the range; properties that hold whatever the stored
  values are carry no such hypothesis.
* `completedProcesses` only counts the dispatched processes up from 0; it is a
  natural number, which is exact for every batch that an `int` counter can
  count (fewer than 2^31 processes).
* `std::vector<Process>` is a `List Process`.  The `Process*` entries of
  `readyQueue` point into that vector; a pointer is modelled by the index of the
  element it points to, so pointer equality is index equality.
* `std::sort` leaves the relative order of elements with equal keys
  unspecified.  `sortByArrival` is the insertion sort that libstdc++ runs on
  short ranges; it keeps equal keys in their original order.
* The `while` loops carry a fuel argument: one unit of fuel per loop iteration,
  `none` when the fuel is exhausted before the loop condition becomes false.
-/

namespace Sched

/-! ## Data model (`struct Process`, lines 7-15) -/

/-- One schedulable process; the defaults are the member initialisers of the
C++ struct. -/
structure Process where
  id : Int
  arrivalTime : Int
  executionTime : Int
  priority : Int
  startTime : Int := -1
  endTime : Int := -1
  waitingTime : Int := 0
  deriving DecidableEq, Repr, Inhabited

/-- The value that an `int` holds after it is assigned the arithmetic result
`x`: `x` itself when it lies in the range of a 32-bit `int`, and `x` reduced
modulo 2^32 into that range otherwise. -/
def wrapInt (x : Int) : Int :=
  (x + 2147483648) % 4294967296 - 2147483648

/-- The local variables of the two simulation functions together with the batch
they mutate in place. -/
structure SimState where
  processes : List Process
  readyQueue : List Nat
  currentTime : Int
  completedProcesses : Nat
  deriving DecidableEq, Repr

/-! ## `std::sort` by arrival time (lines 39-41 and 73-75) -/

/-- Insert `p` into a list sorted by arrival time, after every element that
compares smaller (`q.arrivalTime < p.arrivalTime`). -/
def insertByArrival (p : Process) : List Process → List Process
  | [] => [p]
  | q :: qs =>
    if q.arrivalTime < p.arrivalTime then q :: insertByArrival p qs else p :: q :: qs

/-- Sort by `arrivalTime` with the comparator `a.arrivalTime < b.arrivalTime`. -/
def sortByArrival : List Process → List Process
  | [] => []
  | p :: ps => insertByArrival p (sortByArrival ps)

/-! ## Ready-queue admission (lines 44-49 and 81-86) -/

/-- The admission scan `for (auto& process : processes)`: `i` is the index of
the element under the cursor, `rq` the ready queue built so far. -/
def admissionFrom (now : Int) : List Process → Nat → List Nat → List Nat
  | [], _, rq => rq
  | p :: rest, i, rq =>
    admissionFrom now rest (i + 1)
      (if p.arrivalTime ≤ now ∧ p.executionTime > 0 ∧ i ∉ rq then rq ++ [i] else rq)

/-- Admission over the whole batch. -/
def admission (ps : List Process) (now : Int) (rq : List Nat) : List Nat :=
  admissionFrom now ps 0 rq

/-! ## `std::min_element` / `std::max_element` -/

/-- The result of `std::min_element` with comparator `lt`: the first smallest
element, `none` on an empty range. -/
def minElement (lt : Nat → Nat → Bool) : List Nat → Option Nat
  | [] => none
  | x :: xs => some (xs.foldl (fun best y => if lt y best then y else best) x)

/-- The result of `std::max_element` with comparator `lt`: the first largest
element, `none` on an empty range. -/
def maxElement (lt : Nat → Nat → Bool) : List Nat → Option Nat
  | [] => none
  | x :: xs => some (xs.foldl (fun best y => if lt best y then y else best) x)

/-! ## `simulateSJF` (lines 34-68) -/

/-- The process selected by one loop iteration of `simulateSJF` (lines 44-53):
admission, then the first ready process of minimum `executionTime`. -/
def sjfSelect (s : SimState) : Option Nat :=
  minElement
    (fun a b => decide ((s.processes.getD a default).executionTime
                          < (s.processes.getD b default).executionTime))
    (admission s.processes s.currentTime s.readyQueue)

/-- One iteration of the `while` loop of `simulateSJF` (lines 44-66). -/
def sjfStep (s : SimState) : SimState :=
  let rq := admission s.processes s.currentTime s.readyQueue
  match sjfSelect s with
  | some cur =>
    let p := s.processes.getD cur default
    let start := s.currentTime
    let now := wrapInt (s.currentTime + p.executionTime)
    { processes := s.processes.set cur
        { p with startTime := start, executionTime := 0, endTime := now,
                 waitingTime := wrapInt (start - p.arrivalTime) }
      readyQueue := rq.erase cur
      currentTime := now
      completedProcesses := s.completedProcesses + 1 }
  | none =>
    { s with readyQueue := rq, currentTime := wrapInt (s.currentTime + 1) }

/-! ## `simulateWithPriorityAndAging` (lines 70-114) -/

/-- The aging pass `for (auto& process : readyQueue)` (lines 88-92). -/
def ageReady (agingThreshold now : Int) : List Nat → List Process → List Process
  | [], ps => ps
  | i :: rest, ps =>
    let p := ps.getD i default
    ageReady agingThreshold now rest
      (if wrapInt (now - p.arrivalTime) ≥ agingThreshold then
        ps.set i { p with priority := max 1 (wrapInt (p.priority - 1)) }
       else ps)

/-- The batch as it stands after admission and aging in one loop iteration. -/
def agedProcesses (agingThreshold : Int) (s : SimState) : List Process :=
  ageReady agingThreshold s.currentTime
    (admission s.processes s.currentTime s.readyQueue) s.processes

/-- The process selected by one loop iteration of
`simulateWithPriorityAndAging` (lines 81-96): admission, aging, then the first
ready process of maximum `priority`. -/
def agingSelect (agingThreshold : Int) (s : SimState) : Option Nat :=
  maxElement
    (fun a b => decide (((agedProcesses agingThreshold s).getD a default).priority
                          < ((agedProcesses agingThreshold s).getD b default).priority))
    (admission s.processes s.currentTime s.readyQueue)

/-- One iteration of the `while` loop of `simulateWithPriorityAndAging`
(lines 81-112). -/
def agingStep (agingThreshold : Int) (s : SimState) : SimState :=
  let rq := admission s.processes s.currentTime s.readyQueue
  let ps := agedProcesses agingThreshold s
  match agingSelect agingThreshold s with
  | some cur =>
    let p := ps.getD cur default
    let p1 : Process :=
      if p.startTime = -1 then
        { p with startTime := s.currentTime,
                 waitingTime := wrapInt (s.currentTime - p.arrivalTime) }
      else p
    let now := wrapInt (s.currentTime + p1.executionTime)
    { processes := ps.set cur { p1 with executionTime := 0, endTime := now }
      readyQueue := rq.erase cur
      currentTime := now
      completedProcesses := s.completedProcesses + 1 }
  | none =>
    { processes := ps, readyQueue := rq, currentTime := wrapInt (s.currentTime + 1),
      completedProcesses := s.completedProcesses }

/-! ## The `while` loops -/

/-- Run `while (cond) body` for at most `fuel` iterations. -/
def whileLoop {σ : Type} (cond : σ → Bool) (body : σ → σ) : Nat → σ → Option σ
  | 0, s => if cond s then none else some s
  | fuel + 1, s => if cond s then whileLoop cond body fuel (body s) else some s

/-- The loop condition `completedProcesses < processes.size()`. -/
def running (s : SimState) : Bool :=
  decide (s.completedProcesses < s.processes.length)

/-- The state on entry to the `while` loop: the batch sorted by arrival time,
`currentTime = 0`, an empty ready queue and `completedProcesses = 0`. -/
def initState (ps : List Process) : SimState :=
  { processes := sortByArrival ps, readyQueue := [], currentTime := 0,
    completedProcesses := 0 }

/-- The whole of `simulateSJF`, returning every local variable at loop exit. -/
def sjfRun (fuel : Nat) (ps : List Process) : Option SimState :=
  whileLoop running sjfStep fuel (initState ps)

/-- The batch as `simulateSJF` leaves it. -/
def simulateSJF (fuel : Nat) (ps : List Process) : Option (List Process) :=
  (sjfRun fuel ps).map (fun s => s.processes)

/-- The whole of `simulateWithPriorityAndAging`, returning every local variable
at loop exit. -/
def agingRun (fuel : Nat) (ps : List Process) (agingThreshold : Int) : Option SimState :=
  whileLoop running (agingStep agingThreshold) fuel (initState ps)

/-- The batch as `simulateWithPriorityAndAging` leaves it. -/
def simulateWithPriorityAndAging (fuel : Nat) (ps : List Process) (agingThreshold : Int) :
    Option (List Process) :=
  (agingRun fuel ps agingThreshold).map (fun s => s.processes)

/-! ## Dispatch log -/

/-- A loop body instrumented with the log of selected processes: whenever the
iteration selects a process, its index is appended to the log. -/
def logged (select : SimState → Option Nat) (body : SimState → SimState) :
    SimState × List Nat → SimState × List Nat :=
  fun st =>
    (body st.1, match select st.1 with
                | some cur => st.2 ++ [cur]
                | none => st.2)

/-- The sequence of processes (indices into the sorted batch) selected for
dispatch by `simulateSJF`, in dispatch order. -/
def sjfDispatchLog (fuel : Nat) (ps : List Process) : Option (List Nat) :=
  (whileLoop (fun st => running st.1) (logged sjfSelect sjfStep) fuel
    (initState ps, [])).map (fun st => st.2)

/-- The sequence of processes (indices into the sorted batch) selected for
dispatch by `simulateWithPriorityAndAging`, in dispatch order. -/
def agingDispatchLog (fuel : Nat) (ps : List Process) (agingThreshold : Int) :
    Option (List Nat) :=
  (whileLoop (fun st => running st.1)
    (logged (agingSelect agingThreshold) (agingStep agingThreshold)) fuel
    (initState ps, [])).map (fun st => st.2)

/-! ## Observed changes of `startTime` -/

/-- The positions at which the `startTime` field of the batch `after` differs
from the one of the batch `before`, in increasing order. -/
def startTimeChanges (before after : List Process) : List Nat :=
  (List.range before.length).filter
    (fun i => decide ((before.getD i default).startTime ≠ (after.getD i default).startTime))

/-- A loop body instrumented with the observed changes of `startTime`: after
every iteration the positions whose `startTime` differs from what it was before
the iteration are appended to the log. -/
def observed (body : SimState → SimState) : SimState × List Nat → SimState × List Nat :=
  fun st => (body st.1, st.2 ++ startTimeChanges st.1.processes (body st.1).processes)

/-- The positions (in the sorted batch) whose `startTime` a run of `simulateSJF`
changes, one entry per change, in the order of the changes. -/
def sjfStartWrites (fuel : Nat) (ps : List Process) : Option (List Nat) :=
  (whileLoop (fun st => running st.1) (observed sjfStep) fuel
    (initState ps, [])).map (fun st => st.2)

/-- The positions (in the sorted batch) whose `startTime` a run of
`simulateWithPriorityAndAging` changes, one entry per change, in the order of
the changes. -/
def agingStartWrites (fuel : Nat) (ps : List Process) (agingThreshold : Int) :
    Option (List Nat) :=
  (whileLoop (fun st => running st.1) (observed (agingStep agingThreshold)) fuel
    (initState ps, [])).map (fun st => st.2)

/-! ## Predicates used to state and prove the properties -/

/-- Two process records agree on every field except `priority`. -/
def EqModPrio (p o : Process) : Prop :=
  p.id = o.id ∧ p.arrivalTime = o.arrivalTime ∧ p.executionTime = o.executionTime ∧
    p.startTime = o.startTime ∧ p.endTime = o.endTime ∧ p.waitingTime = o.waitingTime

/-- An idle iteration as the program executes it: nothing is ready after
admission, the clock is incremented (an `int` increment) and nothing else
changes. -/
def IdleStep (s s1 : SimState) : Prop :=
  admission s.processes s.currentTime s.readyQueue = [] ∧ s1.processes = s.processes ∧
    s1.readyQueue = [] ∧ s1.currentTime = wrapInt (s.currentTime + 1) ∧
    s1.completedProcesses = s.completedProcesses

/-- An iteration as the program executes it that dispatches the process at index
`cur`; the times are the `int` results.  The flag `g` tells whether `startTime`
and `waitingTime` are written only under the guard `startTime == -1` (the aging
engine) or unconditionally (SJF). -/
def DispatchStep (g : Bool) (s : SimState) (cur : Nat) (s1 : SimState) : Prop :=
  cur ∈ admission s.processes s.currentTime s.readyQueue ∧
  s1.readyQueue = (admission s.processes s.currentTime s.readyQueue).erase cur ∧
  s1.completedProcesses = s.completedProcesses + 1 ∧
  s1.processes.length = s.processes.length ∧
  (∀ j, j ≠ cur → ∀ q, s.processes[j]? = some q →
      ∃ q1, s1.processes[j]? = some q1 ∧ EqModPrio q1 q) ∧
  (∀ p, s.processes[cur]? = some p →
      s1.currentTime = wrapInt (s.currentTime + p.executionTime) ∧
      ∃ p1, s1.processes[cur]? = some p1 ∧ p1.id = p.id ∧
        p1.arrivalTime = p.arrivalTime ∧ p1.executionTime = 0 ∧
        p1.endTime = wrapInt (s.currentTime + p.executionTime) ∧
        (if g = true ∧ p.startTime ≠ -1 then
          p1.startTime = p.startTime ∧ p1.waitingTime = p.waitingTime
         else
          p1.startTime = s.currentTime ∧
            p1.waitingTime = wrapInt (s.currentTime - p.arrivalTime)))

/-- What `IdleStep` amounts to when the increment of the clock does not
overflow: the clock advances by exactly one tick.  `Inv.ideal` derives it from
`IdleStep` under the invariant of a run without overflow. -/
def Idle (s s1 : SimState) : Prop :=
  admission s.processes s.currentTime s.readyQueue = [] ∧ s1.processes = s.processes ∧
    s1.readyQueue = [] ∧ s1.currentTime = s.currentTime + 1 ∧
    s1.completedProcesses = s.completedProcesses

/-- What `DispatchStep` amounts to when no time computation of the iteration
overflows: the stored times are the exact sums and differences.  `Inv.ideal`
derives it from `DispatchStep` under the invariant of a run without overflow. -/
def Dispatches (g : Bool) (s : SimState) (cur : Nat) (s1 : SimState) : Prop :=
  cur ∈ admission s.processes s.currentTime s.readyQueue ∧
  s1.readyQueue = (admission s.processes s.currentTime s.readyQueue).erase cur ∧
  s1.completedProcesses = s.completedProcesses + 1 ∧
  s1.processes.length = s.processes.length ∧
  (∀ j, j ≠ cur → ∀ q, s.processes[j]? = some q →
      ∃ q1, s1.processes[j]? = some q1 ∧ EqModPrio q1 q) ∧
  (∀ p, s.processes[cur]? = some p →
      s1.currentTime = s.currentTime + p.executionTime ∧
      ∃ p1, s1.processes[cur]? = some p1 ∧ p1.id = p.id ∧
        p1.arrivalTime = p.arrivalTime ∧ p1.executionTime = 0 ∧
        p1.endTime = s.currentTime + p.executionTime ∧
        (if g = true ∧ p.startTime ≠ -1 then
          p1.startTime = p.startTime ∧ p1.waitingTime = p.waitingTime
         else
          p1.startTime = s.currentTime ∧
            p1.waitingTime = s.currentTime - p.arrivalTime))

/-- The execution time with which the process at index `i` entered the engine. -/
def execOf (orig : List Process) (i : Nat) : Int :=
  (orig.getD i default).executionTime

/-- Record `p` is what a dispatch at time `t` makes of the entry record `o`. -/
def Finished (g : Bool) (o : Process) (t : Int) (p : Process) : Prop :=
  p.id = o.id ∧ p.arrivalTime = o.arrivalTime ∧ p.executionTime = 0 ∧ 0 ≤ t ∧
    o.arrivalTime ≤ t ∧ p.endTime = t + o.executionTime ∧
    (if g = true ∧ o.startTime ≠ -1 then
      p.startTime = o.startTime ∧ p.waitingTime = o.waitingTime
     else p.startTime = t ∧ p.waitingTime = t - o.arrivalTime)

/-- The largest arrival time of a batch (0 for a batch of non-positive arrival
times). -/
def maxArrival (ps : List Process) : Int :=
  ps.foldr (fun p m => max p.arrivalTime m) 0

/-- The total execution time of a batch. -/
def sumExec (ps : List Process) : Int :=
  (ps.map (fun p => p.executionTime)).sum

/-- The batch can be simulated without an `int` overflow: the largest arrival
time plus the total execution time, which bounds the virtual clock, fits into an
`int`, and so does the distance from every arrival time to that bound, which
bounds every waiting time. -/
def NoOverflow (ps : List Process) : Prop :=
  maxArrival ps + sumExec ps ≤ 2147483647 ∧
    ∀ p ∈ ps, maxArrival ps + sumExec ps - p.arrivalTime ≤ 2147483647

/-- The loop invariant of a run without overflow: `orig` is the sorted batch on
entry, `T` the dispatch log so far, `M` an upper bound of the arrival times. -/
structure Inv (g : Bool) (M : Int) (orig : List Process) (T : List Nat) (s : SimState) :
    Prop where
  len : s.processes.length = orig.length
  now_nonneg : 0 ≤ s.currentTime
  cnt : s.completedProcesses = T.length
  tnodup : T.Nodup
  tvalid : ∀ i ∈ T, i < orig.length
  rq_nodup : s.readyQueue.Nodup
  rq_pend : ∀ i ∈ s.readyQueue, i ∉ T ∧
    ∃ p, s.processes[i]? = some p ∧ p.arrivalTime ≤ s.currentTime
  pend : ∀ i o, orig[i]? = some o → i ∉ T → ∃ p, s.processes[i]? = some p ∧ EqModPrio p o
  done : ∀ i o, orig[i]? = some o → i ∈ T →
    ∃ p t, s.processes[i]? = some p ∧ Finished g o t p ∧ t + o.executionTime ≤ s.currentTime
  bound : s.currentTime ≤ M + (T.map (execOf orig)).sum
  pos : ∀ o ∈ orig, 0 < o.executionTime
  arr : ∀ o ∈ orig, o.arrivalTime ≤ M
  cap : M + sumExec orig ≤ 2147483647
  low : ∀ o ∈ orig, M + sumExec orig - o.arrivalTime ≤ 2147483647

/-- What the step function of an engine satisfies in every state: an iteration
either idles or dispatches the selected process. -/
def StepSpec (g : Bool) (select : SimState → Option Nat) (step : SimState → SimState) :
    Prop :=
  ∀ s, (select s = none ∧ IdleStep s (step s)) ∨
    ∃ cur, select s = some cur ∧ DispatchStep g s cur (step s)

/-- The invariant of every run, with or without overflow: `T` is the dispatch
log so far; the dispatched processes are completed, the others are not and have
an arrival time that an `int` can hold, and the clock is at least the smallest
`int`. -/
structure Live (T : List Nat) (s : SimState) : Prop where
  cnt : s.completedProcesses = T.length
  tnodup : T.Nodup
  tdone : ∀ i ∈ T, ∃ p, s.processes[i]? = some p ∧ p.executionTime = 0
  rq_nodup : s.readyQueue.Nodup
  rq_pend : ∀ i ∈ s.readyQueue, ∃ p, s.processes[i]? = some p ∧ 0 < p.executionTime
  pend : ∀ (i : Nat) (p : Process), s.processes[i]? = some p → i ∉ T →
    0 < p.executionTime ∧ p.arrivalTime ≤ 2147483647
  clk : -2147483648 ≤ s.currentTime

/-- The termination measure of every run: up to 2^32 iterations for each process
still to dispatch, plus the ticks left until the clock reaches the largest
`int`. -/
def liveMeasure (n : Nat) (st : SimState × List Nat) : Nat :=
  (n - st.1.completedProcesses) * 4294967296 + (2147483647 - st.1.currentTime).toNat

/-- The termination measure: processes still to dispatch plus idle ticks still
possible. -/
def loopMeasure (n : Nat) (M : Int) (st : SimState × List Nat) : Nat :=
  (n - st.1.completedProcesses) + (M - st.1.currentTime).toNat

/-- At loop exit the clock reads the `endTime` of some process (the one
dispatched by the last iteration). -/
def LastEnd (st : SimState × List Nat) : Prop :=
  running st.1 = false → ∃ p ∈ st.1.processes, p.endTime = st.1.currentTime

/-- The sum of the execution times of all processes of `ps` strictly shorter
than `e`. -/
def shorterSum (ps : List Process) (e : Int) : Int :=
  ((ps.map (fun p => p.executionTime)).filter (fun x => decide (x < e))).sum

/-- The invariant of an SJF run on simultaneous arrivals with distinct execution
times: the clock is the total execution time dispatched so far, the log is in
increasing order of execution time, every dispatched process is shorter than
every waiting one, and every dispatched process started at the sum of the
execution times of the strictly shorter processes. -/
def SimultInv (orig : List Process) (st : SimState × List Nat) : Prop :=
  st.1.currentTime = (st.2.map (execOf orig)).sum ∧
  (st.2.map (execOf orig)).Pairwise (fun a b => a < b) ∧
  (∀ i ∈ st.2, ∀ j, j < orig.length → j ∉ st.2 → execOf orig i < execOf orig j) ∧
  (∀ i ∈ st.2, ∀ p, st.1.processes[i]? = some p →
    p.startTime = shorterSum orig (execOf orig i))

/-- The priority invariant of the aging engine: the ready queue holds no pointer
twice, and every record has a priority between 1 and the priority with which it
entered. -/
def PrioInv (orig : List Process) (s : SimState) : Prop :=
  s.readyQueue.Nodup ∧ s.processes.length = orig.length ∧
    ∀ (i : Nat) (o p : Process), orig[i]? = some o → s.processes[i]? = some p →
      1 ≤ p.priority ∧ p.priority ≤ o.priority

/-- The aging invariant for processes that entered with `priority > 1`: the
priority stays between 1 and the entry priority, and a dispatched process that
entered with `startTime = -1` and waited at least the threshold has a strictly
smaller priority than on entry. -/
def AgedInv (orig : List Process) (thr : Int) (st : SimState × List Nat) : Prop :=
  ∀ (i : Nat) (o p : Process), orig[i]? = some o → st.1.processes[i]? = some p →
    1 < o.priority →
    (1 ≤ p.priority ∧ p.priority ≤ o.priority) ∧
    (i ∈ st.2 → o.startTime = -1 → thr ≤ p.startTime - p.arrivalTime →
      p.priority < o.priority)

/-- The `id` of the process at index `i` of the batch `orig`. -/
def idOf (orig : List Process) (i : Nat) : Int :=
  (orig.getD i default).id

/-- The dispatch log `T` of a run on the batch `ps` lists every process exactly
once: it has as many entries as the batch has processes, every position of the
sorted batch occurs once in it, and so does the `id` of every process. -/
def DispatchedOnce (ps : List Process) (T : List Nat) : Prop :=
  T.length = ps.length ∧ (∀ i, i < ps.length → T.count i = 1) ∧
    ∀ p ∈ ps, (T.map (idOf (sortByArrival ps))).count p.id = 1

/-! ## Example batches -/

/-- The batch of the SJF test of the specification: four processes arriving at
time 0 with execution times 5, 2, 8, 1. -/
def fourJobs : List Process :=
  [ { id := 1, arrivalTime := 0, executionTime := 5, priority := 1 },
    { id := 2, arrivalTime := 0, executionTime := 2, priority := 1 },
    { id := 3, arrivalTime := 0, executionTime := 8, priority := 1 },
    { id := 4, arrivalTime := 0, executionTime := 1, priority := 1 } ]

/-- The aging scenario of the specification: A arrives at 0 (execution time 4,
priority 3), B arrives at 1 (execution time 1, priority 5). -/
def agingScenario : List Process :=
  [ { id := 1, arrivalTime := 0, executionTime := 4, priority := 3 },
    { id := 2, arrivalTime := 1, executionTime := 1, priority := 5 } ]

/-- A batch given out of arrival order, with an idle gap before the last
arrival. -/
def gapBatch : List Process :=
  [ { id := 1, arrivalTime := 2, executionTime := 3, priority := 4 },
    { id := 2, arrivalTime := 0, executionTime := 2, priority := 2 },
    { id := 3, arrivalTime := 7, executionTime := 1, priority := 1 } ]

/-! ## `generateProcesses` and `main` (lines 17-32 and 136-156) -/

/-- One round of the three random draws of `generateProcesses`, in the order in
which the initialisers are evaluated: `arrivalDist`, `executionDist`,
`priorityDist`. -/
structure Draw where
  arrival : Int
  execution : Int
  priority : Int
  deriving DecidableEq, Repr

/-- The ranges of the three `uniform_int_distribution`s (lines 20-22). -/
def Draw.InRange (d : Draw) : Prop :=
  0 ≤ d.arrival ∧ d.arrival ≤ 10 ∧ 1 ≤ d.execution ∧ d.execution ≤ 10 ∧
    1 ≤ d.priority ∧ d.priority ≤ 5

/-- The loop `for (int i = 0; i < count; ++i) processes.push_back(...)` with `k`
iterations still to run and loop counter `i`; `rnd i` are the values drawn in
iteration `i`. -/
def generateFrom (rnd : Nat → Draw) : Nat → Nat → List Process → List Process
  | 0, _, processes => processes
  | k + 1, i, processes =>
    generateFrom rnd k (i + 1)
      (processes ++ [ { id := (i : Int) + 1, arrivalTime := (rnd i).arrival,
                        executionTime := (rnd i).execution,
                        priority := (rnd i).priority } ])

/-- The function `generateProcesses`: it appends `count` new processes to the
vector it is given. -/
def generateProcesses (processes : List Process) (count : Nat) (rnd : Nat → Draw) :
    List Process :=
  generateFrom rnd count 0 processes

/-- The vector that `main` hands to `simulateWithPriorityAndAging` on line 152:
`processes` after `generateProcesses`, `simulateSJF` and the second
`generateProcesses` (`processCount = 5`); `rnd1` and `rnd2` are the outcomes of
the two random generators. -/
def mainAgingBatch (fuel : Nat) (rnd1 rnd2 : Nat → Draw) : Option (List Process) :=
  (simulateSJF fuel (generateProcesses [] 5 rnd1)).map
    (fun processes => generateProcesses processes 5 rnd2)

/-- The batch that `main` leaves behind: both simulations in sequence
(`agingThreshold = 5`); `none` when one of the two loops does not exit within its
fuel. -/
def mainProgram (fuel1 fuel2 : Nat) (rnd1 rnd2 : Nat → Draw) : Option (List Process) :=
  (mainAgingBatch fuel1 rnd1 rnd2).bind
    (fun processes => simulateWithPriorityAndAging fuel2 processes 5)

/-- The invariant of a run on a batch that holds a process (at index `b`) with
`executionTime <= 0`: that process is never dispatched. -/
structure Stuck (b : Nat) (T : List Nat) (s : SimState) : Prop where
  cnt : s.completedProcesses = T.length
  tnodup : T.Nodup
  tdone : ∀ i ∈ T, i ≠ b ∧ ∃ p, s.processes[i]? = some p ∧ p.executionTime = 0
  bad : ∃ p, s.processes[b]? = some p ∧ p.executionTime ≤ 0
  rq_nodup : s.readyQueue.Nodup
  rq_pend : ∀ i ∈ s.readyQueue, ∃ p, s.processes[i]? = some p ∧ 0 < p.executionTime

/-- The outcome in which every draw is arrival 0, execution time 1, priority 1. -/
def constDraw : Nat → Draw :=
  fun _ => { arrival := 0, execution := 1, priority := 1 }

/-- Every entry of the ready queue points to a process that is not completed,
and no entry occurs twice. -/
def ReadyOK (s : SimState) : Prop :=
  s.readyQueue.Nodup ∧
    ∀ i ∈ s.readyQueue, ∃ p, s.processes[i]? = some p ∧ 0 < p.executionTime

/-- Two processes that are ready together at time 0, with priorities 3 and 5. -/
def twoReady : List Process :=
  [ { id := 1, arrivalTime := 0, executionTime := 4, priority := 3 },
    { id := 2, arrivalTime := 0, executionTime := 1, priority := 5 } ]

/-- The ready queue of an SJF run lists its processes in the order in which they
stand in the arrival-sorted batch: the batch is sorted by arrival time, the
queue entries are valid, uncompleted and strictly increasing positions, and
every uncompleted process outside the queue arrives later than every process in
it. -/
def SortedQueue (s : SimState) : Prop :=
  s.processes.Pairwise (fun a b => a.arrivalTime ≤ b.arrivalTime) ∧
  s.readyQueue.Pairwise (fun a b => a < b) ∧
  (∀ i ∈ s.readyQueue, ∃ p, s.processes[i]? = some p ∧ 0 < p.executionTime) ∧
  (∀ i ∈ s.readyQueue, ∀ (j : Nat) (q : Process), s.processes[j]? = some q →
      0 < q.executionTime → j ∉ s.readyQueue →
      (s.processes.getD i default).arrivalTime < q.arrivalTime)

/-- The SJF tie-break invariant: whenever a dispatched process `i` started at a
time at which `j` had arrived, `j` is still waiting or started later, and both
entered with the same execution time, `i` stands before `j` in the
arrival-sorted batch. -/
def TieOrder (orig : List Process) (st : SimState × List Nat) : Prop :=
  ∀ (i j : Nat) (oi oj pi : Process), orig[i]? = some oi → orig[j]? = some oj → i ∈ st.2 →
    st.1.processes[i]? = some pi → oj.arrivalTime ≤ pi.startTime →
    (j ∉ st.2 ∨ ∃ pj, st.1.processes[j]? = some pj ∧ pi.startTime < pj.startTime) →
    oi.executionTime = oj.executionTime → i ≤ j

/-- Three processes of which the last two tie on execution time and are both
ready when the first one finishes. -/
def tieBatch : List Process :=
  [ { id := 1, arrivalTime := 0, executionTime := 5, priority := 1 },
    { id := 2, arrivalTime := 1, executionTime := 2, priority := 1 },
    { id := 3, arrivalTime := 2, executionTime := 2, priority := 1 } ]

/-! ## The idle-jump variant of the SJF loop (specification, section 4.2) -/

/-- The smallest `arrivalTime` among the processes that are not yet completed
(`executionTime > 0`); `none` when every process is completed. -/
def nextArrival : List Process → Option Int
  | [] => none
  | p :: rest =>
    if p.executionTime > 0 then
      match nextArrival rest with
      | some m => some (min p.arrivalTime m)
      | none => some p.arrivalTime
    else nextArrival rest

/-- The loop body of the idle-jump variant of `simulateSJF`: a dispatching
iteration is the one of `sjfStep`; when the ready queue is empty, `currentTime`
is set directly to the smallest `arrivalTime` among the not-yet-completed
processes instead of being advanced by 1.  This variant is not in the source; it
is the re-implementation the specification calls observably equivalent. -/
def sjfJumpStep (s : SimState) : SimState :=
  match sjfSelect s with
  | some _ => sjfStep s
  | none =>
    { s with
      readyQueue := admission s.processes s.currentTime s.readyQueue
      currentTime :=
        match nextArrival s.processes with
        | some m => m
        | none => wrapInt (s.currentTime + 1) }

/-- The batch that the idle-jump variant of `simulateSJF` leaves. -/
def simulateSJFJump (fuel : Nat) (ps : List Process) : Option (List Process) :=
  (whileLoop running sjfJumpStep fuel (initState ps)).map (fun s => s.processes)

/-- The clock and the arrival times of the processes still to run are `int`
values. -/
def ClockOK (s : SimState) : Prop :=
  -2147483648 ≤ s.currentTime ∧
    ∀ p ∈ s.processes, 0 < p.executionTime → p.arrivalTime ≤ 2147483647

/-- State `s` with an empty ready queue and the clock set to `t`. -/
def atTime (s : SimState) (t : Int) : SimState :=
  { s with readyQueue := [], currentTime := t }

/-- The execution intervals of the dispatched processes are pairwise disjoint.
The dispatch time of a process is its `endTime` minus the execution time with
which it entered. -/
def NoOverlap (orig : List Process) (st : SimState × List Nat) : Prop :=
  ∀ (i j : Nat) (oi oj pi pj : Process), orig[i]? = some oi → orig[j]? = some oj →
    i ∈ st.2 → j ∈ st.2 → i ≠ j →
    st.1.processes[i]? = some pi → st.1.processes[j]? = some pj →
    pi.endTime ≤ pj.endTime - oj.executionTime ∨
      pj.endTime ≤ pi.endTime - oi.executionTime

/-- The work-conservation invariant.  Every dispatched process was dispatched
(at `endTime` minus its execution time on entry) either at its arrival time or
at the `endTime` of another dispatched process; and the clock either reads the
`endTime` of a dispatched process or no waiting process has arrived before it. -/
def WorkCons (orig : List Process) (st : SimState × List Nat) : Prop :=
  (∀ (i : Nat) (oi pi : Process), orig[i]? = some oi → i ∈ st.2 →
    st.1.processes[i]? = some pi →
    pi.endTime - oi.executionTime = oi.arrivalTime ∨
      ∃ (j : Nat) (pj : Process), j ∈ st.2 ∧ j ≠ i ∧ st.1.processes[j]? = some pj ∧
        pj.endTime = pi.endTime - oi.executionTime) ∧
  ((∃ (j : Nat) (pj : Process), j ∈ st.2 ∧ st.1.processes[j]? = some pj ∧
      pj.endTime = st.1.currentTime) ∨
    ∀ (i : Nat) (oi : Process), orig[i]? = some oi → i ∉ st.2 →
      st.1.currentTime ≤ oi.arrivalTime)

/-- The invariant behind C20: a process whose priority differs from the one it
entered with has waited at least the threshold, measured at the clock while it
waits and at its dispatch time (`endTime` minus execution time on entry) once it
is dispatched. -/
def NotAged (orig : List Process) (thr : Int) (st : SimState × List Nat) : Prop :=
  ∀ (i : Nat) (o p : Process), orig[i]? = some o → st.1.processes[i]? = some p →
    p.priority ≠ o.priority →
    (i ∉ st.2 → thr ≤ st.1.currentTime - o.arrivalTime) ∧
    (i ∈ st.2 → thr ≤ (p.endTime - o.executionTime) - o.arrivalTime)

/-! ## Basic facts: sorting -/

theorem insertByArrival_perm (p : Process) (l : List Process) :
    (insertByArrival p l).Perm (p :: l) := by
  induction l with
  | nil => simp [insertByArrival]
  | cons q qs ih =>
    unfold insertByArrival
    split
    · exact (List.Perm.cons q ih).trans (List.Perm.swap p q qs)
    · exact List.Perm.refl _

theorem sortByArrival_perm (ps : List Process) : (sortByArrival ps).Perm ps := by
  induction ps with
  | nil => simp [sortByArrival]
  | cons p ps ih =>
    unfold sortByArrival
    exact (insertByArrival_perm p _).trans (List.Perm.cons p ih)

theorem sortByArrival_length (ps : List Process) :
    (sortByArrival ps).length = ps.length :=
  (sortByArrival_perm ps).length_eq

theorem insertByArrival_sorted (p : Process) (l : List Process)
    (h : l.Pairwise (fun a b => a.arrivalTime ≤ b.arrivalTime)) :
    (insertByArrival p l).Pairwise (fun a b => a.arrivalTime ≤ b.arrivalTime) := by
  induction l with
  | nil => simp [insertByArrival]
  | cons q qs ih =>
    obtain ⟨hq, hqs⟩ := List.pairwise_cons.1 h
    unfold insertByArrival
    split
    · rename_i hlt
      refine List.pairwise_cons.2 ⟨?_, ih hqs⟩
      intro x hx
      rcases List.mem_cons.1 ((insertByArrival_perm p qs).mem_iff.1 hx) with rfl | hx
      · exact le_of_lt hlt
      · exact hq x hx
    · rename_i hge
      refine List.pairwise_cons.2 ⟨?_, h⟩
      intro x hx
      rcases List.mem_cons.1 hx with rfl | hx
      · omega
      · have := hq x hx
        omega

theorem sortByArrival_sorted (ps : List Process) :
    (sortByArrival ps).Pairwise (fun a b => a.arrivalTime ≤ b.arrivalTime) := by
  induction ps with
  | nil => simp [sortByArrival]
  | cons p ps ih =>
    unfold sortByArrival
    exact insertByArrival_sorted p _ ih

/-! ## Basic facts: admission -/

theorem mem_admissionFrom (now : Int) (ps : List Process) (i : Nat) (rq : List Nat) (j : Nat) :
    j ∈ admissionFrom now ps i rq ↔
      j ∈ rq ∨ (i ≤ j ∧ ∃ p, ps[j - i]? = some p ∧ p.arrivalTime ≤ now ∧ 0 < p.executionTime) := by
  induction ps generalizing i rq with
  | nil => simp [admissionFrom]
  | cons p rest ih =>
    unfold admissionFrom
    rw [ih]
    by_cases hji : j = i
    · subst hji
      by_cases hc : p.arrivalTime ≤ now ∧ p.executionTime > 0 ∧ j ∉ rq
      · simp [hc]
      · simp only [hc, if_false]
        constructor
        · rintro (h | ⟨h, _⟩)
          · exact Or.inl h
          · omega
        · rintro (h | ⟨_, q, hq, h1, h2⟩)
          · exact Or.inl h
          · simp at hq
            subst hq
            by_cases hm : j ∈ rq
            · exact Or.inl hm
            · exact absurd ⟨h1, h2, hm⟩ hc
    · have hmem : (j ∈ (if p.arrivalTime ≤ now ∧ p.executionTime > 0 ∧ i ∉ rq
          then rq ++ [i] else rq)) ↔ j ∈ rq := by
        split <;> simp [hji]
      rw [hmem]
      constructor
      · rintro (h | ⟨h, q, hq, h1, h2⟩)
        · exact Or.inl h
        · refine Or.inr ⟨by omega, q, ?_, h1, h2⟩
          have : j - i = (j - (i + 1)) + 1 := by omega
          rw [this]
          simpa using hq
      · rintro (h | ⟨h, q, hq, h1, h2⟩)
        · exact Or.inl h
        · have hlt : i + 1 ≤ j := by omega
          refine Or.inr ⟨hlt, q, ?_, h1, h2⟩
          have : j - i = (j - (i + 1)) + 1 := by omega
          rw [this] at hq
          simpa using hq

theorem mem_admission (ps : List Process) (now : Int) (rq : List Nat) (j : Nat) :
    j ∈ admission ps now rq ↔
      j ∈ rq ∨ ∃ p, ps[j]? = some p ∧ p.arrivalTime ≤ now ∧ 0 < p.executionTime := by
  unfold admission
  rw [mem_admissionFrom]
  simp

theorem admissionFrom_nodup (now : Int) (ps : List Process) (i : Nat) (rq : List Nat)
    (h : rq.Nodup) : (admissionFrom now ps i rq).Nodup := by
  induction ps generalizing i rq with
  | nil => simpa [admissionFrom] using h
  | cons p rest ih =>
    unfold admissionFrom
    apply ih
    split
    · rename_i hc
      rw [List.nodup_append]
      refine ⟨h, List.nodup_singleton i, ?_⟩
      intro a ha hb
      simp at hb
      subst hb
      exact hc.2.2 ha
    · exact h

theorem admission_nodup (ps : List Process) (now : Int) (rq : List Nat) (h : rq.Nodup) :
    (admission ps now rq).Nodup :=
  admissionFrom_nodup now ps 0 rq h

/-! ## Basic facts: minimum and maximum selection -/

theorem foldl_min_spec (key : Nat → Int) (xs : List Nat) (x : Nat) :
    let m := xs.foldl (fun best y => if decide (key y < key best) then y else best) x
    m ∈ x :: xs ∧ key m ≤ key x ∧ ∀ y ∈ xs, key m ≤ key y := by
  induction xs generalizing x with
  | nil => simp
  | cons a as ih =>
    simp only [List.foldl_cons]
    by_cases h : key a < key x
    · simp only [h, decide_True, if_true]
      obtain ⟨h1, h2, h3⟩ := ih a
      refine ⟨?_, by omega, ?_⟩
      · simp only [List.mem_cons] at h1 ⊢
        tauto
      · intro y hy
        simp only [List.mem_cons] at hy
        rcases hy with rfl | hy
        · exact h2
        · exact h3 y hy
    · simp only [h, decide_False, Bool.false_eq_true, if_false]
      obtain ⟨h1, h2, h3⟩ := ih x
      refine ⟨?_, h2, ?_⟩
      · simp only [List.mem_cons] at h1 ⊢
        tauto
      · intro y hy
        simp only [List.mem_cons] at hy
        rcases hy with rfl | hy
        · omega
        · exact h3 y hy

theorem minElement_spec (key : Nat → Int) (l : List Nat) (m : Nat)
    (h : minElement (fun a b => decide (key a < key b)) l = some m) :
    m ∈ l ∧ ∀ y ∈ l, key m ≤ key y := by
  cases l with
  | nil => simp [minElement] at h
  | cons x xs =>
    simp only [minElement, Option.some.injEq] at h
    obtain ⟨h1, h2, h3⟩ := foldl_min_spec key xs x
    rw [h] at h1 h2 h3
    refine ⟨h1, ?_⟩
    intro y hy
    simp only [List.mem_cons] at hy
    rcases hy with rfl | hy
    · exact h2
    · exact h3 y hy

theorem minElement_eq_none (lt : Nat → Nat → Bool) (l : List Nat) :
    minElement lt l = none ↔ l = [] := by
  cases l <;> simp [minElement]

theorem foldl_max_spec (key : Nat → Int) (xs : List Nat) (x : Nat) :
    let m := xs.foldl (fun best y => if decide (key best < key y) then y else best) x
    m ∈ x :: xs ∧ key x ≤ key m ∧ ∀ y ∈ xs, key y ≤ key m := by
  induction xs generalizing x with
  | nil => simp
  | cons a as ih =>
    simp only [List.foldl_cons]
    by_cases h : key x < key a
    · simp only [h, decide_True, if_true]
      obtain ⟨h1, h2, h3⟩ := ih a
      refine ⟨?_, by omega, ?_⟩
      · simp only [List.mem_cons] at h1 ⊢
        tauto
      · intro y hy
        simp only [List.mem_cons] at hy
        rcases hy with rfl | hy
        · exact h2
        · exact h3 y hy
    · simp only [h, decide_False, Bool.false_eq_true, if_false]
      obtain ⟨h1, h2, h3⟩ := ih x
      refine ⟨?_, h2, ?_⟩
      · simp only [List.mem_cons] at h1 ⊢
        tauto
      · intro y hy
        simp only [List.mem_cons] at hy
        rcases hy with rfl | hy
        · omega
        · exact h3 y hy

theorem maxElement_spec (key : Nat → Int) (l : List Nat) (m : Nat)
    (h : maxElement (fun a b => decide (key a < key b)) l = some m) :
    m ∈ l ∧ ∀ y ∈ l, key y ≤ key m := by
  cases l with
  | nil => simp [maxElement] at h
  | cons x xs =>
    simp only [maxElement, Option.some.injEq] at h
    obtain ⟨h1, h2, h3⟩ := foldl_max_spec key xs x
    rw [h] at h1 h2 h3
    refine ⟨h1, ?_⟩
    intro y hy
    simp only [List.mem_cons] at hy
    rcases hy with rfl | hy
    · exact h2
    · exact h3 y hy

theorem maxElement_eq_none (lt : Nat → Nat → Bool) (l : List Nat) :
    maxElement lt l = none ↔ l = [] := by
  cases l <;> simp [maxElement]

/-! ## Basic facts: the loop combinator -/

theorem whileLoop_inv {σ : Type} (cond : σ → Bool) (body : σ → σ) (I : σ → Prop)
    (μ : σ → Nat)
    (hstep : ∀ s, I s → cond s = true → I (body s) ∧ μ (body s) < μ s) :
    ∀ (fuel : Nat) (s : σ), I s → μ s ≤ fuel →
      ∃ s1, whileLoop cond body fuel s = some s1 ∧ I s1 ∧ cond s1 = false := by
  intro fuel
  induction fuel with
  | zero =>
    intro s hI hμ
    by_cases hc : cond s = true
    · have := (hstep s hI hc).2
      omega
    · exact ⟨s, by simp [whileLoop, hc], hI, by simpa using hc⟩
  | succ f ih =>
    intro s hI hμ
    by_cases hc : cond s = true
    · obtain ⟨h1, h2⟩ := hstep s hI hc
      obtain ⟨s1, e, r⟩ := ih (body s) h1 (by omega)
      exact ⟨s1, by simp [whileLoop, hc, e], r⟩
    · exact ⟨s, by simp [whileLoop, hc], hI, by simpa using hc⟩

theorem whileLoop_safe {σ : Type} (cond : σ → Bool) (body : σ → σ) (I : σ → Prop)
    (hstep : ∀ s, I s → cond s = true → I (body s)) :
    ∀ (fuel : Nat) (s s1 : σ), I s → whileLoop cond body fuel s = some s1 → I s1 := by
  intro fuel
  induction fuel with
  | zero =>
    intro s s1 hI h
    by_cases hc : cond s = true
    · simp [whileLoop, hc] at h
    · simp [whileLoop, hc] at h
      exact h ▸ hI
  | succ f ih =>
    intro s s1 hI h
    by_cases hc : cond s = true
    · simp only [whileLoop, hc, if_true] at h
      exact ih _ _ (hstep s hI hc) h
    · simp [whileLoop, hc] at h
      exact h ▸ hI

theorem whileLoop_logged (select : SimState → Option Nat) (body : SimState → SimState) :
    ∀ (fuel : Nat) (s : SimState) (T : List Nat),
      (whileLoop (fun st => running st.1) (logged select body) fuel (s, T)).map
        (fun st => st.1) = whileLoop running body fuel s := by
  intro fuel
  induction fuel with
  | zero =>
    intro s T
    by_cases hc : running s = true <;> simp [whileLoop, hc]
  | succ f ih =>
    intro s T
    by_cases hc : running s = true
    · simp only [whileLoop, hc, if_true]
      exact ih _ _
    · simp [whileLoop, hc]

theorem whileLoop_exit {σ : Type} (cond : σ → Bool) (body : σ → σ) :
    ∀ (fuel : Nat) (s s1 : σ), whileLoop cond body fuel s = some s1 → cond s1 = false := by
  intro fuel
  induction fuel with
  | zero =>
    intro s s1 h
    by_cases hc : cond s = true
    · simp [whileLoop, hc] at h
    · simp [whileLoop, hc] at h
      subst h
      simpa using hc
  | succ f ih =>
    intro s s1 h
    by_cases hc : cond s = true
    · simp only [whileLoop, hc, if_true] at h
      exact ih _ _ h
    · simp [whileLoop, hc] at h
      subst h
      simpa using hc

theorem whileLoop_fuel_add {σ : Type} (cond : σ → Bool) (body : σ → σ) (k : Nat) :
    ∀ (fuel : Nat) (s r : σ), whileLoop cond body fuel s = some r →
      whileLoop cond body (fuel + k) s = some r := by
  intro fuel
  induction fuel with
  | zero =>
    intro s r h
    by_cases hc : cond s = true
    · simp [whileLoop, hc] at h
    · simp only [whileLoop, hc] at h
      cases k <;> simpa [whileLoop, hc] using h
  | succ f ih =>
    intro s r h
    have hk : f + 1 + k = (f + k) + 1 := by omega
    rw [hk]
    by_cases hc : cond s = true
    · simp only [whileLoop, hc, if_true] at h ⊢
      exact ih _ _ h
    · simpa [whileLoop, hc] using h

/-! ## Arithmetic on `int` -/

theorem wrapInt_eq {x : Int} (h1 : -2147483648 ≤ x) (h2 : x ≤ 2147483647) :
    wrapInt x = x := by
  unfold wrapInt
  omega

theorem wrapInt_range (x : Int) : -2147483648 ≤ wrapInt x ∧ wrapInt x ≤ 2147483647 := by
  unfold wrapInt
  omega

theorem wrapInt_le_self {x : Int} (h : 0 ≤ x) : wrapInt x ≤ x := by
  unfold wrapInt
  omega

/-! ## What one loop iteration does -/

theorem EqModPrio.rfl_ (p : Process) : EqModPrio p p :=
  ⟨rfl, rfl, rfl, rfl, rfl, rfl⟩

theorem EqModPrio.trans_ {p q r : Process} (h1 : EqModPrio p q) (h2 : EqModPrio q r) :
    EqModPrio p r := by
  obtain ⟨a1, a2, a3, a4, a5, a6⟩ := h1
  obtain ⟨b1, b2, b3, b4, b5, b6⟩ := h2
  exact ⟨a1.trans b1, a2.trans b2, a3.trans b3, a4.trans b4, a5.trans b5, a6.trans b6⟩

theorem getD_of_getElem? {ps : List Process} {i : Nat} {p : Process}
    (h : ps[i]? = some p) : ps.getD i default = p := by
  rw [List.getD_eq_getElem?_getD, h]
  rfl

theorem lt_of_getElem? {ps : List Process} {i : Nat} {p : Process}
    (h : ps[i]? = some p) : i < ps.length := by
  obtain ⟨h1, _⟩ := List.getElem?_eq_some.1 h
  exact h1

theorem sjfStep_spec (s : SimState) :
    (sjfSelect s = none ∧ IdleStep s (sjfStep s)) ∨
      ∃ cur, sjfSelect s = some cur ∧ DispatchStep false s cur (sjfStep s) := by
  cases hsel : sjfSelect s with
  | none =>
    left
    refine ⟨rfl, ?_⟩
    have hnil : admission s.processes s.currentTime s.readyQueue = [] :=
      (minElement_eq_none _ _).1 hsel
    simp [IdleStep, sjfStep, hsel, hnil]
  | some cur =>
    right
    refine ⟨cur, rfl, ?_⟩
    have hmem := (minElement_spec
      (fun a => (s.processes.getD a default).executionTime) _ cur hsel).1
    refine ⟨hmem, by simp [sjfStep, hsel], by simp [sjfStep, hsel],
      by simp [sjfStep, hsel], ?_, ?_⟩
    · intro j hj q hq
      refine ⟨q, ?_, EqModPrio.rfl_ q⟩
      simp only [sjfStep, hsel]
      rw [List.getElem?_set_ne (Ne.symm hj)]
      exact hq
    · intro p hp
      have hlt := lt_of_getElem? hp
      have hget := getD_of_getElem? hp
      simp only [sjfStep, hsel, hget]
      refine ⟨?_, _, List.getElem?_set_self hlt, ?_, ?_, ?_, ?_, ?_⟩ <;> simp

theorem sjfSelect_min (s : SimState) (cur : Nat) (h : sjfSelect s = some cur) :
    ∀ j ∈ admission s.processes s.currentTime s.readyQueue,
      (s.processes.getD cur default).executionTime
        ≤ (s.processes.getD j default).executionTime :=
  (minElement_spec (fun a => (s.processes.getD a default).executionTime) _ cur h).2

/-! ### The aging pass -/

theorem ageReady_length (thr now : Int) (rq : List Nat) (ps : List Process) :
    (ageReady thr now rq ps).length = ps.length := by
  induction rq generalizing ps with
  | nil => simp [ageReady]
  | cons i rest ih =>
    simp only [ageReady]
    rw [ih]
    split <;> simp

theorem ageReady_get (thr now : Int) (rq : List Nat) (ps : List Process) (j : Nat)
    (q : Process) (h : ps[j]? = some q) :
    ∃ q1, (ageReady thr now rq ps)[j]? = some q1 ∧ EqModPrio q1 q := by
  induction rq generalizing ps q with
  | nil => exact ⟨q, by simpa [ageReady] using h, EqModPrio.rfl_ q⟩
  | cons i rest ih =>
    simp only [ageReady]
    by_cases hc : wrapInt (now - (ps.getD i default).arrivalTime) ≥ thr
    · simp only [hc, if_true]
      by_cases hij : i = j
      · subst hij
        have hget := getD_of_getElem? h
        obtain ⟨q1, e1, e2⟩ := ih (ps.set i
          { ps.getD i default with
            priority := max 1 (wrapInt ((ps.getD i default).priority - 1)) })
          _ (List.getElem?_set_self (lt_of_getElem? h))
        refine ⟨q1, e1, e2.trans_ ?_⟩
        rw [hget]
        exact EqModPrio.rfl_ q
      · obtain ⟨q1, e1, e2⟩ := ih (ps.set i
          { ps.getD i default with
            priority := max 1 (wrapInt ((ps.getD i default).priority - 1)) })
          q (by rw [List.getElem?_set_ne hij]; exact h)
        exact ⟨q1, e1, e2⟩
    · simp only [hc, if_false]
      exact ih ps q h

theorem agingStep_spec (thr : Int) (s : SimState) :
    (agingSelect thr s = none ∧ IdleStep s (agingStep thr s)) ∨
      ∃ cur, agingSelect thr s = some cur ∧ DispatchStep true s cur (agingStep thr s) := by
  cases hsel : agingSelect thr s with
  | none =>
    left
    refine ⟨rfl, ?_⟩
    have hnil : admission s.processes s.currentTime s.readyQueue = [] :=
      (maxElement_eq_none _ _).1 hsel
    simp [IdleStep, agingStep, hsel, hnil, agedProcesses, ageReady]
  | some cur =>
    right
    refine ⟨cur, rfl, ?_⟩
    have hmem := (maxElement_spec
      (fun a => ((agedProcesses thr s).getD a default).priority) _ cur hsel).1
    refine ⟨hmem, by simp [agingStep, hsel], by simp [agingStep, hsel],
      by simp [agingStep, hsel, agedProcesses, ageReady_length], ?_, ?_⟩
    · intro j hj q hq
      obtain ⟨q1, e1, e2⟩ := ageReady_get thr s.currentTime
        (admission s.processes s.currentTime s.readyQueue) s.processes j q hq
      refine ⟨q1, ?_, e2⟩
      simp only [agingStep, hsel]
      rw [List.getElem?_set_ne (Ne.symm hj)]
      exact e1
    · intro p hp
      obtain ⟨q1, e1, e2⟩ := ageReady_get thr s.currentTime
        (admission s.processes s.currentTime s.readyQueue) s.processes cur p hp
      have e1' : (agedProcesses thr s)[cur]? = some q1 := e1
      have hlt := lt_of_getElem? e1'
      have hget := getD_of_getElem? e1'
      obtain ⟨b1, b2, b3, b4, b5, b6⟩ := e2
      simp only [agingStep, hsel, hget]
      by_cases hs : q1.startTime = -1
      · have hs' : p.startTime = -1 := by rw [← b4]; exact hs
        simp only [hs, if_true]
        refine ⟨by rw [b3], _, List.getElem?_set_self hlt, b1, b2, rfl, by simp [b3], ?_⟩
        simp [hs', b2]
      · have hs' : ¬ p.startTime = -1 := by rw [← b4]; exact hs
        simp only [hs, if_false]
        refine ⟨by rw [b3], _, List.getElem?_set_self hlt, b1, b2, rfl, by simp [b3], ?_⟩
        simp [hs', b4, b6]

/-! ## The scheduling invariant shared by both engines -/

theorem get_of_lt {orig : List Process} {i : Nat} (h : i < orig.length) :
    ∃ o, orig[i]? = some o ∧ o ∈ orig :=
  ⟨orig[i], List.getElem?_eq_getElem h, List.getElem_mem h⟩

theorem mem_of_getElem? {orig : List Process} {i : Nat} {o : Process}
    (h : orig[i]? = some o) : o ∈ orig := by
  obtain ⟨h1, h2⟩ := List.getElem?_eq_some.1 h
  exact h2 ▸ List.getElem_mem h1

theorem execOf_eq {orig : List Process} {i : Nat} {o : Process} (h : orig[i]? = some o) :
    execOf orig i = o.executionTime := by
  unfold execOf
  rw [getD_of_getElem? h]

theorem exists_not_mem_of_length_lt (T : List Nat) (n : Nat) (hT : T.length < n) :
    ∃ i, i < n ∧ i ∉ T := by
  by_contra hcon
  push_neg at hcon
  have hsub : List.range n ⊆ T := by
    intro i hi
    exact hcon i (List.mem_range.1 hi)
  have := (List.subperm_of_subset (List.nodup_range n) hsub).length_le
  simp at this
  omega

theorem perm_range_of_length_ge (T : List Nat) (n : Nat) (hnd : T.Nodup)
    (hv : ∀ i ∈ T, i < n) (hT : n ≤ T.length) : T.Perm (List.range n) := by
  have hsub : T ⊆ List.range n := by
    intro i hi
    exact List.mem_range.2 (hv i hi)
  exact (List.subperm_of_subset hnd hsub).perm_of_length_le (by simpa using hT)

theorem sum_execOf_nonneg {orig : List Process} (hpos : ∀ o ∈ orig, 0 < o.executionTime)
    (T : List Nat) (hv : ∀ i ∈ T, i < orig.length) : 0 ≤ (T.map (execOf orig)).sum := by
  apply List.sum_nonneg
  intro x hx
  obtain ⟨i, hi, rfl⟩ := List.mem_map.1 hx
  obtain ⟨o, ho, hmem⟩ := get_of_lt (hv i hi)
  rw [execOf_eq ho]
  exact le_of_lt (hpos o hmem)

theorem map_execOf_range (orig : List Process) :
    (List.range orig.length).map (execOf orig) = orig.map (fun p => p.executionTime) := by
  apply List.ext_getElem
  · simp
  · intro i h1 h2
    simp only [List.length_map, List.length_range] at h1
    simp [execOf, List.getD_eq_getElem?_getD, List.getElem?_eq_getElem h1]

theorem sum_execOf_le {orig : List Process} (hpos : ∀ o ∈ orig, 0 < o.executionTime)
    (L : List Nat) (hnd : L.Nodup) (hv : ∀ i ∈ L, i < orig.length) :
    (L.map (execOf orig)).sum ≤ sumExec orig := by
  have hsub : L ⊆ List.range orig.length := fun i hi => List.mem_range.2 (hv i hi)
  obtain ⟨l, hl, hsl⟩ := List.subperm_of_subset hnd hsub
  have h1 : (l.map (execOf orig)).sum = (L.map (execOf orig)).sum := (hl.map _).sum_eq
  have h2 := (hsl.map (execOf orig)).sum_le_sum (by
    intro a ha
    obtain ⟨i, hi, rfl⟩ := List.mem_map.1 ha
    obtain ⟨o, ho, hmem⟩ := get_of_lt (List.mem_range.1 hi)
    rw [execOf_eq ho]
    exact le_of_lt (hpos o hmem))
  rw [map_execOf_range] at h2
  rw [← h1]
  exact h2

theorem Inv.exists_pending {g : Bool} {M : Int} {orig : List Process} {T : List Nat}
    {s : SimState} (h : Inv g M orig T s) (hrun : running s = true) :
    ∃ i o p, orig[i]? = some o ∧ i ∉ T ∧ s.processes[i]? = some p ∧ EqModPrio p o := by
  have hlt : T.length < orig.length := by
    have := h.cnt
    have := h.len
    simp [running] at hrun
    omega
  obtain ⟨i, hi, hiT⟩ := exists_not_mem_of_length_lt T orig.length hlt
  obtain ⟨o, ho, _⟩ := get_of_lt hi
  obtain ⟨p, hp, he⟩ := h.pend i o ho hiT
  exact ⟨i, o, p, ho, hiT, hp, he⟩

theorem Inv.idle_lt {g : Bool} {M : Int} {orig : List Process} {T : List Nat}
    {s : SimState} (h : Inv g M orig T s) (hpos : ∀ o ∈ orig, 0 < o.executionTime)
    (hM : ∀ o ∈ orig, o.arrivalTime ≤ M) (hrun : running s = true)
    (hnil : admission s.processes s.currentTime s.readyQueue = []) : s.currentTime < M := by
  obtain ⟨i, o, p, ho, _, hp, he⟩ := h.exists_pending hrun
  have hmem := mem_of_getElem? ho
  have h1 := hM o hmem
  have h2 := hpos o hmem
  by_contra hcon
  have : i ∈ admission s.processes s.currentTime s.readyQueue := by
    rw [mem_admission]
    right
    refine ⟨p, hp, ?_, ?_⟩
    · rw [he.2.1]; omega
    · rw [he.2.2.1]; exact h2
  rw [hnil] at this
  simp at this

theorem Inv.idle {g : Bool} {M : Int} {orig : List Process} {T : List Nat}
    {s s1 : SimState} (h : Inv g M orig T s) (hpos : ∀ o ∈ orig, 0 < o.executionTime)
    (hM : ∀ o ∈ orig, o.arrivalTime ≤ M) (hrun : running s = true)
    (hid : Idle s s1) : Inv g M orig T s1 := by
  obtain ⟨hnil, hps, hrq, hnow, hcnt⟩ := hid
  have hlt := h.idle_lt hpos hM hrun hnil
  have hsum := sum_execOf_nonneg hpos T h.tvalid
  refine ⟨by rw [hps]; exact h.len, by rw [hnow]; have := h.now_nonneg; omega,
    by rw [hcnt]; exact h.cnt, h.tnodup, h.tvalid, by rw [hrq]; exact List.nodup_nil,
    by rw [hrq]; simp, by rw [hps]; exact h.pend, ?_, by rw [hnow]; omega,
    h.pos, h.arr, h.cap, h.low⟩
  intro i o ho hi
  obtain ⟨p, t, hp, hf, ht⟩ := h.done i o ho hi
  exact ⟨p, t, by rw [hps]; exact hp, hf, by rw [hnow]; omega⟩

theorem Inv.admission_pend {g : Bool} {M : Int} {orig : List Process} {T : List Nat}
    {s : SimState} (h : Inv g M orig T s) (i : Nat)
    (hi : i ∈ admission s.processes s.currentTime s.readyQueue) :
    i ∉ T ∧ ∃ p, s.processes[i]? = some p ∧ p.arrivalTime ≤ s.currentTime := by
  rcases (mem_admission _ _ _ _).1 hi with hin | ⟨p, hp, ha, he⟩
  · exact h.rq_pend i hin
  · refine ⟨?_, p, hp, ha⟩
    intro hT
    obtain ⟨o, ho, _⟩ := get_of_lt (h.tvalid i hT)
    obtain ⟨p2, t, hp2, hf, _⟩ := h.done i o ho hT
    rw [hp] at hp2
    cases hp2
    have := hf.2.2.1
    omega

theorem Inv.dispatch {g : Bool} {M : Int} {orig : List Process} {T : List Nat}
    {s s1 : SimState} {cur : Nat} (h : Inv g M orig T s)
    (hpos : ∀ o ∈ orig, 0 < o.executionTime) (hd : Dispatches g s cur s1) :
    Inv g M orig (T ++ [cur]) s1 := by
  obtain ⟨hmem, hrq, hcnt, hlen, hoth, hcur⟩ := hd
  obtain ⟨hcT, p, hp, harr⟩ := h.admission_pend cur hmem
  have hclt : cur < orig.length := by rw [← h.len]; exact lt_of_getElem? hp
  obtain ⟨o, ho, homem⟩ := get_of_lt hclt
  obtain ⟨p2, hp2, hpo⟩ := h.pend cur o ho hcT
  rw [hp] at hp2
  cases hp2
  obtain ⟨hnow, p1, hp1, c1, c2, c3, c4, c5⟩ := hcur p hp
  obtain ⟨b1, b2, b3, b4, b5, b6⟩ := hpo
  have hopos := hpos o homem
  have hnn := h.now_nonneg
  refine ⟨hlen.trans h.len, by rw [hnow]; omega, by rw [hcnt, h.cnt]; simp, ?_, ?_, ?_, ?_,
    ?_, ?_, ?_, h.pos, h.arr, h.cap, h.low⟩
  · rw [List.nodup_append]
    refine ⟨h.tnodup, List.nodup_singleton cur, ?_⟩
    intro a ha hb
    simp at hb
    subst hb
    exact hcT ha
  · intro i hi
    rcases List.mem_append.1 hi with hi | hi
    · exact h.tvalid i hi
    · simp at hi
      subst hi
      exact hclt
  · rw [hrq]
    exact (admission_nodup _ _ _ h.rq_nodup).erase cur
  · intro i hi
    rw [hrq, (admission_nodup _ _ _ h.rq_nodup).mem_erase_iff] at hi
    obtain ⟨hne, hia⟩ := hi
    obtain ⟨hiT, q, hq, hqa⟩ := h.admission_pend i hia
    obtain ⟨q1, hq1, e⟩ := hoth i hne q hq
    refine ⟨?_, q1, hq1, ?_⟩
    · intro hi2
      rcases List.mem_append.1 hi2 with hi2 | hi2
      · exact hiT hi2
      · simp at hi2
        exact hne hi2
    · rw [e.2.1, hnow]
      omega
  · intro i oi hoi hiT
    have hiT1 : i ∉ T := fun hx => hiT (List.mem_append.2 (Or.inl hx))
    have hne : i ≠ cur := fun hx => hiT (List.mem_append.2 (Or.inr (by simp [hx])))
    obtain ⟨q, hq, e⟩ := h.pend i oi hoi hiT1
    obtain ⟨q1, hq1, e1⟩ := hoth i hne q hq
    exact ⟨q1, hq1, e1.trans_ e⟩
  · intro i oi hoi hiT
    rcases List.mem_append.1 hiT with hi | hi
    · have hne : i ≠ cur := fun hx => hcT (hx ▸ hi)
      obtain ⟨q, t, hq, hf, ht⟩ := h.done i oi hoi hi
      obtain ⟨q1, hq1, e1⟩ := hoth i hne q hq
      refine ⟨q1, t, hq1, ?_, by rw [hnow]; omega⟩
      obtain ⟨f1, f2, f3, f4, f5, f6, f7⟩ := hf
      obtain ⟨a1, a2, a3, a4, a5, a6⟩ := e1
      refine ⟨a1.trans f1, a2.trans f2, a3.trans f3, f4, f5, a5.trans f6, ?_⟩
      rw [a4, a6]
      exact f7
    · simp at hi
      subst hi
      rw [ho] at hoi
      cases hoi
      refine ⟨p1, s.currentTime, hp1, ?_, by rw [hnow]; omega⟩
      refine ⟨c1.trans b1, c2.trans b2, c3, hnn, by omega, by rw [c4, b3], ?_⟩
      rw [b4, b6, b2] at c5
      exact c5
  · rw [hnow]
    have := h.bound
    simp only [List.map_append, List.sum_append, List.map_cons, List.map_nil, List.sum_cons,
      List.sum_nil, add_zero]
    rw [execOf_eq ho]
    omega

/-! ## Running the loop to completion -/

theorem maxArrival_nonneg (ps : List Process) : 0 ≤ maxArrival ps := by
  induction ps with
  | nil => simp [maxArrival]
  | cons p ps ih =>
    simp only [maxArrival, List.foldr_cons] at ih ⊢
    exact le_max_of_le_right ih

theorem le_maxArrival (ps : List Process) : ∀ p ∈ ps, p.arrivalTime ≤ maxArrival ps := by
  induction ps with
  | nil => simp
  | cons q ps ih =>
    intro p hp
    simp only [maxArrival, List.foldr_cons] at ih ⊢
    rcases List.mem_cons.1 hp with rfl | hp
    · exact le_max_left _ _
    · exact le_max_of_le_right (ih p hp)

theorem maxArrival_attained (ps : List Process) (hne : ps ≠ [])
    (h : ∀ p ∈ ps, 0 ≤ p.arrivalTime) : ∃ p ∈ ps, p.arrivalTime = maxArrival ps := by
  induction ps with
  | nil => exact absurd rfl hne
  | cons p rest ih =>
    have hp := h p (List.mem_cons_self _ _)
    by_cases hrest : rest = []
    · subst hrest
      exact ⟨p, List.mem_cons_self _ _, by simp [maxArrival, hp]⟩
    · obtain ⟨q, hq, hqe⟩ := ih hrest (fun x hx => h x (List.mem_cons_of_mem _ hx))
      simp only [maxArrival, List.foldr_cons] at hqe ⊢
      by_cases hle : p.arrivalTime ≤ q.arrivalTime
      · exact ⟨q, List.mem_cons_of_mem _ hq, by rw [← hqe]; exact (max_eq_right hle).symm⟩
      · exact ⟨p, List.mem_cons_self _ _, by
          rw [← hqe]; exact (max_eq_left (by omega)).symm⟩

theorem Inv.dispatch_time {g : Bool} {M : Int} {orig : List Process} {T : List Nat}
    {s s1 : SimState} {cur : Nat} (h : Inv g M orig T s)
    (hpos : ∀ o ∈ orig, 0 < o.executionTime) (hd : Dispatches g s cur s1) :
    s.currentTime < s1.currentTime := by
  obtain ⟨hmem, _, _, _, _, hcur⟩ := hd
  obtain ⟨hcT, p, hp, _⟩ := h.admission_pend cur hmem
  have hclt : cur < orig.length := by rw [← h.len]; exact lt_of_getElem? hp
  obtain ⟨o, ho, homem⟩ := get_of_lt hclt
  obtain ⟨p2, hp2, hpo⟩ := h.pend cur o ho hcT
  rw [hp] at hp2
  cases hp2
  have := (hcur p hp).1
  have := hpos o homem
  have := hpo.2.2.1
  omega

theorem Inv.clock_le {g : Bool} {M : Int} {orig : List Process} {T : List Nat}
    {s : SimState} (h : Inv g M orig T s) : s.currentTime ≤ M + sumExec orig := by
  have h1 := h.bound
  have h2 := sum_execOf_le h.pos T h.tnodup h.tvalid
  omega

/-- Under the invariant the waiting time of a ready process, as the program
computes it, does not overflow. -/
theorem Inv.wait_fits {g : Bool} {M : Int} {orig : List Process} {T : List Nat}
    {s : SimState} (h : Inv g M orig T s) (i : Nat)
    (hi : i ∈ admission s.processes s.currentTime s.readyQueue) (q : Process)
    (hq : s.processes[i]? = some q) :
    wrapInt (s.currentTime - q.arrivalTime) = s.currentTime - q.arrivalTime ∧
      0 ≤ s.currentTime - q.arrivalTime := by
  obtain ⟨hiT, p, hp, harr⟩ := h.admission_pend i hi
  rw [hq] at hp
  cases hp
  have hilt : i < orig.length := by rw [← h.len]; exact lt_of_getElem? hq
  obtain ⟨o, ho, homem⟩ := get_of_lt hilt
  obtain ⟨p2, hp2, e⟩ := h.pend i o ho hiT
  rw [hq] at hp2
  cases hp2
  have hlow := h.low o homem
  have hclk := h.clock_le
  have e2 := e.2.1
  exact ⟨wrapInt_eq (by omega) (by omega), by omega⟩

/-- Under the invariant no time computation of the next iteration overflows: the
iteration is an idle tick or a dispatch in mathematical integers. -/
theorem Inv.ideal {g : Bool} {M : Int} {orig : List Process} {T : List Nat}
    {s : SimState} {select : SimState → Option Nat} {step : SimState → SimState}
    (h : Inv g M orig T s) (hrun : running s = true) (hspec : StepSpec g select step) :
    (select s = none ∧ Idle s (step s)) ∨
      ∃ cur, select s = some cur ∧ Dispatches g s cur (step s) := by
  have hnn := h.now_nonneg
  have hcap := h.cap
  rcases hspec s with ⟨hsel, hid⟩ | ⟨cur, hsel, hd⟩
  · left
    obtain ⟨hnil, hps, hrq, hnow, hcnt⟩ := hid
    have hlt := h.idle_lt h.pos h.arr hrun hnil
    have hsum := sum_execOf_le h.pos [] List.nodup_nil (by simp)
    simp only [List.map_nil, List.sum_nil] at hsum
    refine ⟨hsel, hnil, hps, hrq, ?_, hcnt⟩
    rw [hnow]
    exact wrapInt_eq (by omega) (by omega)
  · right
    obtain ⟨hmem, hrq, hcnt, hlen, hoth, hcur⟩ := hd
    refine ⟨cur, hsel, hmem, hrq, hcnt, hlen, hoth, ?_⟩
    intro p hp
    obtain ⟨hcT, p', hp', harr⟩ := h.admission_pend cur hmem
    rw [hp] at hp'
    cases hp'
    have hclt : cur < orig.length := by rw [← h.len]; exact lt_of_getElem? hp
    obtain ⟨o, ho, homem⟩ := get_of_lt hclt
    obtain ⟨p2, hp2, e⟩ := h.pend cur o ho hcT
    rw [hp] at hp2
    cases hp2
    have hopos := h.pos o homem
    have hsum := sum_execOf_le h.pos (T ++ [cur])
      (by
        rw [List.nodup_append]
        refine ⟨h.tnodup, List.nodup_singleton cur, ?_⟩
        intro a ha hb
        simp at hb
        subst hb
        exact hcT ha)
      (by
        intro i hi
        rcases List.mem_append.1 hi with hi | hi
        · exact h.tvalid i hi
        · simp at hi
          subst hi
          exact hclt)
    simp only [List.map_append, List.sum_append, List.map_cons, List.map_nil, List.sum_cons,
      List.sum_nil, add_zero] at hsum
    rw [execOf_eq ho] at hsum
    have hb := h.bound
    have e3 := e.2.2.1
    have hw1 : wrapInt (s.currentTime + p.executionTime)
        = s.currentTime + p.executionTime := wrapInt_eq (by omega) (by omega)
    have hw2 := (h.wait_fits cur hmem p hp).1
    obtain ⟨hnow, p1, hp1, c1, c2, c3, c4, c5⟩ := hcur p hp
    rw [hw1] at hnow c4
    rw [hw2] at c5
    exact ⟨hnow, p1, hp1, c1, c2, c3, c4, c5⟩

theorem logged_step {g : Bool} {M : Int} {orig : List Process}
    {select : SimState → Option Nat} {step : SimState → SimState}
    (hspec : StepSpec g select step) (hpos : ∀ o ∈ orig, 0 < o.executionTime)
    (hM : ∀ o ∈ orig, o.arrivalTime ≤ M) (st : SimState × List Nat)
    (h : Inv g M orig st.2 st.1) (hrun : running st.1 = true) :
    Inv g M orig (logged select step st).2 (logged select step st).1 ∧
      loopMeasure orig.length M (logged select step st) < loopMeasure orig.length M st := by
  have hlt : st.1.completedProcesses < orig.length := by
    have := h.len
    simp [running] at hrun
    omega
  rcases h.ideal hrun hspec with ⟨hsel, hid⟩ | ⟨cur, hsel, hd⟩
  · have hI := h.idle hpos hM hrun hid
    have hlt2 := h.idle_lt hpos hM hrun hid.1
    obtain ⟨_, _, _, hnow, hcnt⟩ := hid
    refine ⟨by simpa [logged, hsel] using hI, ?_⟩
    simp only [loopMeasure, logged, hnow, hcnt]
    omega
  · have hI := h.dispatch hpos hd
    have ht := h.dispatch_time hpos hd
    have hcnt := hd.2.2.1
    refine ⟨by simpa [logged, hsel] using hI, ?_⟩
    simp only [loopMeasure, logged, hcnt]
    omega

theorem Inv.init (g : Bool) (M : Int) (hM : 0 ≤ M) (ps : List Process)
    (hpos : ∀ o ∈ sortByArrival ps, 0 < o.executionTime)
    (harr : ∀ o ∈ sortByArrival ps, o.arrivalTime ≤ M)
    (hcap : M + sumExec (sortByArrival ps) ≤ 2147483647)
    (hlow : ∀ o ∈ sortByArrival ps, M + sumExec (sortByArrival ps) - o.arrivalTime
      ≤ 2147483647) :
    Inv g M (sortByArrival ps) [] (initState ps) := by
  refine ⟨rfl, le_refl _, rfl, List.nodup_nil, by simp, List.nodup_nil, by simp [initState],
    ?_, by simp, by simpa [initState] using hM, hpos, harr, hcap, hlow⟩
  intro i o ho _
  exact ⟨o, ho, EqModPrio.rfl_ o⟩

theorem sumExec_sort (ps : List Process) : sumExec (sortByArrival ps) = sumExec ps := by
  unfold sumExec
  exact ((sortByArrival_perm ps).map _).sum_eq

/-- The invariant holds on entry to the loop for a batch that can be simulated
without overflow. -/
theorem Inv.entry (g : Bool) (ps : List Process) (hpos : ∀ o ∈ ps, 0 < o.executionTime)
    (hfit : NoOverflow ps) :
    Inv g (maxArrival ps) (sortByArrival ps) [] (initState ps) := by
  apply Inv.init g (maxArrival ps) (maxArrival_nonneg ps) ps
  · exact fun o ho => hpos o ((sortByArrival_perm ps).mem_iff.1 ho)
  · exact fun o ho => le_maxArrival ps o ((sortByArrival_perm ps).mem_iff.1 ho)
  · rw [sumExec_sort]
    exact hfit.1
  · intro o ho
    rw [sumExec_sort]
    exact hfit.2 o ((sortByArrival_perm ps).mem_iff.1 ho)

/-- Total correctness of the instrumented loop: with enough fuel the loop exits,
and at exit the invariant `Inv` and any further invariant `J` hold. -/
theorem loop_total {g : Bool} {M : Int} {ps : List Process}
    {select : SimState → Option Nat} {step : SimState → SimState}
    (hspec : StepSpec g select step)
    (h0 : Inv g M (sortByArrival ps) [] (initState ps))
    (J : SimState × List Nat → Prop) (hJ0 : J (initState ps, []))
    (hJ : ∀ st, Inv g M (sortByArrival ps) st.2 st.1 → J st → running st.1 = true →
      J (logged select step st))
    (fuel : Nat) (hfuel : ps.length + M.toNat ≤ fuel) :
    ∃ st, whileLoop (fun st => running st.1) (logged select step) fuel (initState ps, [])
        = some st ∧ Inv g M (sortByArrival ps) st.2 st.1 ∧ J st ∧ running st.1 = false := by
  have hpos' := h0.pos
  have hM' := h0.arr
  obtain ⟨st, h1, ⟨h2, h3⟩, h4⟩ := whileLoop_inv (fun st => running st.1)
    (logged select step)
    (fun st => Inv g M (sortByArrival ps) st.2 st.1 ∧ J st)
    (loopMeasure (sortByArrival ps).length M)
    (by
      intro st hst hrun
      obtain ⟨a, b⟩ := logged_step hspec hpos' hM' st hst.1 hrun
      exact ⟨⟨a, hJ st hst.1 hst.2 hrun⟩, b⟩)
    fuel (initState ps, []) ⟨h0, hJ0⟩
    (by
      simp only [loopMeasure, initState, sortByArrival_length]
      simpa using hfuel)
  exact ⟨st, h1, h2, h3, h4⟩

/-- At loop exit every process has been dispatched. -/
theorem Inv.final {g : Bool} {M : Int} {orig : List Process} {T : List Nat} {s : SimState}
    (h : Inv g M orig T s) (hrun : running s = false) :
    T.Perm (List.range orig.length) ∧
      List.Forall₂ (fun o p => ∃ t, Finished g o t p ∧ t + o.executionTime ≤ s.currentTime)
        orig s.processes := by
  have hge : orig.length ≤ T.length := by
    have := h.len
    have := h.cnt
    simp [running] at hrun
    omega
  have hperm := perm_range_of_length_ge T orig.length h.tnodup h.tvalid hge
  refine ⟨hperm, ?_⟩
  rw [List.forall₂_iff_get]
  refine ⟨h.len.symm, ?_⟩
  intro i h1 h2
  have hiT : i ∈ T := hperm.mem_iff.2 (List.mem_range.2 h1)
  obtain ⟨p, t, hp, hf, ht⟩ := h.done i orig[i] (List.getElem?_eq_getElem h1) hiT
  have : s.processes[i] = p := by
    have := List.getElem?_eq_getElem h2
    rw [hp] at this
    exact (Option.some.inj this).symm
  simp only [List.get_eq_getElem]
  rw [this]
  exact ⟨t, hf, ht⟩

/-! ## Both engines run to completion -/

theorem sjf_total {ps : List Process} (hpos : ∀ o ∈ ps, 0 < o.executionTime)
    (hfit : NoOverflow ps) (J : SimState × List Nat → Prop) (hJ0 : J (initState ps, []))
    (hJ : ∀ st, Inv false (maxArrival ps) (sortByArrival ps) st.2 st.1 → J st →
      running st.1 = true → J (logged sjfSelect sjfStep st))
    (fuel : Nat) (hfuel : ps.length + (maxArrival ps).toNat ≤ fuel) :
    ∃ s T, sjfRun fuel ps = some s ∧ sjfDispatchLog fuel ps = some T ∧
      simulateSJF fuel ps = some s.processes ∧
      Inv false (maxArrival ps) (sortByArrival ps) T s ∧ J (s, T) ∧ running s = false := by
  obtain ⟨st, h1, h2, h3, h4⟩ := loop_total (fun s => sjfStep_spec s)
    (Inv.entry false ps hpos hfit) J hJ0 hJ fuel hfuel
  have hrun : sjfRun fuel ps = some st.1 := by
    unfold sjfRun
    rw [← whileLoop_logged sjfSelect sjfStep fuel (initState ps) [], h1]
    rfl
  refine ⟨st.1, st.2, hrun, ?_, ?_, h2, h3, h4⟩
  · unfold sjfDispatchLog
    rw [h1]
    rfl
  · unfold simulateSJF
    rw [hrun]
    rfl

theorem aging_total {ps : List Process} (thr : Int)
    (hpos : ∀ o ∈ ps, 0 < o.executionTime) (hfit : NoOverflow ps)
    (J : SimState × List Nat → Prop) (hJ0 : J (initState ps, []))
    (hJ : ∀ st, Inv true (maxArrival ps) (sortByArrival ps) st.2 st.1 → J st →
      running st.1 = true → J (logged (agingSelect thr) (agingStep thr) st))
    (fuel : Nat) (hfuel : ps.length + (maxArrival ps).toNat ≤ fuel) :
    ∃ s T, agingRun fuel ps thr = some s ∧ agingDispatchLog fuel ps thr = some T ∧
      simulateWithPriorityAndAging fuel ps thr = some s.processes ∧
      Inv true (maxArrival ps) (sortByArrival ps) T s ∧ J (s, T) ∧ running s = false := by
  obtain ⟨st, h1, h2, h3, h4⟩ := loop_total (fun s => agingStep_spec thr s)
    (Inv.entry true ps hpos hfit) J hJ0 hJ fuel hfuel
  have hrun : agingRun fuel ps thr = some st.1 := by
    unfold agingRun
    rw [← whileLoop_logged (agingSelect thr) (agingStep thr) fuel (initState ps) [], h1]
    rfl
  refine ⟨st.1, st.2, hrun, ?_, ?_, h2, h3, h4⟩
  · unfold agingDispatchLog
    rw [h1]
    rfl
  · unfold simulateWithPriorityAndAging
    rw [hrun]
    rfl

theorem forall₂_exists_left {α β : Type} {R : α → β → Prop} {l1 : List α} {l2 : List β}
    (h : List.Forall₂ R l1 l2) : ∀ b ∈ l2, ∃ a ∈ l1, R a b := by
  induction h with
  | nil => simp
  | cons hab _ ih =>
    intro b hb
    rcases List.mem_cons.1 hb with rfl | hb
    · exact ⟨_, List.mem_cons_self _ _, hab⟩
    · obtain ⟨a, ha, hr⟩ := ih b hb
      exact ⟨a, List.mem_cons_of_mem _ ha, hr⟩

theorem forall₂_map_eq {α β γ : Type} (f : α → γ) (f2 : β → γ) {l1 : List α} {l2 : List β}
    (h : List.Forall₂ (fun a b => f2 b = f a) l1 l2) : l2.map f2 = l1.map f := by
  induction h with
  | nil => rfl
  | cons hab _ ih => simp [hab, ih]

theorem mem_sort {ps : List Process} {o : Process} (h : o ∈ sortByArrival ps) : o ∈ ps :=
  (sortByArrival_perm ps).mem_iff.1 h

/-- The terminal batch of either engine, related record by record to the sorted
batch on entry. -/
theorem sjf_finished {ps : List Process} (hpos : ∀ o ∈ ps, 0 < o.executionTime)
    (hfit : NoOverflow ps) (fuel : Nat) (hfuel : ps.length + (maxArrival ps).toNat ≤ fuel) :
    ∃ out, simulateSJF fuel ps = some out ∧
      List.Forall₂ (fun o p => ∃ t, Finished false o t p) (sortByArrival ps) out := by
  obtain ⟨s, T, _, _, h3, h4, _, h6⟩ :=
    sjf_total hpos hfit (fun _ => True) trivial (fun _ _ _ _ => trivial) fuel hfuel
  exact ⟨s.processes, h3, (h4.final h6).2.imp (fun o p ⟨t, h, _⟩ => ⟨t, h⟩)⟩

theorem aging_finished {ps : List Process} (thr : Int)
    (hpos : ∀ o ∈ ps, 0 < o.executionTime) (hfit : NoOverflow ps)
    (fuel : Nat) (hfuel : ps.length + (maxArrival ps).toNat ≤ fuel) :
    ∃ out, simulateWithPriorityAndAging fuel ps thr = some out ∧
      List.Forall₂ (fun o p => ∃ t, Finished true o t p) (sortByArrival ps) out := by
  obtain ⟨s, T, _, _, h3, h4, _, h6⟩ :=
    aging_total thr hpos hfit (fun _ => True) trivial (fun _ _ _ _ => trivial) fuel hfuel
  exact ⟨s.processes, h3, (h4.final h6).2.imp (fun o p ⟨t, h, _⟩ => ⟨t, h⟩)⟩

/-! ## Every run, with or without overflow, runs to completion -/

theorem Live.ready_pending {T : List Nat} {s : SimState} (h : Live T s) (i : Nat)
    (hi : i ∈ admission s.processes s.currentTime s.readyQueue) :
    ∃ p, s.processes[i]? = some p ∧ 0 < p.executionTime := by
  rcases (mem_admission _ _ _ _).1 hi with hin | ⟨p, hp, _, he⟩
  · exact h.rq_pend i hin
  · exact ⟨p, hp, he⟩

theorem Live.iteration {g : Bool} {select : SimState → Option Nat}
    {step : SimState → SimState} (hspec : StepSpec g select step)
    (st : SimState × List Nat) (h : Live st.2 st.1) :
    Live (logged select step st).2 (logged select step st).1 ∧
      (logged select step st).1.processes.length = st.1.processes.length := by
  rcases hspec st.1 with ⟨hsel, hid⟩ | ⟨cur, hsel, hd⟩
  · obtain ⟨_, hps, hrq, hnow, hcnt⟩ := hid
    simp only [logged, hsel]
    exact ⟨⟨by rw [hcnt]; exact h.cnt, h.tnodup, by rw [hps]; exact h.tdone,
      by rw [hrq]; exact List.nodup_nil, by rw [hrq]; simp, by rw [hps]; exact h.pend,
      by rw [hnow]; exact (wrapInt_range _).1⟩, by rw [hps]⟩
  · obtain ⟨hmem, hrq, hcnt, hlen, hoth, hcur⟩ := hd
    obtain ⟨pc, hpc, hpos⟩ := h.ready_pending cur hmem
    have hcT : cur ∉ st.2 := by
      intro hx
      obtain ⟨p, hp, he⟩ := h.tdone cur hx
      rw [hpc] at hp
      cases hp
      omega
    simp only [logged, hsel]
    refine ⟨⟨by rw [hcnt, h.cnt]; simp, ?_, ?_, ?_, ?_, ?_, ?_⟩, hlen⟩
    · rw [List.nodup_append]
      refine ⟨h.tnodup, List.nodup_singleton cur, ?_⟩
      intro a ha hb
      simp at hb
      subst hb
      exact hcT ha
    · intro i hi
      rcases List.mem_append.1 hi with hi | hi
      · obtain ⟨p, hp, he⟩ := h.tdone i hi
        have hic : i ≠ cur := fun hx => hcT (hx ▸ hi)
        obtain ⟨q1, hq1, e⟩ := hoth i hic p hp
        exact ⟨q1, hq1, by rw [e.2.2.1]; exact he⟩
      · simp at hi
        subst hi
        obtain ⟨_, p1, hp1, _, _, c3, _⟩ := hcur pc hpc
        exact ⟨p1, hp1, c3⟩
    · rw [hrq]
      exact (admission_nodup _ _ _ h.rq_nodup).erase cur
    · intro i hi
      rw [hrq, (admission_nodup _ _ _ h.rq_nodup).mem_erase_iff] at hi
      obtain ⟨hne, hia⟩ := hi
      obtain ⟨p, hp, he⟩ := h.ready_pending i hia
      obtain ⟨q1, hq1, e⟩ := hoth i hne p hp
      exact ⟨q1, hq1, by rw [e.2.2.1]; exact he⟩
    · intro i p1 hp1 hiT
      have hiT1 : i ∉ st.2 := fun hx => hiT (List.mem_append.2 (Or.inl hx))
      have hne : i ≠ cur := fun hx => hiT (List.mem_append.2 (Or.inr (by simp [hx])))
      have hilt : i < st.1.processes.length := by
        rw [← hlen]
        exact lt_of_getElem? hp1
      obtain ⟨q1, hq1, e⟩ := hoth i hne _ (List.getElem?_eq_getElem hilt)
      rw [hp1] at hq1
      cases hq1
      have := h.pend i _ (List.getElem?_eq_getElem hilt) hiT1
      rw [e.2.1, e.2.2.1]
      exact this
    · rw [(hcur pc hpc).1]
      exact (wrapInt_range _).1

theorem Live.decreases {g : Bool} {select : SimState → Option Nat}
    {step : SimState → SimState} (hspec : StepSpec g select step)
    (st : SimState × List Nat) (h : Live st.2 st.1) (hrun : running st.1 = true) :
    liveMeasure st.1.processes.length (logged select step st)
      < liveMeasure st.1.processes.length st := by
  have hlt : st.1.completedProcesses < st.1.processes.length := by
    simpa [running] using hrun
  have hclk := h.clk
  rcases hspec st.1 with ⟨hsel, hid⟩ | ⟨cur, hsel, hd⟩
  · obtain ⟨hnil, hps, hrq, hnow, hcnt⟩ := hid
    obtain ⟨i, hi, hiT⟩ := exists_not_mem_of_length_lt st.2 st.1.processes.length
      (by rw [← h.cnt]; exact hlt)
    obtain ⟨hpos, harr⟩ := h.pend i _ (List.getElem?_eq_getElem hi) hiT
    have hlate : st.1.currentTime < (st.1.processes[i]).arrivalTime := by
      by_contra hcon
      have : i ∈ admission st.1.processes st.1.currentTime st.1.readyQueue :=
        (mem_admission _ _ _ _).2 (Or.inr ⟨_, List.getElem?_eq_getElem hi, by omega, hpos⟩)
      rw [hnil] at this
      simp at this
    have hw : wrapInt (st.1.currentTime + 1) = st.1.currentTime + 1 :=
      wrapInt_eq (by omega) (by omega)
    simp only [liveMeasure, logged, hnow, hcnt, hw]
    omega
  · obtain ⟨hmem, _, hcnt, _, _, hcur⟩ := hd
    obtain ⟨pc, hpc, _⟩ := h.ready_pending cur hmem
    have hnow := (hcur pc hpc).1
    have hr := (wrapInt_range (st.1.currentTime + pc.executionTime)).1
    simp only [liveMeasure, logged, hnow, hcnt]
    omega

theorem Live.on_entry (ps : List Process)
    (hpre : ∀ p ∈ ps, 0 < p.executionTime ∧ p.arrivalTime ≤ 2147483647) :
    Live [] (initState ps) := by
  refine ⟨rfl, List.nodup_nil, by simp, List.nodup_nil, by simp [initState], ?_,
    by simp [initState]⟩
  intro i p hp _
  exact hpre p (mem_sort (mem_of_getElem? hp))

/-- At loop exit every process has been dispatched exactly once and is
completed. -/
theorem Live.at_exit {T : List Nat} {s : SimState} (h : Live T s) (hrun : running s = false) :
    T.Perm (List.range s.processes.length) ∧ ∀ p ∈ s.processes, p.executionTime = 0 := by
  have hge : s.processes.length ≤ T.length := by
    have := h.cnt
    simp [running] at hrun
    omega
  have hperm := perm_range_of_length_ge T s.processes.length h.tnodup
    (fun i hi => by
      obtain ⟨p, hp, _⟩ := h.tdone i hi
      exact lt_of_getElem? hp) hge
  refine ⟨hperm, ?_⟩
  intro p hp
  obtain ⟨i, hi⟩ := List.mem_iff_getElem?.1 hp
  have hiT : i ∈ T := hperm.mem_iff.2 (List.mem_range.2 (lt_of_getElem? hi))
  obtain ⟨q, hq, he⟩ := h.tdone i hiT
  rw [hi] at hq
  cases hq
  exact he

/-- Whatever the stored times do, the instrumented loop of either engine exits
on a batch of uncompleted processes whose arrival times are `int` values, within
2^32 iterations per process plus 2^31. -/
theorem live_total {g : Bool} {select : SimState → Option Nat}
    {step : SimState → SimState} (hspec : StepSpec g select step) (ps : List Process)
    (hpre : ∀ p ∈ ps, 0 < p.executionTime ∧ p.arrivalTime ≤ 2147483647)
    (fuel : Nat) (hfuel : ps.length * 4294967296 + 2147483648 ≤ fuel) :
    ∃ st, whileLoop (fun st => running st.1) (logged select step) fuel (initState ps, [])
        = some st ∧ Live st.2 st.1 ∧ st.1.processes.length = ps.length ∧
        running st.1 = false := by
  obtain ⟨st, h1, ⟨h2, h3⟩, h4⟩ := whileLoop_inv (fun st => running st.1)
    (logged select step)
    (fun st => Live st.2 st.1 ∧ st.1.processes.length = ps.length)
    (liveMeasure ps.length)
    (by
      intro st hst hrun
      obtain ⟨a, b⟩ := Live.iteration hspec st hst.1
      have c := Live.decreases hspec st hst.1 hrun
      rw [hst.2] at c
      exact ⟨⟨a, b.trans hst.2⟩, c⟩)
    fuel (initState ps, []) ⟨Live.on_entry ps hpre, sortByArrival_length ps⟩
    (by
      simp only [liveMeasure, initState]
      omega)
  exact ⟨st, h1, h2, h3, h4⟩

/-- Whenever the instrumented loop exits, the invariant of every run holds at
exit. -/
theorem live_safe {g : Bool} {select : SimState → Option Nat}
    {step : SimState → SimState} (hspec : StepSpec g select step) (ps : List Process)
    (hpre : ∀ p ∈ ps, 0 < p.executionTime ∧ p.arrivalTime ≤ 2147483647)
    (fuel : Nat) (st : SimState × List Nat)
    (hst : whileLoop (fun st => running st.1) (logged select step) fuel (initState ps, [])
      = some st) :
    Live st.2 st.1 ∧ st.1.processes.length = ps.length ∧ running st.1 = false := by
  have hI := whileLoop_safe (fun st => running st.1) (logged select step)
    (fun st => Live st.2 st.1 ∧ st.1.processes.length = ps.length)
    (fun st hs _ => by
      obtain ⟨a, b⟩ := Live.iteration hspec st hs.1
      exact ⟨a, b.trans hs.2⟩)
    fuel _ st ⟨Live.on_entry ps hpre, sortByArrival_length ps⟩ hst
  exact ⟨hI.1, hI.2, whileLoop_exit (fun st => running st.1) (logged select step) fuel _ st hst⟩

theorem sjf_returns {ps : List Process}
    (hpre : ∀ p ∈ ps, 0 < p.executionTime ∧ p.arrivalTime ≤ 2147483647)
    (fuel : Nat) (hfuel : ps.length * 4294967296 + 2147483648 ≤ fuel) :
    ∃ out T, simulateSJF fuel ps = some out ∧ sjfDispatchLog fuel ps = some T ∧
      out.length = ps.length ∧ ∀ p ∈ out, p.executionTime = 0 := by
  obtain ⟨st, h1, h2, h3, h4⟩ := live_total (fun s => sjfStep_spec s) ps hpre fuel hfuel
  have hrun : sjfRun fuel ps = some st.1 := by
    unfold sjfRun
    rw [← whileLoop_logged sjfSelect sjfStep fuel (initState ps) [], h1]
    rfl
  refine ⟨st.1.processes, st.2, ?_, ?_, h3, (h2.at_exit h4).2⟩
  · unfold simulateSJF
    rw [hrun]
    rfl
  · unfold sjfDispatchLog
    rw [h1]
    rfl

theorem aging_returns {ps : List Process} (thr : Int)
    (hpre : ∀ p ∈ ps, 0 < p.executionTime ∧ p.arrivalTime ≤ 2147483647)
    (fuel : Nat) (hfuel : ps.length * 4294967296 + 2147483648 ≤ fuel) :
    ∃ out T, simulateWithPriorityAndAging fuel ps thr = some out ∧
      agingDispatchLog fuel ps thr = some T ∧
      out.length = ps.length ∧ ∀ p ∈ out, p.executionTime = 0 := by
  obtain ⟨st, h1, h2, h3, h4⟩ := live_total (fun s => agingStep_spec thr s) ps hpre fuel hfuel
  have hrun : agingRun fuel ps thr = some st.1 := by
    unfold agingRun
    rw [← whileLoop_logged (agingSelect thr) (agingStep thr) fuel (initState ps) [], h1]
    rfl
  refine ⟨st.1.processes, st.2, ?_, ?_, h3, (h2.at_exit h4).2⟩
  · unfold simulateWithPriorityAndAging
    rw [hrun]
    rfl
  · unfold agingDispatchLog
    rw [h1]
    rfl


/-- An overflowing run.  The two processes have total execution time 2^31: the
short one runs from 0 to 1, the long one starts at 1 and its `endTime`
`1 + 2147483647` wraps around to -2147483648, which is also the clock at loop
exit.  The properties about times therefore assume `NoOverflow`, which this
batch violates. -/
theorem simulateSJF_wraps :
    simulateSJF 2
      [ { id := 1, arrivalTime := 0, executionTime := 2147483647, priority := 1 },
        { id := 2, arrivalTime := 0, executionTime := 1, priority := 1 } ]
      = some
      [ { id := 1, arrivalTime := 0, executionTime := 0, priority := 1,
          startTime := 1, endTime := -2147483648, waitingTime := 1 },
        { id := 2, arrivalTime := 0, executionTime := 0, priority := 1,
          startTime := 0, endTime := 1, waitingTime := 0 } ] ∧
    ¬ NoOverflow
      [ { id := 1, arrivalTime := 0, executionTime := 2147483647, priority := 1 },
        { id := 2, arrivalTime := 0, executionTime := 1, priority := 1 } ] := by
  refine ⟨by decide, ?_⟩
  intro h
  exact absurd h.1 (by decide)

/-! ## C1: completeness -/

/-- C1 (completeness). For a batch whose processes all have `executionTime > 0`,
`arrivalTime >= 0` and `startTime = endTime = -1` on entry and whose simulation
does not overflow an `int` (`NoOverflow`), both engines return (given fuel for
`length + maxArrival` loop iterations), the returned batch holds the same
processes (same length, same ids), and every process in it has
`executionTime = 0`, `startTime >= 0` and `endTime >= 0`. -/
theorem completeness (ps : List Process) (agingThreshold : Int) (fuel : Nat)
    (hpre : ∀ p ∈ ps, 0 < p.executionTime ∧ 0 ≤ p.arrivalTime ∧ p.startTime = -1 ∧
      p.endTime = -1)
    (hfit : NoOverflow ps)
    (hfuel : ps.length + (maxArrival ps).toNat ≤ fuel) :
    (∃ out, simulateSJF fuel ps = some out ∧ out.length = ps.length ∧
        (out.map (fun p => p.id)).Perm (ps.map (fun p => p.id)) ∧
        ∀ p ∈ out, p.executionTime = 0 ∧ 0 ≤ p.startTime ∧ 0 ≤ p.endTime) ∧
    (∃ out, simulateWithPriorityAndAging fuel ps agingThreshold = some out ∧
        out.length = ps.length ∧
        (out.map (fun p => p.id)).Perm (ps.map (fun p => p.id)) ∧
        ∀ p ∈ out, p.executionTime = 0 ∧ 0 ≤ p.startTime ∧ 0 ≤ p.endTime) := by
  have hpos : ∀ o ∈ ps, 0 < o.executionTime := fun o ho => (hpre o ho).1
  constructor
  · obtain ⟨out, h1, h2⟩ := sjf_finished hpos hfit fuel hfuel
    refine ⟨out, h1, by rw [← h2.length_eq, sortByArrival_length], ?_, ?_⟩
    · have hid : out.map (fun p => p.id) = (sortByArrival ps).map (fun p => p.id) :=
        forall₂_map_eq _ _ (h2.imp (fun o p ⟨_, h⟩ => h.1))
      rw [hid]
      exact (sortByArrival_perm ps).map _
    · intro p hp
      obtain ⟨o, ho, t, f1, f2, f3, f4, f5, f6, f7⟩ := forall₂_exists_left h2 p hp
      have := hpos o (mem_sort ho)
      simp at f7
      refine ⟨f3, by omega, by omega⟩
  · obtain ⟨out, h1, h2⟩ := aging_finished agingThreshold hpos hfit fuel hfuel
    refine ⟨out, h1, by rw [← h2.length_eq, sortByArrival_length], ?_, ?_⟩
    · have hid : out.map (fun p => p.id) = (sortByArrival ps).map (fun p => p.id) :=
        forall₂_map_eq _ _ (h2.imp (fun o p ⟨_, h⟩ => h.1))
      rw [hid]
      exact (sortByArrival_perm ps).map _
    · intro p hp
      obtain ⟨o, ho, t, f1, f2, f3, f4, f5, f6, f7⟩ := forall₂_exists_left h2 p hp
      have := hpos o (mem_sort ho)
      have hs := (hpre o (mem_sort ho)).2.2.1
      simp [hs] at f7
      refine ⟨f3, by omega, by omega⟩

/-- C1 on `gapBatch` with `agingThreshold = 2` and fuel 10. -/
theorem completeness_witness :
    (∀ p ∈ gapBatch, 0 < p.executionTime ∧ 0 ≤ p.arrivalTime ∧ p.startTime = -1 ∧
      p.endTime = -1) ∧
    NoOverflow gapBatch ∧
    gapBatch.length + (maxArrival gapBatch).toNat ≤ 10 ∧
    (∃ out, simulateSJF 10 gapBatch = some out ∧ out.length = gapBatch.length ∧
        (out.map (fun p => p.id)).Perm (gapBatch.map (fun p => p.id)) ∧
        ∀ p ∈ out, p.executionTime = 0 ∧ 0 ≤ p.startTime ∧ 0 ≤ p.endTime) ∧
    (∃ out, simulateWithPriorityAndAging 10 gapBatch 2 = some out ∧
        out.length = gapBatch.length ∧
        (out.map (fun p => p.id)).Perm (gapBatch.map (fun p => p.id)) ∧
        ∀ p ∈ out, p.executionTime = 0 ∧ 0 ≤ p.startTime ∧ 0 ≤ p.endTime) :=
  ⟨by decide, ⟨by decide, by decide⟩, by decide,
    completeness gapBatch 2 10 (by decide) ⟨by decide, by decide⟩ (by decide)⟩

/-! ## C2: ordering invariant -/

/-- C2 (ordering invariant). For a batch with all `executionTime > 0` and
`arrivalTime >= 0` whose simulation does not overflow an `int` (`NoOverflow`),
both engines return; after `simulateSJF` every process satisfies
`endTime - startTime =` its execution time on entry and `startTime >= arrivalTime`;
after `simulateWithPriorityAndAging` the same holds for every process that
entered with `startTime = -1`, the value with which every process is created. -/
theorem ordering_invariant (ps : List Process) (agingThreshold : Int) (fuel : Nat)
    (hpre : ∀ p ∈ ps, 0 < p.executionTime ∧ 0 ≤ p.arrivalTime)
    (hfit : NoOverflow ps)
    (hfuel : ps.length + (maxArrival ps).toNat ≤ fuel) :
    (∃ out, simulateSJF fuel ps = some out ∧
        List.Forall₂ (fun o p => p.endTime - p.startTime = o.executionTime ∧
          p.arrivalTime ≤ p.startTime) (sortByArrival ps) out) ∧
    (∃ out, simulateWithPriorityAndAging fuel ps agingThreshold = some out ∧
        List.Forall₂ (fun o p => o.startTime = -1 →
          p.endTime - p.startTime = o.executionTime ∧ p.arrivalTime ≤ p.startTime)
          (sortByArrival ps) out) := by
  have hpos : ∀ o ∈ ps, 0 < o.executionTime := fun o ho => (hpre o ho).1
  constructor
  · obtain ⟨out, h1, h2⟩ := sjf_finished hpos hfit fuel hfuel
    refine ⟨out, h1, h2.imp ?_⟩
    rintro o p ⟨t, f1, f2, f3, f4, f5, f6, f7⟩
    simp at f7
    constructor <;> omega
  · obtain ⟨out, h1, h2⟩ := aging_finished agingThreshold hpos hfit fuel hfuel
    refine ⟨out, h1, h2.imp ?_⟩
    rintro o p ⟨t, f1, f2, f3, f4, f5, f6, f7⟩ hs
    simp [hs] at f7
    constructor <;> omega

/-- C2 on `gapBatch` with `agingThreshold = 2` and fuel 10. -/
theorem ordering_invariant_witness :
    (∀ p ∈ gapBatch, 0 < p.executionTime ∧ 0 ≤ p.arrivalTime) ∧
    NoOverflow gapBatch ∧
    gapBatch.length + (maxArrival gapBatch).toNat ≤ 10 ∧
    (∃ out, simulateSJF 10 gapBatch = some out ∧
        List.Forall₂ (fun o p => p.endTime - p.startTime = o.executionTime ∧
          p.arrivalTime ≤ p.startTime) (sortByArrival gapBatch) out) ∧
    (∃ out, simulateWithPriorityAndAging 10 gapBatch 2 = some out ∧
        List.Forall₂ (fun o p => o.startTime = -1 →
          p.endTime - p.startTime = o.executionTime ∧ p.arrivalTime ≤ p.startTime)
          (sortByArrival gapBatch) out) :=
  ⟨by decide, ⟨by decide, by decide⟩, by decide,
    ordering_invariant gapBatch 2 10 (by decide) ⟨by decide, by decide⟩ (by decide)⟩

/-! ## C3: waiting-time identity -/

/-- C3 (waiting-time identity). For a batch with all `executionTime > 0` whose
processes all enter with `startTime = -1` and whose simulation does not overflow
an `int` (`NoOverflow`), both engines return and every process of the returned
batch satisfies `waitingTime = startTime - arrivalTime`. -/
theorem waiting_time_identity (ps : List Process) (agingThreshold : Int) (fuel : Nat)
    (hpre : ∀ p ∈ ps, 0 < p.executionTime ∧ p.startTime = -1)
    (hfit : NoOverflow ps)
    (hfuel : ps.length + (maxArrival ps).toNat ≤ fuel) :
    (∃ out, simulateSJF fuel ps = some out ∧ out.length = ps.length ∧
        ∀ p ∈ out, p.waitingTime = p.startTime - p.arrivalTime) ∧
    (∃ out, simulateWithPriorityAndAging fuel ps agingThreshold = some out ∧
        out.length = ps.length ∧
        ∀ p ∈ out, p.waitingTime = p.startTime - p.arrivalTime) := by
  have hpos : ∀ o ∈ ps, 0 < o.executionTime := fun o ho => (hpre o ho).1
  constructor
  · obtain ⟨out, h1, h2⟩ := sjf_finished hpos hfit fuel hfuel
    refine ⟨out, h1, by rw [← h2.length_eq, sortByArrival_length], ?_⟩
    intro p hp
    obtain ⟨o, ho, t, f1, f2, f3, f4, f5, f6, f7⟩ := forall₂_exists_left h2 p hp
    simp at f7
    omega
  · obtain ⟨out, h1, h2⟩ := aging_finished agingThreshold hpos hfit fuel hfuel
    refine ⟨out, h1, by rw [← h2.length_eq, sortByArrival_length], ?_⟩
    intro p hp
    obtain ⟨o, ho, t, f1, f2, f3, f4, f5, f6, f7⟩ := forall₂_exists_left h2 p hp
    have hs := (hpre o (mem_sort ho)).2
    simp [hs] at f7
    omega

/-- C3 on `gapBatch` with `agingThreshold = 2` and fuel 10. -/
theorem waiting_time_identity_witness :
    (∀ p ∈ gapBatch, 0 < p.executionTime ∧ p.startTime = -1) ∧
    NoOverflow gapBatch ∧
    gapBatch.length + (maxArrival gapBatch).toNat ≤ 10 ∧
    (∃ out, simulateSJF 10 gapBatch = some out ∧ out.length = gapBatch.length ∧
        ∀ p ∈ out, p.waitingTime = p.startTime - p.arrivalTime) ∧
    (∃ out, simulateWithPriorityAndAging 10 gapBatch 2 = some out ∧
        out.length = gapBatch.length ∧
        ∀ p ∈ out, p.waitingTime = p.startTime - p.arrivalTime) :=
  ⟨by decide, ⟨by decide, by decide⟩, by decide,
    waiting_time_identity gapBatch 2 10 (by decide) ⟨by decide, by decide⟩ (by decide)⟩

/-! ## C4: termination within `sum(executionTime) + max(arrivalTime)` ticks -/

theorem length_le_sumExec (ps : List Process) (hpos : ∀ o ∈ ps, 0 < o.executionTime) :
    (ps.length : Int) ≤ sumExec ps := by
  induction ps with
  | nil => simp [sumExec]
  | cons p ps ih =>
    have h1 := hpos p (List.mem_cons_self _ _)
    have h2 := ih (fun o ho => hpos o (List.mem_cons_of_mem _ ho))
    simp only [sumExec, List.map_cons, List.sum_cons, List.length_cons] at h2 ⊢
    push_cast
    omega

theorem lastEnd_step {g : Bool} {M : Int} {orig : List Process}
    {select : SimState → Option Nat} {step : SimState → SimState}
    (hspec : StepSpec g select step) (st : SimState × List Nat)
    (h : Inv g M orig st.2 st.1) (hrun : running st.1 = true) :
    LastEnd (logged select step st) := by
  intro hstop
  rcases h.ideal hrun hspec with ⟨_, hid⟩ | ⟨cur, _, hd⟩
  · obtain ⟨_, hps, _, _, hcnt⟩ := hid
    simp only [logged, running, hps, hcnt] at hstop
    simp only [running] at hrun
    rw [hrun] at hstop
    exact absurd hstop (by simp)
  · obtain ⟨hmem, _, _, _, _, hcur⟩ := hd
    obtain ⟨_, p, hp, _⟩ := h.admission_pend cur hmem
    obtain ⟨hnow, p1, hp1, _, _, _, c4, _⟩ := hcur p hp
    exact ⟨p1, mem_of_getElem? hp1, by simp only [logged]; rw [c4, hnow]⟩

theorem Inv.clock {g : Bool} {ps : List Process} {T : List Nat} {s : SimState}
    (h : Inv g (maxArrival ps) (sortByArrival ps) T s) (hrun : running s = false) :
    s.currentTime ≤ sumExec ps + maxArrival ps ∧
      ∀ p ∈ s.processes, p.endTime ≤ s.currentTime := by
  obtain ⟨hperm, hall⟩ := h.final hrun
  constructor
  · have hb := h.bound
    have hsum : (T.map (execOf (sortByArrival ps))).sum = sumExec ps := by
      rw [((hperm.map _).sum_eq), map_execOf_range]
      exact sumExec_sort ps
    omega
  · intro p hp
    obtain ⟨o, _, t, hf, ht⟩ := forall₂_exists_left hall p hp
    have := hf.2.2.2.2.2.1
    omega

/-- C4 (termination). For a non-empty batch with all `executionTime > 0` and
`arrivalTime >= 0` whose simulation does not overflow an `int` (`NoOverflow`),
the main loop of either engine exits within
`sum(executionTime) + max(arrivalTime)` iterations, and the value of
`currentTime` at exit, which is the largest `endTime`, is at most
`sum(executionTime) + max(arrivalTime)`. -/
theorem termination_bound (ps : List Process) (agingThreshold : Int) (fuel : Nat)
    (hne : ps ≠ []) (hpre : ∀ p ∈ ps, 0 < p.executionTime ∧ 0 ≤ p.arrivalTime)
    (hfit : NoOverflow ps)
    (hfuel : (sumExec ps + maxArrival ps).toNat ≤ fuel) :
    (∃ s, sjfRun fuel ps = some s ∧
        s.currentTime ≤ sumExec ps + maxArrival ps ∧
        (∀ p ∈ s.processes, p.endTime ≤ s.currentTime) ∧
        ∃ p ∈ s.processes, p.endTime = s.currentTime) ∧
    (∃ s, agingRun fuel ps agingThreshold = some s ∧
        s.currentTime ≤ sumExec ps + maxArrival ps ∧
        (∀ p ∈ s.processes, p.endTime ≤ s.currentTime) ∧
        ∃ p ∈ s.processes, p.endTime = s.currentTime) := by
  have hpos : ∀ o ∈ ps, 0 < o.executionTime := fun o ho => (hpre o ho).1
  have hfuel2 : ps.length + (maxArrival ps).toNat ≤ fuel := by
    have hl := length_le_sumExec ps hpos
    have hm := maxArrival_nonneg ps
    omega
  have hJ0 : LastEnd (initState ps, []) := by
    intro hstop
    have hrun : running (initState ps) = true :=
      decide_eq_true (show 0 < (sortByArrival ps).length by
        rw [sortByArrival_length]; exact List.length_pos.2 hne)
    rw [hrun] at hstop
    cases hstop
  constructor
  · obtain ⟨s, T, h1, _, _, h4, h5, h6⟩ := sjf_total hpos hfit LastEnd hJ0
      (fun st h _ hrun => lastEnd_step (fun s => sjfStep_spec s) st h hrun) fuel hfuel2
    exact ⟨s, h1, (h4.clock h6).1, (h4.clock h6).2, h5 h6⟩
  · obtain ⟨s, T, h1, _, _, h4, h5, h6⟩ := aging_total agingThreshold hpos hfit LastEnd hJ0
      (fun st h _ hrun => lastEnd_step (fun s => agingStep_spec agingThreshold s) st h hrun)
      fuel hfuel2
    exact ⟨s, h1, (h4.clock h6).1, (h4.clock h6).2, h5 h6⟩

/-- C4 on `gapBatch`: total execution time 6, largest arrival time 7, fuel 13. -/
theorem termination_bound_witness :
    gapBatch ≠ [] ∧ (∀ p ∈ gapBatch, 0 < p.executionTime ∧ 0 ≤ p.arrivalTime) ∧
    NoOverflow gapBatch ∧
    (sumExec gapBatch + maxArrival gapBatch).toNat ≤ 13 ∧
    (∃ s, sjfRun 13 gapBatch = some s ∧
        s.currentTime ≤ sumExec gapBatch + maxArrival gapBatch ∧
        (∀ p ∈ s.processes, p.endTime ≤ s.currentTime) ∧
        ∃ p ∈ s.processes, p.endTime = s.currentTime) ∧
    (∃ s, agingRun 13 gapBatch 2 = some s ∧
        s.currentTime ≤ sumExec gapBatch + maxArrival gapBatch ∧
        (∀ p ∈ s.processes, p.endTime ≤ s.currentTime) ∧
        ∃ p ∈ s.processes, p.endTime = s.currentTime) :=
  ⟨by decide, by decide, ⟨by decide, by decide⟩, by decide,
    termination_bound gapBatch 2 13 (by decide) (by decide) ⟨by decide, by decide⟩
      (by decide)⟩

/-! ## C5: SJF dispatches the shortest ready job -/

theorem sjf_pending_min {M : Int} {orig : List Process}
    (hpos : ∀ o ∈ orig, 0 < o.executionTime) (st : SimState × List Nat)
    (h : Inv false M orig st.2 st.1) (cur : Nat) (hsel : sjfSelect st.1 = some cur)
    (j : Nat) (hj : j < orig.length) (hjT : j ∉ st.2)
    (harr : (orig.getD j default).arrivalTime ≤ st.1.currentTime) :
    execOf orig cur ≤ execOf orig j := by
  have hmin := sjfSelect_min st.1 cur hsel
  have hmem := (minElement_spec
      (fun a => (st.1.processes.getD a default).executionTime) _ cur hsel).1
  obtain ⟨hcT, p, hp, _⟩ := h.admission_pend cur hmem
  have hclt : cur < orig.length := by rw [← h.len]; exact lt_of_getElem? hp
  obtain ⟨oc, hoc, _⟩ := get_of_lt hclt
  obtain ⟨p2, hp2, ec⟩ := h.pend cur oc hoc hcT
  obtain ⟨oj, hoj, hojm⟩ := get_of_lt hj
  obtain ⟨qj, hqj, e⟩ := h.pend j oj hoj hjT
  rw [getD_of_getElem? hoj] at harr
  have hin : j ∈ admission st.1.processes st.1.currentTime st.1.readyQueue := by
    rw [mem_admission]
    exact Or.inr ⟨qj, hqj, by rw [e.2.1]; exact harr, by rw [e.2.2.1]; exact hpos oj hojm⟩
  have := hmin j hin
  rw [getD_of_getElem? hp2, getD_of_getElem? hqj, e.2.2.1, ec.2.2.1] at this
  rw [execOf_eq hoc, execOf_eq hoj]
  exact this

theorem sum_map_eq_shorter (T : List Nat) (hnd : T.Nodup) (orig : List Process) (x : Int)
    (hmem : ∀ i, i ∈ T ↔ i < orig.length ∧ execOf orig i < x) :
    (T.map (execOf orig)).sum = shorterSum orig x := by
  have hperm : T.Perm ((List.range orig.length).filter
      (fun i => decide (execOf orig i < x))) := by
    rw [List.perm_ext_iff_of_nodup hnd ((List.nodup_range _).filter _)]
    intro i
    rw [hmem i, List.mem_filter, List.mem_range]
    simp
  rw [(hperm.map _).sum_eq]
  unfold shorterSum
  rw [← map_execOf_range, List.filter_map]
  rfl

theorem shorterSum_sort (ps : List Process) (x : Int) :
    shorterSum (sortByArrival ps) x = shorterSum ps x := by
  unfold shorterSum
  exact (((sortByArrival_perm ps).map _).filter _).sum_eq

theorem execOf_injective {orig : List Process}
    (hd : (orig.map (fun p => p.executionTime)).Nodup) {i j : Nat}
    (hi : i < orig.length) (hj : j < orig.length) (h : execOf orig i = execOf orig j) :
    i = j := by
  have hi' : i < (orig.map (fun p => p.executionTime)).length := by simpa using hi
  have hj' : j < (orig.map (fun p => p.executionTime)).length := by simpa using hj
  apply (@List.Nodup.getElem_inj_iff _ _ hd i hi' j hj').1
  simp only [List.getElem_map]
  simpa [execOf, List.getD_eq_getElem?_getD, List.getElem?_eq_getElem hi,
    List.getElem?_eq_getElem hj] using h

theorem maxArrival_eq_zero (ps : List Process) (h : ∀ p ∈ ps, p.arrivalTime = 0) :
    maxArrival ps = 0 := by
  have h1 := maxArrival_nonneg ps
  induction ps with
  | nil => rfl
  | cons p ps ih =>
    have hp := h p (List.mem_cons_self _ _)
    have := ih (fun q hq => h q (List.mem_cons_of_mem _ hq)) (maxArrival_nonneg ps)
    simp only [maxArrival, List.foldr_cons] at this ⊢
    rw [hp, this]
    rfl

theorem simult_step {orig : List Process} (hpos : ∀ o ∈ orig, 0 < o.executionTime)
    (h0 : ∀ o ∈ orig, o.arrivalTime = 0)
    (hd : (orig.map (fun p => p.executionTime)).Nodup) (st : SimState × List Nat)
    (h : Inv false 0 orig st.2 st.1) (hJ : SimultInv orig st)
    (hrun : running st.1 = true) : SimultInv orig (logged sjfSelect sjfStep st) := by
  rcases h.ideal hrun (fun s => sjfStep_spec s) with ⟨hsel, hid⟩ | ⟨cur, hsel, hdis⟩
  · have h1 := h.idle_lt hpos (fun o ho => le_of_eq (h0 o ho)) hrun hid.1
    have h2 := h.now_nonneg
    omega
  · have hmin := sjf_pending_min hpos st h cur hsel
    obtain ⟨hmem, _, _, hlen, hoth, hcur⟩ := hdis
    obtain ⟨hcT, p, hp, _⟩ := h.admission_pend cur hmem
    have hclt : cur < orig.length := by rw [← h.len]; exact lt_of_getElem? hp
    obtain ⟨oc, hoc, _⟩ := get_of_lt hclt
    obtain ⟨p2, hp2, ec⟩ := h.pend cur oc hoc hcT
    rw [hp] at hp2
    cases hp2
    obtain ⟨hnow, p1, hp1, c1, c2, c3, c4, c5⟩ := hcur p hp
    simp at c5
    obtain ⟨j1, j2, j3, j4⟩ := hJ
    have harr0 : ∀ j, j < orig.length →
        (orig.getD j default).arrivalTime ≤ st.1.currentTime := by
      intro j hj
      obtain ⟨oj, hoj, hojm⟩ := get_of_lt hj
      rw [getD_of_getElem? hoj, h0 oj hojm]
      exact h.now_nonneg
    have hlt_pending : ∀ j, j < orig.length → j ∉ st.2 → j ≠ cur →
        execOf orig cur < execOf orig j := by
      intro j hj hjT hne
      have h1 := hmin j hj hjT (harr0 j hj)
      have h2 : execOf orig cur ≠ execOf orig j :=
        fun he => hne (execOf_injective hd hclt hj he).symm
      omega
    have hTmem : ∀ i, i ∈ st.2 ↔ i < orig.length ∧ execOf orig i < execOf orig cur := by
      intro i
      constructor
      · intro hi
        exact ⟨h.tvalid i hi, j3 i hi cur hclt hcT⟩
      · rintro ⟨hi, hlt⟩
        by_contra hiT
        by_cases hic : i = cur
        · subst hic
          omega
        · have := hlt_pending i hi hiT hic
          omega
    refine ⟨?_, ?_, ?_, ?_⟩
    · simp only [logged, hsel, List.map_append, List.sum_append, List.map_cons,
        List.map_nil, List.sum_cons, List.sum_nil, add_zero]
      rw [hnow, j1, execOf_eq hoc, ec.2.2.1]
    · simp only [logged, hsel, List.map_append, List.map_cons, List.map_nil]
      rw [List.pairwise_append]
      refine ⟨j2, List.pairwise_singleton _ _, ?_⟩
      intro a ha b hb
      obtain ⟨i, hi, rfl⟩ := List.mem_map.1 ha
      simp at hb
      subst hb
      exact j3 i hi cur hclt hcT
    · intro i hi j hj hjT
      simp only [logged, hsel] at hi hjT
      have hjT1 : j ∉ st.2 := fun hx => hjT (List.mem_append.2 (Or.inl hx))
      have hjc : j ≠ cur := fun hx => hjT (List.mem_append.2 (Or.inr (by simp [hx])))
      rcases List.mem_append.1 hi with hi | hi
      · exact j3 i hi j hj hjT1
      · simp at hi
        subst hi
        exact hlt_pending j hj hjT1 hjc
    · intro i hi q hq
      simp only [logged, hsel] at hi hq
      rcases List.mem_append.1 hi with hi | hi
      · have hic : i ≠ cur := fun hx => hcT (hx ▸ hi)
        have hilt : i < st.1.processes.length := by
          rw [h.len]; exact h.tvalid i hi
        obtain ⟨q0, hq0⟩ : ∃ q0, st.1.processes[i]? = some q0 :=
          ⟨_, List.getElem?_eq_getElem hilt⟩
        obtain ⟨q1, hq1, e1⟩ := hoth i hic q0 hq0
        rw [hq] at hq1
        cases hq1
        rw [e1.2.2.2.1]
        exact j4 i hi q0 hq0
      · simp at hi
        subst hi
        rw [hp1] at hq
        cases hq
        rw [c5.1, j1]
        exact sum_map_eq_shorter st.2 h.tnodup orig _ hTmem

/-- C6 (SJF on simultaneous arrivals). For a batch whose processes all arrive at
time 0 with pairwise distinct positive execution times and whose simulation does
not overflow an `int` (`NoOverflow`: here, the total execution time is an `int`),
`simulateSJF` returns after one iteration per process, dispatches every process,
in strictly increasing order of execution time, and every process has
`startTime` and `waitingTime` equal to the sum of the execution times of all
strictly shorter processes and `endTime` equal to that sum plus its own
execution time. -/
theorem sjf_simultaneous_arrivals (ps : List Process) (fuel : Nat)
    (hpre : ∀ p ∈ ps, p.arrivalTime = 0 ∧ 0 < p.executionTime)
    (hdistinct : (ps.map (fun p => p.executionTime)).Nodup)
    (hfit : NoOverflow ps)
    (hfuel : ps.length ≤ fuel) :
    ∃ out T, simulateSJF fuel ps = some out ∧ sjfDispatchLog fuel ps = some T ∧
      T.Perm (List.range ps.length) ∧
      (T.map (execOf (sortByArrival ps))).Pairwise (fun a b => a < b) ∧
      List.Forall₂ (fun o p =>
          p.startTime = shorterSum ps o.executionTime ∧
          p.waitingTime = shorterSum ps o.executionTime ∧
          p.endTime = shorterSum ps o.executionTime + o.executionTime)
        (sortByArrival ps) out := by
  have hpos : ∀ o ∈ ps, 0 < o.executionTime := fun o ho => (hpre o ho).2
  have hM := maxArrival_eq_zero ps (fun o ho => (hpre o ho).1)
  have hd : ((sortByArrival ps).map (fun p => p.executionTime)).Nodup :=
    ((sortByArrival_perm ps).map _).nodup_iff.2 hdistinct
  obtain ⟨s, T, _, h2, h3, h4, h5, h6⟩ := sjf_total hpos hfit (SimultInv (sortByArrival ps))
    ⟨by simp [initState], by simp, by simp, by simp⟩
    (fun st h hJ hrun => simult_step (fun o ho => hpos o (mem_sort ho))
      (fun o ho => (hpre o (mem_sort ho)).1) hd st (hM ▸ h) hJ hrun)
    fuel (by rw [hM]; simpa using hfuel)
  obtain ⟨hperm, hall⟩ := h4.final h6
  refine ⟨s.processes, T, h3, h2, by rw [← sortByArrival_length ps]; exact hperm,
    h5.2.1, ?_⟩
  rw [List.forall₂_iff_get]
  refine ⟨h4.len.symm, ?_⟩
  intro i hi1 hi2
  simp only [List.get_eq_getElem]
  have hiT : i ∈ T := hperm.mem_iff.2 (List.mem_range.2 hi1)
  have ho := List.getElem?_eq_getElem hi1
  have hp := List.getElem?_eq_getElem hi2
  obtain ⟨q, t, hq, hf, _⟩ := h4.done i _ ho hiT
  rw [hp] at hq
  cases hq
  have hst := h5.2.2.2 i hiT _ hp
  rw [execOf_eq ho, shorterSum_sort] at hst
  obtain ⟨f1, f2, f3, f4, f5, f6, f7⟩ := hf
  simp at f7
  have harr := (hpre _ (mem_sort (mem_of_getElem? ho))).1
  refine ⟨hst, ?_, ?_⟩
  · rw [f7.2, ← f7.1, hst, harr]
    simp
  · rw [f6, ← f7.1, hst]

/-- C6 on the batch of the specification: execution times 5, 2, 8, 1 for ids
1..4 give the dispatch order id 4, 2, 1, 3 (indices 3, 1, 0, 2), starts
0, 1, 3, 8, ends 1, 3, 8, 16 and waits 0, 1, 3, 8. -/
theorem sjf_simultaneous_arrivals_witness :
    (∀ p ∈ fourJobs, p.arrivalTime = 0 ∧ 0 < p.executionTime) ∧
    (fourJobs.map (fun p => p.executionTime)).Nodup ∧
    NoOverflow fourJobs ∧
    (∃ out T, simulateSJF 4 fourJobs = some out ∧ sjfDispatchLog 4 fourJobs = some T ∧
      T.Perm (List.range fourJobs.length) ∧
      (T.map (execOf (sortByArrival fourJobs))).Pairwise (fun a b => a < b) ∧
      List.Forall₂ (fun o p =>
          p.startTime = shorterSum fourJobs o.executionTime ∧
          p.waitingTime = shorterSum fourJobs o.executionTime ∧
          p.endTime = shorterSum fourJobs o.executionTime + o.executionTime)
        (sortByArrival fourJobs) out) ∧
    sjfDispatchLog 4 fourJobs = some [3, 1, 0, 2] ∧
    simulateSJF 4 fourJobs = some
      [ { id := 1, arrivalTime := 0, executionTime := 0, priority := 1,
          startTime := 3, endTime := 8, waitingTime := 3 },
        { id := 2, arrivalTime := 0, executionTime := 0, priority := 1,
          startTime := 1, endTime := 3, waitingTime := 1 },
        { id := 3, arrivalTime := 0, executionTime := 0, priority := 1,
          startTime := 8, endTime := 16, waitingTime := 8 },
        { id := 4, arrivalTime := 0, executionTime := 0, priority := 1,
          startTime := 0, endTime := 1, waitingTime := 0 } ] :=
  ⟨by decide, by decide, ⟨by decide, by decide⟩,
    sjf_simultaneous_arrivals fourJobs 4 (by decide) (by decide) ⟨by decide, by decide⟩
      (by decide),
    by decide, by decide⟩

/-! ## C7: priority floor and monotonicity -/

theorem ageReady_get_exact (thr now : Int) (rq : List Nat) (hnd : rq.Nodup)
    (ps : List Process) (j : Nat) (q : Process) (h : ps[j]? = some q) :
    (ageReady thr now rq ps)[j]? =
      some (if j ∈ rq ∧ thr ≤ wrapInt (now - q.arrivalTime) then
        { q with priority := max 1 (wrapInt (q.priority - 1)) } else q) := by
  induction rq generalizing ps q with
  | nil => simpa [ageReady] using h
  | cons i rest ih =>
    obtain ⟨hi, hrest⟩ := List.nodup_cons.1 hnd
    simp only [ageReady]
    by_cases hij : j = i
    · subst hij
      have hget := getD_of_getElem? h
      rw [hget]
      by_cases hc : wrapInt (now - q.arrivalTime) ≥ thr
      · simp only [hc, if_true]
        rw [ih hrest _ _ (List.getElem?_set_self (lt_of_getElem? h))]
        have hc' : thr ≤ wrapInt (now - q.arrivalTime) := hc
        simp [hi, hc']
      · simp only [hc, if_false]
        rw [ih hrest _ _ h]
        have hc' : ¬ thr ≤ wrapInt (now - q.arrivalTime) := hc
        simp [hi, hc']
    · have hji : i ≠ j := fun hx => hij hx.symm
      simp only [List.mem_cons, hij, false_or]
      split
      · exact ih hrest _ _ (by rw [List.getElem?_set_ne hji]; exact h)
      · exact ih hrest _ _ h

theorem agingStep_length (thr : Int) (s : SimState) :
    (agingStep thr s).processes.length = s.processes.length := by
  unfold agingStep
  split <;> simp [agedProcesses, ageReady_length]

theorem agingStep_rq_nodup (thr : Int) (s : SimState) (h : s.readyQueue.Nodup) :
    (agingStep thr s).readyQueue.Nodup := by
  unfold agingStep
  split
  · exact (admission_nodup _ _ _ h).erase _
  · exact admission_nodup _ _ _ h

/-- The priority that one loop iteration of the aging engine leaves in the
record at index `j`. -/
theorem agingStep_priority (thr : Int) (s : SimState) (hnd : s.readyQueue.Nodup)
    (j : Nat) (q : Process) (h : s.processes[j]? = some q) :
    ∃ q1, (agingStep thr s).processes[j]? = some q1 ∧
      q1.priority =
        (if j ∈ admission s.processes s.currentTime s.readyQueue ∧
            thr ≤ wrapInt (s.currentTime - q.arrivalTime)
         then max 1 (wrapInt (q.priority - 1)) else q.priority) := by
  have haged := ageReady_get_exact thr s.currentTime _
    (admission_nodup s.processes s.currentTime s.readyQueue hnd) s.processes j q h
  obtain ⟨a, ha⟩ : ∃ a : Process, a =
      (if j ∈ admission s.processes s.currentTime s.readyQueue ∧
            thr ≤ wrapInt (s.currentTime - q.arrivalTime)
          then { q with priority := max 1 (wrapInt (q.priority - 1)) } else q) := ⟨_, rfl⟩
  rw [← ha] at haged
  have hpa : a.priority =
      (if j ∈ admission s.processes s.currentTime s.readyQueue ∧
            thr ≤ wrapInt (s.currentTime - q.arrivalTime)
         then max 1 (wrapInt (q.priority - 1)) else q.priority) := by
    rw [ha]
    split <;> rfl
  rw [← hpa]
  have haged' : (agedProcesses thr s)[j]? = some a := haged
  cases hsel : agingSelect thr s with
  | none =>
    refine ⟨a, ?_, rfl⟩
    simp only [agingStep, hsel]
    exact haged'
  | some cur =>
    by_cases hjc : j = cur
    · subst hjc
      have hlt : j < (agedProcesses thr s).length := lt_of_getElem? haged'
      have hget : (agedProcesses thr s).getD j default = a := getD_of_getElem? haged'
      refine ⟨?_, ?_, ?_⟩
      pick_goal 2
      · simp only [agingStep, hsel]
        exact List.getElem?_set_self hlt
      · simp only [hget]
        split <;> rfl
    · refine ⟨a, ?_, rfl⟩
      simp only [agingStep, hsel]
      rw [List.getElem?_set_ne (fun hx => hjc hx.symm)]
      exact haged'

theorem PrioInv.start (ps : List Process) (hpre : ∀ p ∈ ps, 1 ≤ p.priority) :
    PrioInv (sortByArrival ps) (initState ps) := by
  refine ⟨List.nodup_nil, rfl, ?_⟩
  intro i o p ho hp
  have : (sortByArrival ps)[i]? = some p := hp
  rw [ho] at this
  cases this
  exact ⟨hpre o (mem_sort (mem_of_getElem? ho)), le_refl _⟩

theorem PrioInv.step {orig : List Process} {s : SimState} (thr : Int)
    (h : PrioInv orig s) : PrioInv orig (agingStep thr s) := by
  obtain ⟨h1, h2, h3⟩ := h
  refine ⟨agingStep_rq_nodup thr s h1, by rw [agingStep_length, h2], ?_⟩
  intro i o p ho hp
  have hilt : i < s.processes.length := by rw [h2]; exact lt_of_getElem? ho
  obtain ⟨q1, hq1, hpr⟩ := agingStep_priority thr s h1 i _ (List.getElem?_eq_getElem hilt)
  rw [hp] at hq1
  cases hq1
  obtain ⟨a, b⟩ := h3 i o _ ho (List.getElem?_eq_getElem hilt)
  rw [hpr]
  split
  · constructor
    · exact le_max_left _ _
    · have hw := @wrapInt_le_self ((s.processes[i]).priority - 1) (by omega)
      exact max_le (by omega) (by omega)
  · exact ⟨a, b⟩

theorem PrioInv.iterate {orig : List Process} {s : SimState} (thr : Int)
    (h : PrioInv orig s) (n : Nat) : PrioInv orig (Nat.iterate (agingStep thr) n s) := by
  induction n generalizing s with
  | zero => exact h
  | succ n ih => exact ih (h.step thr)

theorem PrioInv.forall₂ {orig : List Process} {s : SimState} (h : PrioInv orig s) :
    List.Forall₂ (fun o p => 1 ≤ p.priority ∧ p.priority ≤ o.priority)
      orig s.processes := by
  rw [List.forall₂_iff_get]
  refine ⟨h.2.1.symm, ?_⟩
  intro i h1 h2
  simp only [List.get_eq_getElem]
  exact h.2.2 i _ _ (List.getElem?_eq_getElem h1) (List.getElem?_eq_getElem h2)

theorem PrioInv.aged {orig : List Process} {s : SimState} (thr : Int)
    (h : PrioInv orig s) :
    List.Forall₂ (fun o p => 1 ≤ p.priority ∧ p.priority ≤ o.priority)
      orig (agedProcesses thr s) := by
  obtain ⟨h1, h2, h3⟩ := h
  rw [List.forall₂_iff_get]
  refine ⟨by simp [agedProcesses, ageReady_length, h2], ?_⟩
  intro i hi1 hi2
  simp only [List.get_eq_getElem]
  have hilt : i < s.processes.length := by rw [h2]; exact hi1
  have haged := ageReady_get_exact thr s.currentTime _
    (admission_nodup s.processes s.currentTime s.readyQueue h1) s.processes i _
    (List.getElem?_eq_getElem hilt)
  have hget : (agedProcesses thr s)[i]? = some (agedProcesses thr s)[i] :=
    List.getElem?_eq_getElem hi2
  have heq := hget.symm.trans haged
  obtain ⟨a, b⟩ := h3 i _ _ (List.getElem?_eq_getElem hi1) (List.getElem?_eq_getElem hilt)
  rw [Option.some.inj heq]
  split
  · constructor
    · exact le_max_left _ _
    · have hw := @wrapInt_le_self ((s.processes[i]).priority - 1) (by omega)
      exact max_le (by omega) (by omega)
  · exact ⟨a, b⟩

/-- C7 (priority floor and monotonicity). If every process enters with
`priority >= 1`, then for every `agingThreshold` the priority `p'` of each process
satisfies `1 <= p' <= p` (`p` its priority on entry) after every number of loop
iterations of `simulateWithPriorityAndAging`, between the aging pass and the
selection of every iteration, and in the batch the function returns, whatever
the stored times are.  The function does return for a batch with all
`executionTime > 0`: within `length + maxArrival` iterations when the simulation
does not overflow an `int`, and within 2^32 iterations per process plus 2^31
whenever the arrival times are `int` values. -/
theorem priority_floor (ps : List Process) (agingThreshold : Int)
    (hpre : ∀ p ∈ ps, 1 ≤ p.priority) :
    (∀ n, List.Forall₂ (fun o p => 1 ≤ p.priority ∧ p.priority ≤ o.priority)
        (sortByArrival ps)
        (Nat.iterate (agingStep agingThreshold) n (initState ps)).processes) ∧
    (∀ n, List.Forall₂ (fun o p => 1 ≤ p.priority ∧ p.priority ≤ o.priority)
        (sortByArrival ps)
        (agedProcesses agingThreshold
          (Nat.iterate (agingStep agingThreshold) n (initState ps)))) ∧
    (∀ fuel out, simulateWithPriorityAndAging fuel ps agingThreshold = some out →
      List.Forall₂ (fun o p => 1 ≤ p.priority ∧ p.priority ≤ o.priority)
        (sortByArrival ps) out) ∧
    ((∀ p ∈ ps, 0 < p.executionTime) → NoOverflow ps →
      ∀ fuel, ps.length + (maxArrival ps).toNat ≤ fuel →
      ∃ out, simulateWithPriorityAndAging fuel ps agingThreshold = some out ∧
        List.Forall₂ (fun o p => 1 ≤ p.priority ∧ p.priority ≤ o.priority)
          (sortByArrival ps) out) ∧
    ((∀ p ∈ ps, 0 < p.executionTime ∧ p.arrivalTime ≤ 2147483647) →
      ∀ fuel, ps.length * 4294967296 + 2147483648 ≤ fuel →
      ∃ out, simulateWithPriorityAndAging fuel ps agingThreshold = some out ∧
        List.Forall₂ (fun o p => 1 ≤ p.priority ∧ p.priority ≤ o.priority)
          (sortByArrival ps) out) := by
  have h0 := PrioInv.start ps hpre
  have hsafe : ∀ fuel out, simulateWithPriorityAndAging fuel ps agingThreshold = some out →
      List.Forall₂ (fun o p => 1 ≤ p.priority ∧ p.priority ≤ o.priority)
        (sortByArrival ps) out := by
    intro fuel out hout
    unfold simulateWithPriorityAndAging at hout
    cases hrun : agingRun fuel ps agingThreshold with
    | none => simp [hrun] at hout
    | some s =>
      simp [hrun] at hout
      subst hout
      exact (whileLoop_safe running (agingStep agingThreshold) (PrioInv (sortByArrival ps))
        (fun s hs _ => hs.step agingThreshold) fuel _ s h0 hrun).forall₂
  refine ⟨fun n => (h0.iterate agingThreshold n).forall₂,
    fun n => (h0.iterate agingThreshold n).aged agingThreshold, hsafe, ?_, ?_⟩
  · intro hpos hfit fuel hfuel
    obtain ⟨out, h1, _⟩ := aging_finished agingThreshold hpos hfit fuel hfuel
    exact ⟨out, h1, hsafe fuel out h1⟩
  · intro hpos fuel hfuel
    obtain ⟨out, _, h1, _⟩ := aging_returns agingThreshold hpos fuel hfuel
    exact ⟨out, h1, hsafe fuel out h1⟩

/-- C7 on `gapBatch` (priorities 4, 2, 1) with `agingThreshold = 2`: the bounds
hold after every number of iterations, and the function returns with fuel 10. -/
theorem priority_floor_witness :
    (∀ p ∈ gapBatch, 1 ≤ p.priority) ∧ (∀ p ∈ gapBatch, 0 < p.executionTime) ∧
    NoOverflow gapBatch ∧ gapBatch.length + (maxArrival gapBatch).toNat ≤ 10 ∧
    (∀ n, List.Forall₂ (fun o p => 1 ≤ p.priority ∧ p.priority ≤ o.priority)
        (sortByArrival gapBatch)
        (Nat.iterate (agingStep 2) n (initState gapBatch)).processes) ∧
    (∀ n, List.Forall₂ (fun o p => 1 ≤ p.priority ∧ p.priority ≤ o.priority)
        (sortByArrival gapBatch)
        (agedProcesses 2 (Nat.iterate (agingStep 2) n (initState gapBatch)))) ∧
    (∃ out, simulateWithPriorityAndAging 10 gapBatch 2 = some out ∧
        List.Forall₂ (fun o p => 1 ≤ p.priority ∧ p.priority ≤ o.priority)
          (sortByArrival gapBatch) out) ∧
    simulateWithPriorityAndAging 10 gapBatch 2 = some
      [ { id := 2, arrivalTime := 0, executionTime := 0, priority := 2,
          startTime := 0, endTime := 2, waitingTime := 0 },
        { id := 1, arrivalTime := 2, executionTime := 0, priority := 4,
          startTime := 2, endTime := 5, waitingTime := 0 },
        { id := 3, arrivalTime := 7, executionTime := 0, priority := 1,
          startTime := 7, endTime := 8, waitingTime := 0 } ] := by
  obtain ⟨h1, h2, _, h4, _⟩ := priority_floor gapBatch 2 (by decide)
  exact ⟨by decide, by decide, ⟨by decide, by decide⟩, by decide, h1, h2,
    h4 (by decide) ⟨by decide, by decide⟩ 10 (by decide), by decide⟩

/-! ## C8: aging takes effect on starved processes -/

theorem agedInv_step {M : Int} {orig : List Process} (thr : Int)
    (st : SimState × List Nat)
    (h : Inv true M orig st.2 st.1) (hJ : AgedInv orig thr st)
    (hrun : running st.1 = true) :
    AgedInv orig thr (logged (agingSelect thr) (agingStep thr) st) := by
  rcases h.ideal hrun (fun s => agingStep_spec thr s) with ⟨hsel, hid⟩ | ⟨cur, hsel, hd⟩
  · obtain ⟨_, hps, _, _, _⟩ := hid
    intro i o p ho hp hprio
    simp only [logged, hsel, hps] at hp ⊢
    exact hJ i o p ho hp hprio
  · obtain ⟨hmem, _, _, hlen, hoth, hcur⟩ := hd
    obtain ⟨hcT, pc, hpc, _⟩ := h.admission_pend cur hmem
    intro i o p ho hp hprio
    simp only [logged, hsel] at hp ⊢
    have hilt : i < st.1.processes.length := by rw [h.len]; exact lt_of_getElem? ho
    have hq := List.getElem?_eq_getElem hilt
    obtain ⟨q1, hq1, hpr⟩ := agingStep_priority thr st.1 h.rq_nodup i _ hq
    rw [hp] at hq1
    cases hq1
    obtain ⟨⟨a, b⟩, c⟩ := hJ i o _ ho hq hprio
    have hw := @wrapInt_le_self ((st.1.processes[i]).priority - 1) (by omega)
    have hle : 1 ≤ p.priority ∧ p.priority ≤ (st.1.processes[i]).priority := by
      rw [hpr]
      split
      · exact ⟨le_max_left _ _, max_le (by omega) (by omega)⟩
      · exact ⟨a, le_refl _⟩
    refine ⟨⟨hle.1, by omega⟩, ?_⟩
    intro hiT hstart hwait
    by_cases hic : i = cur
    · subst hic
      obtain ⟨p2, hp2, e⟩ := h.pend i o ho hcT
      rw [hq] at hp2
      cases hp2
      obtain ⟨_, p1, hp1, _, c2, _, _, c5⟩ := hcur _ hq
      rw [hp] at hp1
      cases hp1
      have hs : (st.1.processes[i]).startTime = -1 := by rw [e.2.2.2.1]; exact hstart
      simp [hs] at c5
      rw [c5.1, c2] at hwait
      have hwait' : thr ≤ wrapInt (st.1.currentTime - (st.1.processes[i]).arrivalTime) := by
        rw [(h.wait_fits i hmem _ hq).1]
        exact hwait
      rw [hpr]
      simp only [hmem, hwait', and_self, if_true]
      exact max_lt (by omega) (by omega)
    · have hiT1 : i ∈ st.2 := by
        rcases List.mem_append.1 hiT with hx | hx
        · exact hx
        · simp at hx
          exact absurd hx hic
      obtain ⟨q2, hq2, e2⟩ := hoth i hic _ hq
      rw [hp] at hq2
      cases hq2
      have := c hiT1 hstart (by rw [← e2.2.2.2.1, ← e2.2.1]; exact hwait)
      omega

/-- C8 (aging takes effect). For a batch with all `executionTime > 0` whose
simulation does not overflow an `int` (`NoOverflow`) and for every
`agingThreshold`, `simulateWithPriorityAndAging` returns, and every process that
entered with `priority > 1` and with `startTime = -1` (the value with which every
process is created) and that waited at least the threshold
(`startTime - arrivalTime >= agingThreshold`) ends with a priority strictly
smaller than the one it entered with. -/
theorem aging_effect (ps : List Process) (agingThreshold : Int) (fuel : Nat)
    (hpos : ∀ p ∈ ps, 0 < p.executionTime) (hfit : NoOverflow ps)
    (hfuel : ps.length + (maxArrival ps).toNat ≤ fuel) :
    ∃ out, simulateWithPriorityAndAging fuel ps agingThreshold = some out ∧
      List.Forall₂ (fun o p => o.startTime = -1 →
          agingThreshold ≤ p.startTime - p.arrivalTime → 1 < o.priority →
          p.priority < o.priority) (sortByArrival ps) out := by
  obtain ⟨s, T, _, _, h3, h4, h5, h6⟩ := aging_total agingThreshold hpos hfit
    (AgedInv (sortByArrival ps) agingThreshold)
    (by
      intro i o p ho hp hprio
      have hp' : (sortByArrival ps)[i]? = some p := hp
      rw [ho] at hp'
      cases hp'
      exact ⟨⟨by omega, le_refl _⟩, by intro hiT; simp at hiT⟩)
    (fun st h hJ hrun => agedInv_step agingThreshold st h hJ hrun)
    fuel hfuel
  obtain ⟨hperm, _⟩ := h4.final h6
  refine ⟨s.processes, h3, ?_⟩
  rw [List.forall₂_iff_get]
  refine ⟨h4.len.symm, ?_⟩
  intro i h1 h2 hstart hwait hprio
  simp only [List.get_eq_getElem] at hstart hwait hprio ⊢
  have hiT : i ∈ T := hperm.mem_iff.2 (List.mem_range.2 h1)
  exact (h5 i _ _ (List.getElem?_eq_getElem h1) (List.getElem?_eq_getElem h2) hprio).2
    hiT hstart hwait

/-- C8 on the scenario batch with `agingThreshold = 2`: B arrives at 1, is
dispatched at 4 after waiting 3 ticks, and its priority drops from 5 to 4. -/
theorem aging_effect_witness :
    (∀ p ∈ agingScenario, 0 < p.executionTime) ∧ NoOverflow agingScenario ∧
    agingScenario.length + (maxArrival agingScenario).toNat ≤ 3 ∧
    (∃ out, simulateWithPriorityAndAging 3 agingScenario 2 = some out ∧
      List.Forall₂ (fun o p => o.startTime = -1 →
          2 ≤ p.startTime - p.arrivalTime → 1 < o.priority →
          p.priority < o.priority) (sortByArrival agingScenario) out) ∧
    simulateWithPriorityAndAging 3 agingScenario 2 = some
      [ { id := 1, arrivalTime := 0, executionTime := 0, priority := 3,
          startTime := 0, endTime := 4, waitingTime := 0 },
        { id := 2, arrivalTime := 1, executionTime := 0, priority := 4,
          startTime := 4, endTime := 5, waitingTime := 3 } ] :=
  ⟨by decide, ⟨by decide, by decide⟩, by decide,
    aging_effect agingScenario 2 3 (by decide) ⟨by decide, by decide⟩ (by decide),
    by decide⟩

/-! ## C9: no double dispatch -/

theorem map_idOf_range (orig : List Process) :
    (List.range orig.length).map (idOf orig) = orig.map (fun p => p.id) := by
  apply List.ext_getElem
  · simp
  · intro i h1 h2
    simp only [List.length_map, List.length_range] at h1
    simp [idOf, List.getD_eq_getElem?_getD, List.getElem?_eq_getElem h1]

theorem log_exactly_once {ps : List Process} {T : List Nat}
    (hid : (ps.map (fun p => p.id)).Nodup) (hperm : T.Perm (List.range ps.length)) :
    T.length = ps.length ∧ (∀ i, i < ps.length → T.count i = 1) ∧
      ∀ p ∈ ps, ((T.map (idOf (sortByArrival ps))).count p.id) = 1 := by
  have hnd : T.Nodup := hperm.nodup_iff.2 (List.nodup_range _)
  have hids : (T.map (idOf (sortByArrival ps))).Perm (ps.map (fun p => p.id)) := by
    have h1 := hperm.map (idOf (sortByArrival ps))
    rw [← sortByArrival_length ps, map_idOf_range] at h1
    exact h1.trans ((sortByArrival_perm ps).map _)
  refine ⟨by simpa using hperm.length_eq, ?_, ?_⟩
  · intro i hi
    exact List.count_eq_one_of_mem hnd (hperm.mem_iff.2 (List.mem_range.2 hi))
  · intro p hp
    exact List.count_eq_one_of_mem (hids.nodup_iff.2 hid)
      (hids.mem_iff.2 (List.mem_map.2 ⟨p, hp, rfl⟩))

theorem filter_range_none (n : Nat) (P : Nat → Bool) (h : ∀ i, i < n → P i = false) :
    (List.range n).filter P = [] := by
  apply List.filter_eq_nil_iff.2
  intro i hi
  rw [h i (List.mem_range.1 hi)]
  simp

theorem filter_range_single (n c : Nat) (P : Nat → Bool) (hc : c < n)
    (h : ∀ i, i < n → (P i = true ↔ i = c)) : (List.range n).filter P = [c] := by
  induction n with
  | zero => omega
  | succ n ih =>
    rw [List.range_succ, List.filter_append]
    by_cases hcn : c = n
    · subst hcn
      have h1 : (List.range c).filter P = [] := by
        apply filter_range_none
        intro i hi
        have := h i (by omega)
        by_cases hp : P i = true
        · have := this.1 hp
          omega
        · simpa using hp
      have h2 : P c = true := (h c (by omega)).2 rfl
      rw [h1]
      simp [h2]
    · have h1 := ih (by omega) (fun i hi => h i (by omega))
      have h2 : P n = false := by
        by_cases hp : P n = true
        · have := (h n (by omega)).1 hp
          omega
        · simpa using hp
      rw [h1]
      simp [h2]

/-- In a run without overflow on a batch whose processes all enter with
`startTime = -1`, the positions whose `startTime` an iteration changes are
exactly the position it dispatches, if any. -/
theorem observed_eq_logged {g : Bool} {M : Int} {orig : List Process} {T : List Nat}
    {s : SimState} {select : SimState → Option Nat} {step : SimState → SimState}
    (hspec : StepSpec g select step) (hstart : ∀ o ∈ orig, o.startTime = -1)
    (h : Inv g M orig T s) (hrun : running s = true) :
    observed step (s, T) = logged select step (s, T) := by
  rcases h.ideal hrun hspec with ⟨hsel, hid⟩ | ⟨cur, hsel, hd⟩
  · obtain ⟨_, hps, _, _, _⟩ := hid
    have hnone : startTimeChanges s.processes (step s).processes = [] := by
      unfold startTimeChanges
      apply filter_range_none
      intro i _
      rw [hps]
      simp
    simp only [observed, logged, hsel, hnone, List.append_nil]
  · obtain ⟨hmem, _, _, hlen, hoth, hcur⟩ := hd
    obtain ⟨hcT, p, hp, _⟩ := h.admission_pend cur hmem
    have hclt : cur < orig.length := by rw [← h.len]; exact lt_of_getElem? hp
    obtain ⟨o, ho, homem⟩ := get_of_lt hclt
    obtain ⟨p2, hp2, e⟩ := h.pend cur o ho hcT
    rw [hp] at hp2
    cases hp2
    have hps : p.startTime = -1 := by rw [e.2.2.2.1]; exact hstart o homem
    obtain ⟨_, p1, hp1, _, _, _, _, c5⟩ := hcur p hp
    have hg : ¬ (g = true ∧ p.startTime ≠ -1) := fun hx => hx.2 hps
    rw [if_neg hg] at c5
    have hnn := h.now_nonneg
    have hone : startTimeChanges s.processes (step s).processes = [cur] := by
      unfold startTimeChanges
      apply filter_range_single _ _ _ (lt_of_getElem? hp)
      intro i hi
      rw [decide_eq_true_iff]
      by_cases hic : i = cur
      · subst hic
        rw [getD_of_getElem? hp, getD_of_getElem? hp1, hps, c5.1]
        constructor
        · intro _
          rfl
        · intro _
          omega
      · obtain ⟨q1, hq1, e1⟩ := hoth i hic _ (List.getElem?_eq_getElem hi)
        rw [getD_of_getElem? (List.getElem?_eq_getElem hi), getD_of_getElem? hq1,
          e1.2.2.2.1]
        constructor
        · intro hx
          exact absurd rfl hx
        · intro hx
          exact absurd hx hic
    simp only [observed, logged, hsel, hone]

theorem observed_run {g : Bool} {M : Int} {orig : List Process}
    {select : SimState → Option Nat} {step : SimState → SimState}
    (hspec : StepSpec g select step) (hstart : ∀ o ∈ orig, o.startTime = -1) :
    ∀ (fuel : Nat) (s : SimState) (T : List Nat) (st : SimState × List Nat),
      Inv g M orig T s →
      whileLoop (fun st => running st.1) (logged select step) fuel (s, T) = some st →
      whileLoop (fun st => running st.1) (observed step) fuel (s, T) = some st := by
  intro fuel
  induction fuel with
  | zero =>
    intro s T st h hrun
    by_cases hc : running s = true
    · simp [whileLoop, hc] at hrun
    · simpa [whileLoop, hc] using hrun
  | succ f ih =>
    intro s T st h hrun
    by_cases hc : running s = true
    · simp only [whileLoop, hc, if_true] at hrun ⊢
      rw [observed_eq_logged hspec hstart h hc]
      have hstep := (logged_step hspec h.pos h.arr (s, T) h hc).1
      exact ih _ _ st hstep hrun
    · simpa [whileLoop, hc] using hrun

/-- C9 (no double dispatch). For a batch with unique ids and all
`executionTime > 0`:
whatever the stored times are, if the arrival times are `int` values then every
run of either engine that returns has dispatched every process exactly once
(the dispatch log has as many entries as the batch has processes and contains
every position and every id exactly once), and both engines return within 2^32
iterations per process plus 2^31;
and when the simulation does not overflow an `int` (`NoOverflow`) and every
process enters with `startTime = -1`, both engines return within
`length + maxArrival` iterations and the sequence of observed changes of
`startTime` is the dispatch log itself: the `startTime` of every process changes
exactly once, in the iteration that dispatches it. -/
theorem no_double_dispatch (ps : List Process) (agingThreshold : Int)
    (hid : (ps.map (fun p => p.id)).Nodup) (hpos : ∀ p ∈ ps, 0 < p.executionTime) :
    ((∀ p ∈ ps, p.arrivalTime ≤ 2147483647) →
      (∀ fuel T, sjfDispatchLog fuel ps = some T → DispatchedOnce ps T) ∧
      (∀ fuel T, agingDispatchLog fuel ps agingThreshold = some T → DispatchedOnce ps T) ∧
      ∀ fuel, ps.length * 4294967296 + 2147483648 ≤ fuel →
        (∃ T, sjfDispatchLog fuel ps = some T) ∧
        ∃ T, agingDispatchLog fuel ps agingThreshold = some T) ∧
    (NoOverflow ps → (∀ p ∈ ps, p.startTime = -1) →
      ∀ fuel, ps.length + (maxArrival ps).toNat ≤ fuel →
        (∃ T, sjfDispatchLog fuel ps = some T ∧ DispatchedOnce ps T ∧
          sjfStartWrites fuel ps = some T) ∧
        ∃ T, agingDispatchLog fuel ps agingThreshold = some T ∧ DispatchedOnce ps T ∧
          agingStartWrites fuel ps agingThreshold = some T) := by
  have hone : ∀ {g : Bool} {select : SimState → Option Nat} {step : SimState → SimState},
      StepSpec g select step → (∀ p ∈ ps, p.arrivalTime ≤ 2147483647) →
      ∀ (fuel : Nat) (T : List Nat),
      (whileLoop (fun st => running st.1) (logged select step) fuel (initState ps, [])).map
        (fun st => st.2) = some T → DispatchedOnce ps T := by
    intro g select step hspec harr fuel T hT
    obtain ⟨st, hst, rfl⟩ := Option.map_eq_some'.1 hT
    obtain ⟨hl, hlen, hex⟩ := live_safe hspec ps (fun p hp => ⟨hpos p hp, harr p hp⟩)
      fuel st hst
    have hperm := (hl.at_exit hex).1
    rw [hlen] at hperm
    exact log_exactly_once hid hperm
  have hstart' : (∀ p ∈ ps, p.startTime = -1) → ∀ o ∈ sortByArrival ps, o.startTime = -1 :=
    fun h o ho => h o (mem_sort ho)
  refine ⟨fun harr => ⟨fun fuel T hT => hone (fun s => sjfStep_spec s) harr fuel T hT,
    fun fuel T hT => hone (fun s => agingStep_spec agingThreshold s) harr fuel T hT, ?_⟩, ?_⟩
  · intro fuel hfuel
    obtain ⟨_, T1, _, h1, _⟩ := sjf_returns (fun p hp => ⟨hpos p hp, harr p hp⟩) fuel hfuel
    obtain ⟨_, T2, _, h2, _⟩ := aging_returns agingThreshold
      (fun p hp => ⟨hpos p hp, harr p hp⟩) fuel hfuel
    exact ⟨⟨T1, h1⟩, ⟨T2, h2⟩⟩
  · intro hfit hstart fuel hfuel
    constructor
    · obtain ⟨s, T, _, h2, _, h4, _, h6⟩ :=
        sjf_total hpos hfit (fun _ => True) trivial (fun _ _ _ _ => trivial) fuel hfuel
      have hperm := (h4.final h6).1
      rw [sortByArrival_length] at hperm
      refine ⟨T, h2, log_exactly_once hid hperm, ?_⟩
      obtain ⟨st, hst, rfl⟩ := Option.map_eq_some'.1 h2
      unfold sjfStartWrites
      rw [observed_run (fun s => sjfStep_spec s) (hstart' hstart) fuel (initState ps) [] st
        (Inv.entry false ps hpos hfit) hst]
      rfl
    · obtain ⟨s, T, _, h2, _, h4, _, h6⟩ :=
        aging_total agingThreshold hpos hfit (fun _ => True) trivial
          (fun _ _ _ _ => trivial) fuel hfuel
      have hperm := (h4.final h6).1
      rw [sortByArrival_length] at hperm
      refine ⟨T, h2, log_exactly_once hid hperm, ?_⟩
      obtain ⟨st, hst, rfl⟩ := Option.map_eq_some'.1 h2
      unfold agingStartWrites
      rw [observed_run (fun s => agingStep_spec agingThreshold s) (hstart' hstart) fuel
        (initState ps) [] st (Inv.entry true ps hpos hfit) hst]
      rfl

/-- C9 on `gapBatch` with `agingThreshold = 2`: with fuel 10 both engines
dispatch the positions 0, 1, 2 of the sorted batch in this order, and the
observed changes of `startTime` are the same sequence. -/
theorem no_double_dispatch_witness :
    (gapBatch.map (fun p => p.id)).Nodup ∧ (∀ p ∈ gapBatch, 0 < p.executionTime) ∧
    (∀ p ∈ gapBatch, p.arrivalTime ≤ 2147483647) ∧
    NoOverflow gapBatch ∧ (∀ p ∈ gapBatch, p.startTime = -1) ∧
    gapBatch.length + (maxArrival gapBatch).toNat ≤ 10 ∧
    (∀ fuel T, sjfDispatchLog fuel gapBatch = some T → DispatchedOnce gapBatch T) ∧
    (∀ fuel T, agingDispatchLog fuel gapBatch 2 = some T → DispatchedOnce gapBatch T) ∧
    (∃ T, sjfDispatchLog 10 gapBatch = some T ∧ DispatchedOnce gapBatch T ∧
      sjfStartWrites 10 gapBatch = some T) ∧
    (∃ T, agingDispatchLog 10 gapBatch 2 = some T ∧ DispatchedOnce gapBatch T ∧
      agingStartWrites 10 gapBatch 2 = some T) ∧
    sjfDispatchLog 10 gapBatch = some [0, 1, 2] ∧
    sjfStartWrites 10 gapBatch = some [0, 1, 2] ∧
    agingDispatchLog 10 gapBatch 2 = some [0, 1, 2] ∧
    agingStartWrites 10 gapBatch 2 = some [0, 1, 2] := by
  obtain ⟨h1, h2⟩ := no_double_dispatch gapBatch 2 (by decide) (by decide)
  obtain ⟨a, b, _⟩ := h1 (by decide)
  obtain ⟨c, d⟩ := h2 ⟨by decide, by decide⟩ (by decide) 10 (by decide)
  exact ⟨by decide, by decide, by decide, ⟨by decide, by decide⟩, by decide, by decide,
    a, b, c, d, by decide, by decide, by decide, by decide⟩

/-! ## C10: the aging scenario of the specification -/

/-- C10, counterexample. On the scenario batch with `agingThreshold = 1` the
engine dispatches A (index 0) first and B (index 1) second: A starts at 0, B at
4, so `B.startTime < A.startTime` fails. -/
theorem aging_scenario_counterexample :
    sortByArrival agingScenario = agingScenario ∧
    agingDispatchLog 2 agingScenario 1 = some [0, 1] ∧
    simulateWithPriorityAndAging 2 agingScenario 1 = some
      [ { id := 1, arrivalTime := 0, executionTime := 0, priority := 3,
          startTime := 0, endTime := 4, waitingTime := 0 },
        { id := 2, arrivalTime := 1, executionTime := 0, priority := 4,
          startTime := 4, endTime := 5, waitingTime := 3 } ] ∧
    ¬ (∀ out, simulateWithPriorityAndAging 2 agingScenario 1 = some out →
        ∃ a b, out = [a, b] ∧ b.startTime < a.startTime) := by
  refine ⟨by decide, by decide, by decide, ?_⟩
  intro h
  obtain ⟨a, b, hab, hlt⟩ := h _ (by decide :
    simulateWithPriorityAndAging 2 agingScenario 1 = some
      [ { id := 1, arrivalTime := 0, executionTime := 0, priority := 3,
          startTime := 0, endTime := 4, waitingTime := 0 },
        { id := 2, arrivalTime := 1, executionTime := 0, priority := 4,
          startTime := 4, endTime := 5, waitingTime := 3 } ])
  simp only [List.cons.injEq, and_true] at hab
  obtain ⟨ha, hb⟩ := hab
  subst ha
  subst hb
  simp at hlt

/-- C10, amended. On the scenario batch with `agingThreshold = 1`, for every
fuel of at least two iterations, the engine dispatches A and then B: A starts at
0 and ends at 4 with priority 3; B is admitted at 4, aged once (priority 5 to 4)
and runs from 4 to 5. -/
theorem aging_scenario (k : Nat) :
    agingDispatchLog (2 + k) agingScenario 1 = some [0, 1] ∧
    simulateWithPriorityAndAging (2 + k) agingScenario 1 = some
      [ { id := 1, arrivalTime := 0, executionTime := 0, priority := 3,
          startTime := 0, endTime := 4, waitingTime := 0 },
        { id := 2, arrivalTime := 1, executionTime := 0, priority := 4,
          startTime := 4, endTime := 5, waitingTime := 3 } ] := by
  constructor
  · unfold agingDispatchLog
    rw [whileLoop_fuel_add _ _ k 2 _
      (({ processes :=
          [ { id := 1, arrivalTime := 0, executionTime := 0, priority := 3,
              startTime := 0, endTime := 4, waitingTime := 0 },
            { id := 2, arrivalTime := 1, executionTime := 0, priority := 4,
              startTime := 4, endTime := 5, waitingTime := 3 } ],
          readyQueue := [], currentTime := 5, completedProcesses := 2 } : SimState),
        [0, 1]) (by decide)]
    rfl
  · unfold simulateWithPriorityAndAging agingRun
    rw [whileLoop_fuel_add _ _ k 2 _
      ({ processes :=
          [ { id := 1, arrivalTime := 0, executionTime := 0, priority := 3,
              startTime := 0, endTime := 4, waitingTime := 0 },
            { id := 2, arrivalTime := 1, executionTime := 0, priority := 4,
              startTime := 4, endTime := 5, waitingTime := 3 } ],
          readyQueue := [], currentTime := 5, completedProcesses := 2 } : SimState)
      (by decide)]
    rfl

/-! ## C11: the batch `main` hands to the aging engine -/

theorem Stuck.keeps_running {b : Nat} {T : List Nat} {s : SimState} (h : Stuck b T s) :
    running s = true := by
  obtain ⟨pb, hpb, _⟩ := h.bad
  have hb : b < s.processes.length := lt_of_getElem? hpb
  have hsub : T ⊆ (List.range s.processes.length).erase b := by
    intro i hi
    obtain ⟨hne, p, hp, _⟩ := h.tdone i hi
    rw [List.mem_erase_of_ne hne]
    exact List.mem_range.2 (lt_of_getElem? hp)
  have hlen := (List.subperm_of_subset h.tnodup hsub).length_le
  rw [List.length_erase_of_mem (List.mem_range.2 hb), List.length_range] at hlen
  have := h.cnt
  simp only [Sched.running, decide_eq_true_eq]
  omega

theorem Stuck.admitted {b : Nat} {T : List Nat} {s : SimState} (h : Stuck b T s)
    (i : Nat) (hi : i ∈ admission s.processes s.currentTime s.readyQueue) :
    ∃ p, s.processes[i]? = some p ∧ 0 < p.executionTime := by
  rcases (mem_admission _ _ _ _).1 hi with hin | ⟨p, hp, _, he⟩
  · exact h.rq_pend i hin
  · exact ⟨p, hp, he⟩

theorem Stuck.advance {g : Bool} {b : Nat} {select : SimState → Option Nat}
    {step : SimState → SimState} (hspec : StepSpec g select step)
    (st : SimState × List Nat) (h : Stuck b st.2 st.1) :
    Stuck b (logged select step st).2 (logged select step st).1 := by
  rcases hspec st.1 with ⟨hsel, hid⟩ | ⟨cur, hsel, hd⟩
  · obtain ⟨_, hps, hrq, _, hcnt⟩ := hid
    simp only [logged, hsel]
    exact ⟨by rw [hcnt]; exact h.cnt, h.tnodup, by rw [hps]; exact h.tdone,
      by rw [hps]; exact h.bad, by rw [hrq]; exact List.nodup_nil, by rw [hrq]; simp⟩
  · obtain ⟨hmem, hrq, hcnt, _, hoth, hcur⟩ := hd
    obtain ⟨pc, hpc, hpos⟩ := h.admitted cur hmem
    obtain ⟨pb, hpb, hbad⟩ := h.bad
    have hcb : cur ≠ b := by
      intro hx
      subst hx
      rw [hpc] at hpb
      cases hpb
      omega
    have hcT : cur ∉ st.2 := by
      intro hx
      obtain ⟨_, p, hp, he⟩ := h.tdone cur hx
      rw [hpc] at hp
      cases hp
      omega
    simp only [logged, hsel]
    refine ⟨by rw [hcnt, h.cnt]; simp, ?_, ?_, ?_, ?_, ?_⟩
    · rw [List.nodup_append]
      refine ⟨h.tnodup, List.nodup_singleton cur, ?_⟩
      intro a ha hb
      simp at hb
      subst hb
      exact hcT ha
    · intro i hi
      rcases List.mem_append.1 hi with hi | hi
      · obtain ⟨hne, p, hp, he⟩ := h.tdone i hi
        have hic : i ≠ cur := fun hx => hcT (hx ▸ hi)
        obtain ⟨q1, hq1, e⟩ := hoth i hic p hp
        exact ⟨hne, q1, hq1, by rw [e.2.2.1]; exact he⟩
      · simp at hi
        subst hi
        obtain ⟨_, p1, hp1, _, _, c3, _⟩ := hcur pc hpc
        exact ⟨hcb, p1, hp1, c3⟩
    · obtain ⟨q1, hq1, e⟩ := hoth b (fun hx => hcb hx.symm) pb hpb
      exact ⟨q1, hq1, by rw [e.2.2.1]; exact hbad⟩
    · rw [hrq]
      exact (admission_nodup _ _ _ h.rq_nodup).erase cur
    · intro i hi
      rw [hrq, (admission_nodup _ _ _ h.rq_nodup).mem_erase_iff] at hi
      obtain ⟨hne, hia⟩ := hi
      obtain ⟨p, hp, he⟩ := h.admitted i hia
      obtain ⟨q1, hq1, e⟩ := hoth i hne p hp
      exact ⟨q1, hq1, by rw [e.2.2.1]; exact he⟩

/-- A batch that holds a process with `executionTime <= 0` keeps either loop
running for ever: the loop returns for no amount of fuel. -/
theorem never_returns {g : Bool} {select : SimState → Option Nat}
    {step : SimState → SimState} (hspec : StepSpec g select step) (ps : List Process)
    (hbad : ∃ p ∈ ps, p.executionTime ≤ 0) (fuel : Nat) :
    whileLoop running step fuel (initState ps) = none := by
  obtain ⟨p, hp, hle⟩ := hbad
  obtain ⟨b, hb⟩ := List.mem_iff_getElem?.1 ((sortByArrival_perm ps).mem_iff.2 hp)
  have h0 : Stuck b [] (initState ps) :=
    ⟨rfl, List.nodup_nil, by simp, ⟨p, hb, hle⟩, List.nodup_nil, by simp [initState]⟩
  cases hrun : whileLoop running step fuel (initState ps) with
  | none => rfl
  | some s1 =>
    have hlog := whileLoop_logged select step fuel (initState ps) []
    rw [hrun] at hlog
    obtain ⟨st, hst, _⟩ := Option.map_eq_some'.1 hlog
    have hI : Stuck b st.2 st.1 := whileLoop_safe (fun st => running st.1)
      (logged select step) (fun st => Stuck b st.2 st.1)
      (fun st hs _ => Stuck.advance hspec st hs) fuel _ st h0 hst
    have hex : running st.1 = false :=
      whileLoop_exit (fun st => running st.1) (logged select step) fuel _ st hst
    rw [hI.keeps_running] at hex
    cases hex

theorem generateFrom_spec (rnd : Nat → Draw) (k i : Nat) (acc : List Process) :
    ∃ tail, generateFrom rnd k i acc = acc ++ tail ∧ tail.length = k ∧
      ∀ p ∈ tail, ∃ j, p.arrivalTime = (rnd j).arrival ∧
        p.executionTime = (rnd j).execution ∧ p.priority = (rnd j).priority ∧
        p.startTime = -1 ∧ p.endTime = -1 ∧ p.waitingTime = 0 := by
  induction k generalizing i acc with
  | zero => exact ⟨[], by simp [generateFrom], rfl, by simp⟩
  | succ k ih =>
    obtain ⟨tail, h1, h2, h3⟩ := ih (i + 1)
      (acc ++ [ { id := (i : Int) + 1, arrivalTime := (rnd i).arrival,
                  executionTime := (rnd i).execution, priority := (rnd i).priority } ])
    refine ⟨{ id := (i : Int) + 1, arrivalTime := (rnd i).arrival,
              executionTime := (rnd i).execution, priority := (rnd i).priority } :: tail,
      ?_, by simp [h2], ?_⟩
    · simp only [generateFrom]
      rw [h1]
      simp
    · intro p hp
      rcases List.mem_cons.1 hp with rfl | hp
      · exact ⟨i, rfl, rfl, rfl, rfl, rfl, rfl⟩
      · exact h3 p hp

theorem maxArrival_le (ps : List Process) (M : Int) (hM : 0 ≤ M)
    (h : ∀ p ∈ ps, p.arrivalTime ≤ M) : maxArrival ps ≤ M := by
  induction ps with
  | nil => simpa [maxArrival] using hM
  | cons p ps ih =>
    have h1 := h p (List.mem_cons_self _ _)
    have h2 := ih (fun q hq => h q (List.mem_cons_of_mem _ hq))
    simp only [maxArrival, List.foldr_cons] at h2 ⊢
    exact max_le h1 h2

theorem sumExec_le (ps : List Process) (B : Int) (h : ∀ p ∈ ps, p.executionTime ≤ B) :
    sumExec ps ≤ B * ps.length := by
  induction ps with
  | nil => simp [sumExec]
  | cons p ps ih =>
    have h1 := h p (List.mem_cons_self _ _)
    have h2 := ih (fun q hq => h q (List.mem_cons_of_mem _ hq))
    simp only [sumExec, List.map_cons, List.sum_cons, List.length_cons] at h2 ⊢
    push_cast
    rw [mul_add]
    omega

/-- C11, the code at every outcome of the random generator. In `main` the
vector handed to `simulateWithPriorityAndAging` is not a fresh batch: it has 10
entries, the first 5 being the processes that `simulateSJF` has completed
(`executionTime = 0`, `startTime >= 0`), and on it the loop of
`simulateWithPriorityAndAging` exits for no amount of fuel, so `main` never
returns. -/
theorem main_batch_not_fresh (rnd1 rnd2 : Nat → Draw) (fuel1 : Nat)
    (hrange : ∀ i, (rnd1 i).InRange) (hfuel : 15 ≤ fuel1) :
    ∃ finished batch,
      simulateSJF fuel1 (generateProcesses [] 5 rnd1) = some finished ∧
      mainAgingBatch fuel1 rnd1 rnd2 = some batch ∧
      finished.length = 5 ∧ batch.length = 10 ∧ batch.take 5 = finished ∧
      (∀ p ∈ finished, p.executionTime = 0 ∧ 0 ≤ p.startTime) ∧
      (∀ fuel2, simulateWithPriorityAndAging fuel2 batch 5 = none) ∧
      ∀ fuel2, mainProgram fuel1 fuel2 rnd1 rnd2 = none := by
  obtain ⟨b1, hb1, hlen1, hall1⟩ := generateFrom_spec rnd1 5 0 []
  have hgen1 : generateProcesses [] 5 rnd1 = b1 := by
    unfold generateProcesses
    rw [hb1]
    simp
  have hpos : ∀ o ∈ b1, 0 < o.executionTime := by
    intro o ho
    obtain ⟨j, _, he, _⟩ := hall1 o ho
    have := (hrange j).2.2.1
    omega
  have hmax : maxArrival b1 ≤ 10 := by
    apply maxArrival_le b1 10 (by omega)
    intro o ho
    obtain ⟨j, ha, _⟩ := hall1 o ho
    have := (hrange j).2.1
    omega
  have hmax0 := maxArrival_nonneg b1
  have hsum : sumExec b1 ≤ 10 * b1.length := by
    apply sumExec_le
    intro o ho
    obtain ⟨j, _, he, _⟩ := hall1 o ho
    have := (hrange j).2.2.2.1
    omega
  have hfit : NoOverflow b1 := by
    have hl : (b1.length : Int) = 5 := by rw [hlen1]; rfl
    refine ⟨by omega, ?_⟩
    intro o ho
    obtain ⟨j, ha, _⟩ := hall1 o ho
    have := (hrange j).1
    omega
  obtain ⟨finished, hfin, hrel⟩ := sjf_finished hpos hfit fuel1 (by omega)
  have hflen : finished.length = 5 := by
    rw [← hrel.length_eq, sortByArrival_length, hlen1]
  obtain ⟨tail, hb2, hlen2, _⟩ := generateFrom_spec rnd2 5 0 finished
  have hfacts : ∀ p ∈ finished, p.executionTime = 0 ∧ 0 ≤ p.startTime := by
    intro p hp
    obtain ⟨o, _, t, f1, f2, f3, f4, f5, f6, f7⟩ := forall₂_exists_left hrel p hp
    simp at f7
    exact ⟨f3, by omega⟩
  have hbatch : mainAgingBatch fuel1 rnd1 rnd2 = some (finished ++ tail) := by
    unfold mainAgingBatch
    rw [hgen1, hfin]
    simp only [Option.map_some', generateProcesses]
    rw [hb2]
  have hnever : ∀ fuel2, simulateWithPriorityAndAging fuel2 (finished ++ tail) 5 = none := by
    intro fuel2
    have hne : finished ≠ [] := by
      intro hx
      rw [hx] at hflen
      simp at hflen
    obtain ⟨p, hp⟩ := List.exists_mem_of_ne_nil finished hne
    have := never_returns (fun s => agingStep_spec 5 s) (finished ++ tail)
      ⟨p, List.mem_append.2 (Or.inl hp), le_of_eq (hfacts p hp).1⟩ fuel2
    unfold simulateWithPriorityAndAging agingRun
    rw [this]
    rfl
  refine ⟨finished, finished ++ tail, by rw [hgen1]; exact hfin, hbatch, hflen,
    by simp [hflen, hlen2], List.take_left' hflen, hfacts, hnever, ?_⟩
  intro fuel2
  unfold mainProgram
  rw [hbatch]
  exact hnever fuel2

/-- C11 at the outcome in which every draw is arrival 0, execution time 1,
priority 1: the vector handed to `simulateWithPriorityAndAging` holds the five
finished processes followed by five new ones. -/
theorem main_batch_not_fresh_witness :
    (∀ i, (constDraw i).InRange) ∧ 15 ≤ 15 ∧
    (∃ finished batch,
      simulateSJF 15 (generateProcesses [] 5 constDraw) = some finished ∧
      mainAgingBatch 15 constDraw constDraw = some batch ∧
      finished.length = 5 ∧ batch.length = 10 ∧ batch.take 5 = finished ∧
      (∀ p ∈ finished, p.executionTime = 0 ∧ 0 ≤ p.startTime) ∧
      (∀ fuel2, simulateWithPriorityAndAging fuel2 batch 5 = none) ∧
      ∀ fuel2, mainProgram 15 fuel2 constDraw constDraw = none) ∧
    mainAgingBatch 15 constDraw constDraw = some
      [ { id := 1, arrivalTime := 0, executionTime := 0, priority := 1,
          startTime := 0, endTime := 1, waitingTime := 0 },
        { id := 2, arrivalTime := 0, executionTime := 0, priority := 1,
          startTime := 1, endTime := 2, waitingTime := 1 },
        { id := 3, arrivalTime := 0, executionTime := 0, priority := 1,
          startTime := 2, endTime := 3, waitingTime := 2 },
        { id := 4, arrivalTime := 0, executionTime := 0, priority := 1,
          startTime := 3, endTime := 4, waitingTime := 3 },
        { id := 5, arrivalTime := 0, executionTime := 0, priority := 1,
          startTime := 4, endTime := 5, waitingTime := 4 },
        { id := 1, arrivalTime := 0, executionTime := 1, priority := 1 },
        { id := 2, arrivalTime := 0, executionTime := 1, priority := 1 },
        { id := 3, arrivalTime := 0, executionTime := 1, priority := 1 },
        { id := 4, arrivalTime := 0, executionTime := 1, priority := 1 },
        { id := 5, arrivalTime := 0, executionTime := 1, priority := 1 } ] :=
  ⟨fun _ => by simp [constDraw, Draw.InRange], by decide,
    main_batch_not_fresh constDraw constDraw 15
      (fun _ => by simp [constDraw, Draw.InRange]) (by decide),
    by decide⟩

/-! ## C12: frame of the two engines -/

theorem map_set_same {α : Type} (f : Process → α) (l : List Process) (i : Nat)
    (a : Process) (h : f a = f (l.getD i default)) : (l.set i a).map f = l.map f := by
  apply List.ext_getElem?
  intro j
  rw [List.map_set, List.getElem?_set]
  by_cases hij : i = j
  · subst hij
    simp only [if_true, List.length_map]
    by_cases hlt : i < l.length
    · simp only [hlt, if_true, List.getElem?_map, List.getElem?_eq_getElem hlt,
        Option.map_some']
      rw [h, List.getD_eq_getElem?_getD, List.getElem?_eq_getElem hlt]
      rfl
    · simp only [hlt, if_false]
      rw [List.getElem?_eq_none (by simpa using hlt)]
  · simp [hij]

theorem sjfStep_frame (s : SimState) :
    (sjfStep s).processes.map (fun p => (p.id, p.arrivalTime, p.priority))
      = s.processes.map (fun p => (p.id, p.arrivalTime, p.priority)) := by
  unfold sjfStep
  split
  · exact map_set_same _ _ _ _ rfl
  · rfl

theorem ageReady_frame (thr now : Int) (rq : List Nat) (ps : List Process) :
    (ageReady thr now rq ps).map (fun p => (p.id, p.arrivalTime))
      = ps.map (fun p => (p.id, p.arrivalTime)) := by
  induction rq generalizing ps with
  | nil => rfl
  | cons i rest ih =>
    simp only [ageReady]
    rw [ih]
    split
    · exact map_set_same _ _ _ _ rfl
    · rfl

theorem agingStep_frame (thr : Int) (s : SimState) :
    (agingStep thr s).processes.map (fun p => (p.id, p.arrivalTime))
      = s.processes.map (fun p => (p.id, p.arrivalTime)) := by
  have haged := ageReady_frame thr s.currentTime
    (admission s.processes s.currentTime s.readyQueue) s.processes
  unfold agingStep
  split
  · simp only
    rw [← haged]
    apply map_set_same
    split <;> rfl
  · exact haged

theorem iterate_frame {α : Type} (f : Process → α) (step : SimState → SimState)
    (hstep : ∀ s, (step s).processes.map f = s.processes.map f) (n : Nat) (s : SimState) :
    (Nat.iterate step n s).processes.map f = s.processes.map f := by
  induction n generalizing s with
  | zero => rfl
  | succ n ih =>
    show (Nat.iterate step n (step s)).processes.map f = s.processes.map f
    rw [ih, hstep]

theorem loop_frame {α : Type} (f : Process → α) (step : SimState → SimState)
    (hstep : ∀ s, (step s).processes.map f = s.processes.map f) (fuel : Nat)
    (s s1 : SimState) (h : whileLoop running step fuel s = some s1) :
    s1.processes.map f = s.processes.map f :=
  whileLoop_safe running step (fun x => x.processes.map f = s.processes.map f)
    (fun x hx _ => (hstep x).trans hx) fuel s s1 rfl h

/-- C12 (frame). For every batch: the arrival-sorted batch is a reordering of the
input; after any number of loop iterations of `simulateSJF`, and in the batch it
returns, the processes are those of the sorted batch, position by position, with
`id`, `arrivalTime` and `priority` unchanged (so none is added or removed);
likewise `simulateWithPriorityAndAging` leaves every `id` and `arrivalTime`
unchanged; all this whatever the stored times are.  For a batch with all
`executionTime > 0` both functions return: within `length + maxArrival`
iterations when the simulation does not overflow an `int`, and within 2^32
iterations per process plus 2^31 whenever the arrival times are `int` values. -/
theorem frame_of_engines (ps : List Process) (agingThreshold : Int) :
    (sortByArrival ps).Perm ps ∧
    (∀ n, (Nat.iterate sjfStep n (initState ps)).processes.map
        (fun p => (p.id, p.arrivalTime, p.priority))
        = (sortByArrival ps).map (fun p => (p.id, p.arrivalTime, p.priority))) ∧
    (∀ fuel out, simulateSJF fuel ps = some out →
      out.length = ps.length ∧
      out.map (fun p => (p.id, p.arrivalTime, p.priority))
        = (sortByArrival ps).map (fun p => (p.id, p.arrivalTime, p.priority))) ∧
    (∀ n, (Nat.iterate (agingStep agingThreshold) n (initState ps)).processes.map
        (fun p => (p.id, p.arrivalTime))
        = (sortByArrival ps).map (fun p => (p.id, p.arrivalTime))) ∧
    (∀ fuel out, simulateWithPriorityAndAging fuel ps agingThreshold = some out →
      out.length = ps.length ∧
      out.map (fun p => (p.id, p.arrivalTime))
        = (sortByArrival ps).map (fun p => (p.id, p.arrivalTime))) ∧
    ((∀ p ∈ ps, 0 < p.executionTime) → NoOverflow ps →
      ∀ fuel, ps.length + (maxArrival ps).toNat ≤ fuel →
        (∃ out, simulateSJF fuel ps = some out) ∧
        ∃ out, simulateWithPriorityAndAging fuel ps agingThreshold = some out) ∧
    ((∀ p ∈ ps, 0 < p.executionTime ∧ p.arrivalTime ≤ 2147483647) →
      ∀ fuel, ps.length * 4294967296 + 2147483648 ≤ fuel →
        (∃ out, simulateSJF fuel ps = some out) ∧
        ∃ out, simulateWithPriorityAndAging fuel ps agingThreshold = some out) := by
  have hlen : ∀ {α : Type} (f : Process → α) (out : List Process),
      out.map f = (sortByArrival ps).map f → out.length = ps.length := by
    intro α f out h
    have := congrArg List.length h
    simpa [sortByArrival_length] using this
  refine ⟨sortByArrival_perm ps, fun n => iterate_frame _ sjfStep sjfStep_frame n _, ?_,
    fun n => iterate_frame _ (agingStep agingThreshold) (agingStep_frame agingThreshold) n _,
    ?_, ?_, ?_⟩
  · intro fuel out hout
    unfold simulateSJF at hout
    obtain ⟨s1, hs1, rfl⟩ := Option.map_eq_some'.1 hout
    have := loop_frame (fun p => (p.id, p.arrivalTime, p.priority)) sjfStep sjfStep_frame
      fuel _ s1 hs1
    exact ⟨hlen _ _ this, this⟩
  · intro fuel out hout
    unfold simulateWithPriorityAndAging at hout
    obtain ⟨s1, hs1, rfl⟩ := Option.map_eq_some'.1 hout
    have := loop_frame (fun p => (p.id, p.arrivalTime)) (agingStep agingThreshold)
      (agingStep_frame agingThreshold) fuel _ s1 hs1
    exact ⟨hlen _ _ this, this⟩
  · intro hpos hfit fuel hfuel
    obtain ⟨o1, h1, _⟩ := sjf_finished hpos hfit fuel hfuel
    obtain ⟨o2, h2, _⟩ := aging_finished agingThreshold hpos hfit fuel hfuel
    exact ⟨⟨o1, h1⟩, ⟨o2, h2⟩⟩
  · intro hpre fuel hfuel
    obtain ⟨o1, _, h1, _⟩ := sjf_returns hpre fuel hfuel
    obtain ⟨o2, _, h2, _⟩ := aging_returns agingThreshold hpre fuel hfuel
    exact ⟨⟨o1, h1⟩, ⟨o2, h2⟩⟩

/-- C12 on `gapBatch` with `agingThreshold = 2`: both functions return with
fuel 10 and the frame holds for what they return. -/
theorem frame_of_engines_witness :
    (∀ p ∈ gapBatch, 0 < p.executionTime) ∧ NoOverflow gapBatch ∧
    gapBatch.length + (maxArrival gapBatch).toNat ≤ 10 ∧
    (∃ out, simulateSJF 10 gapBatch = some out ∧ out.length = gapBatch.length ∧
      out.map (fun p => (p.id, p.arrivalTime, p.priority))
        = (sortByArrival gapBatch).map (fun p => (p.id, p.arrivalTime, p.priority))) ∧
    (∃ out, simulateWithPriorityAndAging 10 gapBatch 2 = some out ∧
      out.length = gapBatch.length ∧
      out.map (fun p => (p.id, p.arrivalTime))
        = (sortByArrival gapBatch).map (fun p => (p.id, p.arrivalTime))) := by
  obtain ⟨_, _, h3, _, h5, h6, _⟩ := frame_of_engines gapBatch 2
  obtain ⟨⟨o1, h1⟩, ⟨o2, h2⟩⟩ := h6 (by decide) ⟨by decide, by decide⟩ 10 (by decide)
  exact ⟨by decide, ⟨by decide, by decide⟩, by decide, ⟨o1, h1, h3 10 o1 h1⟩,
    ⟨o2, h2, h5 10 o2 h2⟩⟩

/-! ## C13: a negative `agingThreshold` -/

theorem getD_set_arrival (ps : List Process) (i j : Nat) (x : Process)
    (hx : x.arrivalTime = (ps.getD i default).arrivalTime) :
    ((ps.set i x).getD j default).arrivalTime = (ps.getD j default).arrivalTime := by
  rw [List.getD_eq_getElem?_getD, List.getD_eq_getElem?_getD, List.getElem?_set]
  by_cases hij : i = j
  · subst hij
    by_cases hlt : i < ps.length
    · simp only [if_true, hlt]
      rw [List.getD_eq_getElem?_getD] at hx
      simpa using hx
    · simp only [if_true, hlt, if_false]
      rw [List.getElem?_eq_none (by omega)]
  · simp [hij]

theorem ageReady_nonpositive (thr now : Int) (hthr : thr ≤ 0) (rq : List Nat)
    (ps : List Process)
    (h : ∀ i ∈ rq, 0 ≤ wrapInt (now - (ps.getD i default).arrivalTime)) :
    ageReady thr now rq ps = ageReady 0 now rq ps := by
  induction rq generalizing ps with
  | nil => rfl
  | cons i rest ih =>
    have hi := h i (List.mem_cons_self _ _)
    have c1 : wrapInt (now - (ps.getD i default).arrivalTime) ≥ thr := by
      show thr ≤ wrapInt (now - (ps.getD i default).arrivalTime)
      omega
    have c2 : wrapInt (now - (ps.getD i default).arrivalTime) ≥ 0 := hi
    simp only [ageReady, c1, c2, if_true]
    apply ih
    intro j hj
    have e := getD_set_arrival ps i j
      { ps.getD i default with
        priority := max 1 (wrapInt ((ps.getD i default).priority - 1)) } rfl
    rw [e]
    exact h j (List.mem_cons_of_mem _ hj)

/-- In a run without overflow every ready process has waited a non-negative
time, so a non-positive threshold ages exactly as the threshold 0 does. -/
theorem agingStep_nonpositive {M : Int} {orig : List Process} {T : List Nat}
    {s : SimState} (thr : Int) (hthr : thr ≤ 0) (h : Inv true M orig T s) :
    agingStep thr s = agingStep 0 s := by
  have haged : agedProcesses thr s = agedProcesses 0 s := by
    unfold agedProcesses
    apply ageReady_nonpositive thr s.currentTime hthr
    intro i hi
    obtain ⟨_, p, hp, _⟩ := h.admission_pend i hi
    rw [getD_of_getElem? hp]
    have hw := h.wait_fits i hi p hp
    rw [hw.1]
    exact hw.2
  have hsel : agingSelect thr s = agingSelect 0 s := by
    unfold agingSelect
    rw [haged]
  unfold agingStep
  rw [hsel, haged]

theorem whileLoop_congr {σ : Type} (cond : σ → Bool) (body1 body2 : σ → σ)
    (I : σ → Prop) (heq : ∀ s, I s → cond s = true → body1 s = body2 s)
    (hI : ∀ s, I s → cond s = true → I (body2 s)) :
    ∀ (fuel : Nat) (s : σ), I s →
      whileLoop cond body1 fuel s = whileLoop cond body2 fuel s := by
  intro fuel
  induction fuel with
  | zero => intro s _; rfl
  | succ f ih =>
    intro s hs
    by_cases hc : cond s = true
    · simp only [whileLoop, hc, if_true]
      rw [heq s hs hc, ih _ (hI s hs hc)]
    · simp [whileLoop, hc]

/-- C13, counterexample. With `agingThreshold = -1` the call on the scenario
batch is not rejected: it runs the simulation and returns the batch with every
field but `id` and `arrivalTime` changed. -/
theorem negative_threshold_counterexample :
    simulateWithPriorityAndAging 2 agingScenario (-1) = some
      [ { id := 1, arrivalTime := 0, executionTime := 0, priority := 2,
          startTime := 0, endTime := 4, waitingTime := 0 },
        { id := 2, arrivalTime := 1, executionTime := 0, priority := 4,
          startTime := 4, endTime := 5, waitingTime := 3 } ] ∧
    ¬ (∀ out, simulateWithPriorityAndAging 2 agingScenario (-1) = some out →
        out = agingScenario) := by
  refine ⟨by decide, ?_⟩
  intro h
  have h1 := h _ (by decide :
    simulateWithPriorityAndAging 2 agingScenario (-1) = some
      [ { id := 1, arrivalTime := 0, executionTime := 0, priority := 2,
          startTime := 0, endTime := 4, waitingTime := 0 },
        { id := 2, arrivalTime := 1, executionTime := 0, priority := 4,
          startTime := 4, endTime := 5, waitingTime := 3 } ])
  exact absurd h1 (by decide)

/-- C13, amended. For every `agingThreshold < 0` and every batch with all
`executionTime > 0`, `simulateWithPriorityAndAging` does not reject the call: it
runs the simulation and returns the batch with every process completed.  When
the simulation does not overflow an `int` (`NoOverflow`) it returns within
`length + maxArrival` iterations, and what it returns is what it returns with
`agingThreshold = 0` (every ready process is aged in every iteration); whatever
the stored times are, it returns within 2^32 iterations per process plus 2^31
whenever the arrival times are `int` values. -/
theorem negative_threshold (ps : List Process) (agingThreshold : Int)
    (hneg : agingThreshold < 0) (hpos : ∀ p ∈ ps, 0 < p.executionTime) :
    (NoOverflow ps →
      (∀ fuel, simulateWithPriorityAndAging fuel ps agingThreshold
        = simulateWithPriorityAndAging fuel ps 0) ∧
      ∀ fuel, ps.length + (maxArrival ps).toNat ≤ fuel →
        ∃ out, simulateWithPriorityAndAging fuel ps agingThreshold = some out ∧
          out.length = ps.length ∧ ∀ p ∈ out, p.executionTime = 0) ∧
    ((∀ p ∈ ps, p.arrivalTime ≤ 2147483647) →
      ∀ fuel, ps.length * 4294967296 + 2147483648 ≤ fuel →
        ∃ out, simulateWithPriorityAndAging fuel ps agingThreshold = some out ∧
          out.length = ps.length ∧ ∀ p ∈ out, p.executionTime = 0) := by
  constructor
  · intro hfit
    constructor
    · intro fuel
      unfold simulateWithPriorityAndAging agingRun
      rw [whileLoop_congr running (agingStep agingThreshold) (agingStep 0)
        (fun s => ∃ T, Inv true (maxArrival ps) (sortByArrival ps) T s)
        (fun s hs _ => by
          obtain ⟨T, hT⟩ := hs
          exact agingStep_nonpositive agingThreshold (le_of_lt hneg) hT)
        (fun s hs hc => by
          obtain ⟨T, hT⟩ := hs
          exact ⟨_, (logged_step (fun x => agingStep_spec 0 x) hT.pos hT.arr (s, T) hT
            hc).1⟩)
        fuel (initState ps) ⟨[], Inv.entry true ps hpos hfit⟩]
    · intro fuel hfuel
      obtain ⟨out, h1, h2⟩ := aging_finished agingThreshold hpos hfit fuel hfuel
      refine ⟨out, h1, by rw [← h2.length_eq, sortByArrival_length], ?_⟩
      intro p hp
      obtain ⟨o, _, t, hf⟩ := forall₂_exists_left h2 p hp
      exact hf.2.2.1
  · intro harr fuel hfuel
    obtain ⟨out, _, h1, _, h2, h3⟩ := aging_returns agingThreshold
      (fun p hp => ⟨hpos p hp, harr p hp⟩) fuel hfuel
    exact ⟨out, h1, h2, h3⟩

/-- C13 (amended) on the scenario batch with `agingThreshold = -1`: the call
returns, with every process completed, what the call with threshold 0
returns. -/
theorem negative_threshold_witness :
    (-1 : Int) < 0 ∧ (∀ p ∈ agingScenario, 0 < p.executionTime) ∧
    NoOverflow agingScenario ∧
    agingScenario.length + (maxArrival agingScenario).toNat ≤ 3 ∧
    (∀ fuel, simulateWithPriorityAndAging fuel agingScenario (-1)
        = simulateWithPriorityAndAging fuel agingScenario 0) ∧
    (∃ out, simulateWithPriorityAndAging 3 agingScenario (-1) = some out ∧
        out.length = agingScenario.length ∧ ∀ p ∈ out, p.executionTime = 0) := by
  obtain ⟨h1, _⟩ := negative_threshold agingScenario (-1) (by decide) (by decide)
  obtain ⟨a, b⟩ := h1 ⟨by decide, by decide⟩
  exact ⟨by decide, by decide, ⟨by decide, by decide⟩, by decide, a, b 3 (by decide)⟩

/-! ## C14: admission is idempotent -/

theorem admissionFrom_fixed (now : Int) (ps : List Process) (i : Nat) (rq : List Nat)
    (h : ∀ k p, ps[k]? = some p → p.arrivalTime ≤ now → 0 < p.executionTime → i + k ∈ rq) :
    admissionFrom now ps i rq = rq := by
  induction ps generalizing i with
  | nil => rfl
  | cons p rest ih =>
    have hp : ¬ (p.arrivalTime ≤ now ∧ p.executionTime > 0 ∧ i ∉ rq) := by
      rintro ⟨h1, h2, h3⟩
      exact h3 (by simpa using h 0 p (by simp) h1 h2)
    simp only [admissionFrom, hp, if_false]
    apply ih
    intro k q hq h1 h2
    have := h (k + 1) q (by simpa using hq) h1 h2
    have he : i + 1 + k = i + (k + 1) := by omega
    rw [he]
    exact this

/-- C14 (admission is idempotent). For every batch, every `currentTime` and
every duplicate-free ready queue, running the admission scan a second time at
the same `currentTime` returns exactly the ready queue produced by the first
run, and that ready queue holds no process twice. -/
theorem admission_idempotent (ps : List Process) (now : Int) (rq : List Nat)
    (hnd : rq.Nodup) :
    admission ps now (admission ps now rq) = admission ps now rq ∧
      (admission ps now rq).Nodup := by
  refine ⟨?_, admission_nodup ps now rq hnd⟩
  unfold admission
  apply admissionFrom_fixed
  intro k p hp h1 h2
  have : k ∈ admission ps now rq := (mem_admission ps now rq k).2 (Or.inr ⟨p, hp, h1, h2⟩)
  simpa [admission] using this

/-- C14 on `gapBatch` (sorted) at `currentTime = 2` with the ready queue `[0]`:
the first scan admits the process at index 1, the second adds nothing. -/
theorem admission_idempotent_witness :
    [0].Nodup ∧
    admission (sortByArrival gapBatch) 2 [0] = [0, 1] ∧
    admission (sortByArrival gapBatch) 2 (admission (sortByArrival gapBatch) 2 [0])
        = admission (sortByArrival gapBatch) 2 [0] ∧
    (admission (sortByArrival gapBatch) 2 [0]).Nodup :=
  ⟨by decide, by decide, admission_idempotent (sortByArrival gapBatch) 2 [0] (by decide)⟩

/-! ## C15: the aging engine selects the maximum priority value -/

/-- C15 (maximum priority wins). In every loop iteration of
`simulateWithPriorityAndAging` (from any state `s`) in which the ready queue is
non-empty after admission, a process `cur` of the ready queue is selected and
dispatched, and after that iteration's aging pass its priority value is greater
than or equal to the priority value of every process in the ready queue. -/
theorem aging_selects_max (agingThreshold : Int) (s : SimState)
    (hne : admission s.processes s.currentTime s.readyQueue ≠ []) :
    ∃ cur, agingSelect agingThreshold s = some cur ∧
      cur ∈ admission s.processes s.currentTime s.readyQueue ∧
      (∀ j ∈ admission s.processes s.currentTime s.readyQueue,
        ((agedProcesses agingThreshold s).getD j default).priority
          ≤ ((agedProcesses agingThreshold s).getD cur default).priority) ∧
      (agingStep agingThreshold s).readyQueue
        = (admission s.processes s.currentTime s.readyQueue).erase cur ∧
      (agingStep agingThreshold s).completedProcesses = s.completedProcesses + 1 := by
  cases hsel : agingSelect agingThreshold s with
  | none => exact absurd ((maxElement_eq_none _ _).1 hsel) hne
  | some cur =>
    obtain ⟨h1, h2⟩ := maxElement_spec
      (fun a => ((agedProcesses agingThreshold s).getD a default).priority) _ cur hsel
    exact ⟨cur, rfl, h1, h2, by simp [agingStep, hsel], by simp [agingStep, hsel]⟩

/-- C15 on the first iteration for `twoReady` with `agingThreshold = 1`: both
processes are ready, and the one with priority 5 (index 1) is selected. -/
theorem aging_selects_max_witness :
    admission (initState twoReady).processes (initState twoReady).currentTime
      (initState twoReady).readyQueue ≠ [] ∧
    agingSelect 1 (initState twoReady) = some 1 ∧
    ∃ cur, agingSelect 1 (initState twoReady) = some cur ∧
      cur ∈ admission (initState twoReady).processes (initState twoReady).currentTime
        (initState twoReady).readyQueue ∧
      (∀ j ∈ admission (initState twoReady).processes (initState twoReady).currentTime
          (initState twoReady).readyQueue,
        ((agedProcesses 1 (initState twoReady)).getD j default).priority
          ≤ ((agedProcesses 1 (initState twoReady)).getD cur default).priority) ∧
      (agingStep 1 (initState twoReady)).readyQueue
        = (admission (initState twoReady).processes (initState twoReady).currentTime
            (initState twoReady).readyQueue).erase cur ∧
      (agingStep 1 (initState twoReady)).completedProcesses
        = (initState twoReady).completedProcesses + 1 :=
  ⟨by decide, by decide, aging_selects_max 1 (initState twoReady) (by decide)⟩

/-! ## C16: the SJF tie-break -/

theorem ReadyOK.of_admission {s : SimState} (h : ReadyOK s) (i : Nat)
    (hi : i ∈ admission s.processes s.currentTime s.readyQueue) :
    ∃ p, s.processes[i]? = some p ∧ 0 < p.executionTime := by
  rcases (mem_admission _ _ _ _).1 hi with hin | ⟨p, hp, _, he⟩
  · exact h.2 i hin
  · exact ⟨p, hp, he⟩

theorem ReadyOK.next {g : Bool} {select : SimState → Option Nat}
    {step : SimState → SimState} (hspec : StepSpec g select step) {s : SimState}
    (h : ReadyOK s) : ReadyOK (step s) := by
  rcases hspec s with ⟨_, hid⟩ | ⟨cur, _, hd⟩
  · obtain ⟨_, _, hrq, _, _⟩ := hid
    exact ⟨by rw [hrq]; exact List.nodup_nil, by rw [hrq]; simp⟩
  · obtain ⟨hmem, hrq, _, _, hoth, hcur⟩ := hd
    refine ⟨by rw [hrq]; exact (admission_nodup _ _ _ h.1).erase cur, ?_⟩
    intro i hi
    rw [hrq, (admission_nodup _ _ _ h.1).mem_erase_iff] at hi
    obtain ⟨hne, hia⟩ := hi
    obtain ⟨p, hp, he⟩ := h.of_admission i hia
    obtain ⟨q1, hq1, e⟩ := hoth i hne p hp
    exact ⟨q1, hq1, by rw [e.2.2.1]; exact he⟩

theorem admissionFrom_append (now : Int) (ps : List Process) (i : Nat) (rq : List Nat) :
    ∃ L, admissionFrom now ps i rq = rq ++ L ∧ L.Pairwise (fun a b => a < b) ∧
      ∀ b ∈ L, i ≤ b ∧ b ∉ rq := by
  induction ps generalizing i rq with
  | nil => exact ⟨[], by simp [admissionFrom], List.Pairwise.nil, by simp⟩
  | cons p rest ih =>
    simp only [admissionFrom]
    by_cases hc : p.arrivalTime ≤ now ∧ p.executionTime > 0 ∧ i ∉ rq
    · rw [if_pos hc]
      obtain ⟨L, h1, h2, h3⟩ := ih (i + 1) (rq ++ [i])
      refine ⟨i :: L, by rw [h1]; simp, ?_, ?_⟩
      · rw [List.pairwise_cons]
        exact ⟨fun b hb => by have := (h3 b hb).1; omega, h2⟩
      · intro b hb
        rcases List.mem_cons.1 hb with rfl | hb
        · exact ⟨le_refl _, hc.2.2⟩
        · obtain ⟨h4, h5⟩ := h3 b hb
          exact ⟨by omega, fun hx => h5 (List.mem_append.2 (Or.inl hx))⟩
    · rw [if_neg hc]
      obtain ⟨L, h1, h2, h3⟩ := ih (i + 1) rq
      exact ⟨L, h1, h2, fun b hb => ⟨by have := (h3 b hb).1; omega, (h3 b hb).2⟩⟩

theorem sorted_index_lt {l : List Process}
    (hs : l.Pairwise (fun a b => a.arrivalTime ≤ b.arrivalTime)) {i j : Nat}
    {a b : Process} (ha : l[i]? = some a) (hb : l[j]? = some b)
    (hlt : a.arrivalTime < b.arrivalTime) : i < j := by
  by_contra hcon
  obtain ⟨hi, rfl⟩ := List.getElem?_eq_some.1 ha
  obtain ⟨hj, rfl⟩ := List.getElem?_eq_some.1 hb
  rcases Nat.lt_or_ge j i with hji | hji
  · have := List.pairwise_iff_getElem.1 hs j i hj hi hji
    omega
  · have : i = j := by omega
    subst this
    omega

theorem sorted_index_le {l : List Process}
    (hs : l.Pairwise (fun a b => a.arrivalTime ≤ b.arrivalTime)) {i j : Nat}
    {a b : Process} (ha : l[i]? = some a) (hb : l[j]? = some b) (hij : i ≤ j) :
    a.arrivalTime ≤ b.arrivalTime := by
  obtain ⟨hi, rfl⟩ := List.getElem?_eq_some.1 ha
  obtain ⟨hj, rfl⟩ := List.getElem?_eq_some.1 hb
  rcases Nat.lt_or_ge i j with h | h
  · exact List.pairwise_iff_getElem.1 hs i j hi hj h
  · have : i = j := by omega
    subst this
    exact le_refl _

theorem SortedQueue.admission_sorted {s : SimState} (h : SortedQueue s) :
    (admission s.processes s.currentTime s.readyQueue).Pairwise (fun a b => a < b) := by
  obtain ⟨hs, hq, hv, hk⟩ := h
  obtain ⟨L, h1, h2, h3⟩ := admissionFrom_append s.currentTime s.processes 0 s.readyQueue
  have hadm : admission s.processes s.currentTime s.readyQueue = s.readyQueue ++ L := h1
  rw [hadm, List.pairwise_append]
  refine ⟨hq, h2, ?_⟩
  intro a ha b hb
  have hbm : b ∈ admission s.processes s.currentTime s.readyQueue := by
    rw [hadm]
    exact List.mem_append.2 (Or.inr hb)
  have hbq := (h3 b hb).2
  rcases (mem_admission _ _ _ _).1 hbm with hin | ⟨q, hqb, _, he⟩
  · exact absurd hin hbq
  · obtain ⟨pa, hpa, _⟩ := hv a ha
    have := hk a ha b q hqb he hbq
    rw [getD_of_getElem? hpa] at this
    exact sorted_index_lt hs hpa hqb this

theorem sjfStep_arrival (s : SimState) :
    (sjfStep s).processes.map (fun p => p.arrivalTime)
      = s.processes.map (fun p => p.arrivalTime) := by
  unfold sjfStep
  split
  · exact map_set_same _ _ _ _ rfl
  · rfl

theorem SortedQueue.sjf_next {s : SimState} (h : SortedQueue s) :
    SortedQueue (sjfStep s) := by
  have hadm := h.admission_sorted
  obtain ⟨hs, hq, hv, hk⟩ := h
  have hro : ReadyOK s := ⟨hq.imp (fun hab => Nat.ne_of_lt hab), hv⟩
  have hsort : (sjfStep s).processes.Pairwise (fun a b => a.arrivalTime ≤ b.arrivalTime) := by
    have h1 : (s.processes.map (fun p => p.arrivalTime)).Pairwise (fun a b => a ≤ b) :=
      List.pairwise_map.2 hs
    rw [← sjfStep_arrival] at h1
    exact List.pairwise_map.1 h1
  refine ⟨hsort, ?_, (hro.next (fun x => sjfStep_spec x)).2, ?_⟩
  · rcases sjfStep_spec s with ⟨_, hid⟩ | ⟨cur, _, hd⟩
    · rw [hid.2.2.1]
      exact List.Pairwise.nil
    · rw [hd.2.1]
      exact hadm.sublist (List.erase_sublist _ _)
  · rcases sjfStep_spec s with ⟨_, hid⟩ | ⟨cur, _, hd⟩
    · rw [hid.2.2.1]
      simp
    · obtain ⟨hmem, hrq, _, hlen, hoth, hcur⟩ := hd
      have hnd := admission_nodup s.processes s.currentTime s.readyQueue hro.1
      obtain ⟨pc, hpc, hcpos⟩ := hro.of_admission cur hmem
      intro i hi j q hqj hqpos hjq
      rw [hrq, hnd.mem_erase_iff] at hi
      obtain ⟨hic, hia⟩ := hi
      obtain ⟨pi, hpi, _⟩ := hro.of_admission i hia
      obtain ⟨pi1, hpi1, ei⟩ := hoth i hic pi hpi
      rw [getD_of_getElem? hpi1, ei.2.1]
      have hjc : j ≠ cur := by
        intro hx
        subst hx
        obtain ⟨_, p1, hp1, _, _, c3, _⟩ := hcur pc hpc
        rw [hqj] at hp1
        cases hp1
        omega
      have hjlt : j < s.processes.length := by
        rw [← hlen]
        exact lt_of_getElem? hqj
      obtain ⟨q1, hq1, e1⟩ := hoth j hjc _ (List.getElem?_eq_getElem hjlt)
      rw [hqj] at hq1
      cases hq1
      have hjadm : j ∉ admission s.processes s.currentTime s.readyQueue := by
        intro hx
        exact hjq (by rw [hrq, hnd.mem_erase_iff]; exact ⟨hjc, hx⟩)
      have hlate : s.currentTime < (s.processes[j]).arrivalTime := by
        by_contra hcon
        exact hjadm ((mem_admission _ _ _ _).2 (Or.inr
          ⟨_, List.getElem?_eq_getElem hjlt, by omega, by rw [← e1.2.2.1]; exact hqpos⟩))
      rw [e1.2.1]
      rcases (mem_admission _ _ _ _).1 hia with hin | ⟨pi2, hpi2, hai, _⟩
      · have hjq0 : j ∉ s.readyQueue :=
          fun hx => hjadm ((mem_admission _ _ _ _).2 (Or.inl hx))
        have := hk i hin j _ (List.getElem?_eq_getElem hjlt)
          (by rw [← e1.2.2.1]; exact hqpos) hjq0
        rw [getD_of_getElem? hpi] at this
        exact this
      · rw [hpi] at hpi2
        cases hpi2
        omega

theorem SortedQueue.at_entry (ps : List Process) : SortedQueue (initState ps) :=
  ⟨sortByArrival_sorted ps, List.Pairwise.nil, by simp [initState], by simp [initState]⟩

theorem SortedQueue.iterate_sjf (ps : List Process) (n : Nat) :
    SortedQueue (Nat.iterate sjfStep n (initState ps)) := by
  have : ∀ (n : Nat) (s : SimState), SortedQueue s → SortedQueue (Nat.iterate sjfStep n s) := by
    intro n
    induction n with
    | zero => intro s hs; exact hs
    | succ n ih => intro s hs; exact ih _ hs.sjf_next
  exact this n _ (SortedQueue.at_entry ps)

theorem foldl_min_first (key : Nat → Int) (xs : List Nat) (b : Nat)
    (hb : ∀ y ∈ xs, b < y) (hxs : xs.Pairwise (fun a c => a < c)) :
    let m := xs.foldl (fun best y => if decide (key y < key best) then y else best) b
    (m = b ∨ (m ∈ xs ∧ key m < key b)) ∧ ∀ y ∈ xs, key y ≤ key m → m ≤ y := by
  induction xs generalizing b with
  | nil => simp
  | cons a as ih =>
    obtain ⟨ha, has⟩ := List.pairwise_cons.1 hxs
    simp only [List.foldl_cons]
    by_cases h : key a < key b
    · simp only [h, decide_True, if_true]
      obtain ⟨h1, h2⟩ := ih a ha has
      constructor
      · right
        rcases h1 with h1 | ⟨h1, h1'⟩
        · rw [h1]
          exact ⟨List.mem_cons_self _ _, h⟩
        · exact ⟨List.mem_cons_of_mem _ h1, by omega⟩
      · intro y hy hk
        rcases List.mem_cons.1 hy with rfl | hy
        · rcases h1 with h1 | ⟨_, h1'⟩
          · rw [h1]
          · omega
        · exact h2 y hy hk
    · simp only [h, decide_False, Bool.false_eq_true, if_false]
      obtain ⟨h1, h2⟩ := ih b (fun y hy => hb y (List.mem_cons_of_mem _ hy)) has
      constructor
      · rcases h1 with h1 | ⟨h1, h1'⟩
        · exact Or.inl h1
        · exact Or.inr ⟨List.mem_cons_of_mem _ h1, h1'⟩
      · intro y hy hk
        rcases List.mem_cons.1 hy with rfl | hy
        · rcases h1 with h1 | ⟨_, h1'⟩
          · rw [h1]
            exact le_of_lt (hb y (List.mem_cons_self _ _))
          · omega
        · exact h2 y hy hk

/-- On a strictly increasing range `std::min_element` returns the smallest
position among the elements of minimum key. -/
theorem minElement_first (key : Nat → Int) (l : List Nat) (m : Nat)
    (hl : l.Pairwise (fun a c => a < c))
    (h : minElement (fun a b => decide (key a < key b)) l = some m) :
    ∀ y ∈ l, key y ≤ key m → m ≤ y := by
  cases l with
  | nil => simp [minElement] at h
  | cons x xs =>
    obtain ⟨hx, hxs⟩ := List.pairwise_cons.1 hl
    simp only [minElement, Option.some.injEq] at h
    obtain ⟨h1, h2⟩ := foldl_min_first key xs x hx hxs
    rw [h] at h1 h2
    intro y hy hk
    rcases List.mem_cons.1 hy with rfl | hy
    · rcases h1 with h1 | ⟨_, h1'⟩
      · rw [h1]
      · omega
    · exact h2 y hy hk

theorem sjfSelect_first (s : SimState) (hq : SortedQueue s) (cur : Nat)
    (h : sjfSelect s = some cur) :
    ∀ j ∈ admission s.processes s.currentTime s.readyQueue,
      (s.processes.getD j default).executionTime
        ≤ (s.processes.getD cur default).executionTime → cur ≤ j :=
  minElement_first (fun a => (s.processes.getD a default).executionTime) _ cur
    hq.admission_sorted h

theorem tieOrder_step {M : Int} {orig : List Process}
    (hpos : ∀ o ∈ orig, 0 < o.executionTime) (st : SimState × List Nat)
    (h : Inv false M orig st.2 st.1) (hq : SortedQueue st.1) (hJ : TieOrder orig st)
    (hrun : running st.1 = true) :
    TieOrder orig (logged sjfSelect sjfStep st) := by
  rcases h.ideal hrun (fun s => sjfStep_spec s) with ⟨hsel, hid⟩ | ⟨cur, hsel, hd⟩
  · obtain ⟨_, hps, _, _, _⟩ := hid
    intro i j oi oj pi hoi hoj hiT hpi harr hj
    simp only [logged, hsel, hps] at hiT hpi hj
    exact hJ i j oi oj pi hoi hoj hiT hpi harr hj
  · have hfirst := sjfSelect_first st.1 hq cur hsel
    obtain ⟨hmem, _, _, hlen, hoth, hcur⟩ := hd
    obtain ⟨hcT, p, hp, hparr⟩ := h.admission_pend cur hmem
    obtain ⟨hnow, p1, hp1, c1, c2, c3, c4, c5⟩ := hcur p hp
    simp at c5
    have hpendfirst : ∀ j oj, orig[j]? = some oj → j ∉ st.2 →
        oj.arrivalTime ≤ st.1.currentTime → p.executionTime = oj.executionTime →
        cur ≤ j := by
      intro j oj hoj hjT harr heq
      obtain ⟨qj, hqj, e⟩ := h.pend j oj hoj hjT
      have hpos_j := hpos oj (mem_of_getElem? hoj)
      have hin : j ∈ admission st.1.processes st.1.currentTime st.1.readyQueue := by
        rw [mem_admission]
        exact Or.inr ⟨qj, hqj, by rw [e.2.1]; exact harr, by rw [e.2.2.1]; exact hpos_j⟩
      apply hfirst j hin
      rw [getD_of_getElem? hp, getD_of_getElem? hqj, e.2.2.1, heq]
    intro i j oi oj pi hoi hoj hiT hpi harr hj heq
    simp only [logged, hsel] at hiT hpi hj
    by_cases hic : i = cur
    · subst hic
      rw [hp1] at hpi
      cases hpi
      obtain ⟨p2, hp2, e⟩ := h.pend i oi hoi hcT
      rw [hp] at hp2
      cases hp2
      rw [← e.2.2.1] at heq
      rw [c5.1] at harr hj
      rcases hj with hj | ⟨pj, hpj, hlt⟩
      · have hjT : j ∉ st.2 := fun hx => hj (List.mem_append.2 (Or.inl hx))
        exact hpendfirst j oj hoj hjT harr heq
      · by_cases hjc : j = i
        · exact le_of_eq hjc.symm
        · by_cases hjT : j ∈ st.2
          · obtain ⟨qj, t, hqj, hf, ht⟩ := h.done j oj hoj hjT
            obtain ⟨q1, hq1, e1⟩ := hoth j hjc qj hqj
            rw [hpj] at hq1
            cases hq1
            have hs := hf.2.2.2.2.2.2
            simp at hs
            have := hpos oj (mem_of_getElem? hoj)
            have := e1.2.2.2.1
            omega
          · exact hpendfirst j oj hoj hjT harr heq
    · have hiT1 : i ∈ st.2 := by
        rcases List.mem_append.1 hiT with hx | hx
        · exact hx
        · simp at hx
          exact absurd hx hic
      obtain ⟨qi, t, hqi, _, _⟩ := h.done i oi hoi hiT1
      obtain ⟨q1, hq1, e1⟩ := hoth i hic qi hqi
      rw [hpi] at hq1
      cases hq1
      have hst := e1.2.2.2.1
      rw [hst] at harr hj
      refine hJ i j oi oj qi hoi hoj hiT1 hqi harr ?_ heq
      by_cases hjc : j = cur
      · subst hjc
        exact Or.inl hcT
      · rcases hj with hj | ⟨pj, hpj, hlt⟩
        · exact Or.inl (fun hx => hj (List.mem_append.2 (Or.inl hx)))
        · have hjlt : j < st.1.processes.length := by
            rw [← hlen]
            exact lt_of_getElem? hpj
          obtain ⟨qj, hqj⟩ : ∃ qj, st.1.processes[j]? = some qj :=
            ⟨_, List.getElem?_eq_getElem hjlt⟩
          obtain ⟨q2, hq2, e2⟩ := hoth j hjc qj hqj
          rw [hpj] at hq2
          cases hq2
          exact Or.inr ⟨qj, hqj, by rw [← e2.2.2.2.1]; exact hlt⟩

theorem map_getD_sublist (l : List Process) (idx : List Nat)
    (hinc : idx.Pairwise (fun a b => a < b)) (hv : ∀ i ∈ idx, i < l.length) :
    (idx.map (fun i => l.getD i default)).Sublist l := by
  induction l generalizing idx with
  | nil =>
    cases idx with
    | nil => exact List.Sublist.slnil
    | cons i rest => exact absurd (hv i (List.mem_cons_self _ _)) (by simp)
  | cons a l ih =>
    have hshift : ∀ (js : List Nat), (∀ j ∈ js, 1 ≤ j) →
        js.map (fun i => (a :: l).getD i default)
          = (js.map (fun j => j - 1)).map (fun i => l.getD i default) := by
      intro js hjs
      rw [List.map_map]
      apply List.map_congr_left
      intro j hj
      obtain ⟨k, rfl⟩ : ∃ k, j = k + 1 := ⟨j - 1, by have := hjs j hj; omega⟩
      simp
    have hrec : ∀ (js : List Nat), js.Pairwise (fun a b => a < b) →
        (∀ j ∈ js, 1 ≤ j ∧ j < (a :: l).length) →
        ((js.map (fun j => j - 1)).map (fun i => l.getD i default)).Sublist l := by
      intro js hp hjs
      apply ih
      · rw [List.pairwise_map]
        refine List.Pairwise.imp_of_mem ?_ hp
        intro x y hx hy hxy
        have := (hjs x hx).1
        omega
      · intro i hi
        obtain ⟨j, hj, rfl⟩ := List.mem_map.1 hi
        have := hjs j hj
        simp only [List.length_cons] at this
        omega
    cases idx with
    | nil => exact List.nil_sublist _
    | cons i rest =>
      obtain ⟨hi, hrest⟩ := List.pairwise_cons.1 hinc
      have hrest1 : ∀ j ∈ rest, 1 ≤ j ∧ j < (a :: l).length :=
        fun j hj => ⟨by have := hi j hj; omega, hv j (List.mem_cons_of_mem _ hj)⟩
      by_cases h0 : i = 0
      · subst h0
        simp only [List.map_cons, List.getD_cons_zero]
        rw [hshift rest (fun j hj => (hrest1 j hj).1)]
        exact List.Sublist.cons₂ a (hrec rest hrest hrest1)
      · have hall : ∀ j ∈ i :: rest, 1 ≤ j ∧ j < (a :: l).length := by
          intro j hj
          rcases List.mem_cons.1 hj with rfl | hj
          · exact ⟨by omega, hv j (List.mem_cons_self _ _)⟩
          · exact hrest1 j hj
        rw [hshift (i :: rest) (fun j hj => (hall j hj).1)]
        exact List.Sublist.cons a (hrec (i :: rest) hinc hall)

theorem sjf_returns_pos (ps : List Process) (fuel : Nat) (out : List Process)
    (h : simulateSJF fuel ps = some out) : ∀ p ∈ ps, 0 < p.executionTime := by
  by_contra hcon
  push_neg at hcon
  have := never_returns (fun s => sjfStep_spec s) ps hcon fuel
  unfold simulateSJF sjfRun at h
  rw [this] at h
  cases h

theorem simulateSJF_fuel_add (ps : List Process) (fuel k : Nat) (out : List Process)
    (h : simulateSJF fuel ps = some out) : simulateSJF (fuel + k) ps = some out := by
  unfold simulateSJF sjfRun at h ⊢
  obtain ⟨s1, hs1, rfl⟩ := Option.map_eq_some'.1 h
  rw [whileLoop_fuel_add running sjfStep k fuel _ s1 hs1]
  rfl

/-- C16 (SJF tie-break). For every batch, whatever the stored times are: in the
state `s` after any number of loop iterations of `simulateSJF` the ready queue
lists valid positions of the arrival-sorted batch in strictly increasing order,
so the processes it points to form a subsequence of the batch; and the process
`cur` selected in `s` is ready, has the minimum `executionTime` of the ready
processes, and is the first in the batch among the ready processes of that
execution time.  When the simulation does not overflow an `int` (`NoOverflow`),
in the batch that `simulateSJF` returns two processes `p`, `q` that entered with
the same execution time and satisfy `q.arrivalTime <= p.startTime < q.startTime`
are such that `p` stands before `q` in the arrival-sorted batch and
`p.arrivalTime <= q.arrivalTime`.  For a batch with all `executionTime > 0` the
function returns: within `length + maxArrival` iterations without overflow, and
within 2^32 iterations per process plus 2^31 whenever the arrival times are
`int` values. -/
theorem sjf_tie_break (ps : List Process) :
    (∀ (n : Nat) (s : SimState), s = Nat.iterate sjfStep n (initState ps) →
      s.readyQueue.Pairwise (fun a b => a < b) ∧
      (∀ i ∈ s.readyQueue, i < s.processes.length) ∧
      (s.readyQueue.map (fun i => s.processes.getD i default)).Sublist s.processes ∧
      ∀ cur, sjfSelect s = some cur →
        cur ∈ admission s.processes s.currentTime s.readyQueue ∧
        (∀ j ∈ admission s.processes s.currentTime s.readyQueue,
          (s.processes.getD cur default).executionTime
            ≤ (s.processes.getD j default).executionTime) ∧
        (∀ j ∈ admission s.processes s.currentTime s.readyQueue,
          (s.processes.getD j default).executionTime
            = (s.processes.getD cur default).executionTime → cur ≤ j) ∧
        (sjfStep s).readyQueue
          = (admission s.processes s.currentTime s.readyQueue).erase cur ∧
        ((sjfStep s).processes.getD cur default).startTime = s.currentTime) ∧
    (NoOverflow ps → ∀ fuel out, simulateSJF fuel ps = some out →
      ∀ (i j : Nat) (oi oj pi pj : Process), (sortByArrival ps)[i]? = some oi →
        (sortByArrival ps)[j]? = some oj → out[i]? = some pi → out[j]? = some pj →
        oi.executionTime = oj.executionTime →
        pj.arrivalTime ≤ pi.startTime → pi.startTime < pj.startTime →
        i ≤ j ∧ pi.arrivalTime ≤ pj.arrivalTime) ∧
    ((∀ p ∈ ps, 0 < p.executionTime) → NoOverflow ps →
      ∀ fuel, ps.length + (maxArrival ps).toNat ≤ fuel →
        ∃ out, simulateSJF fuel ps = some out) ∧
    ((∀ p ∈ ps, 0 < p.executionTime ∧ p.arrivalTime ≤ 2147483647) →
      ∀ fuel, ps.length * 4294967296 + 2147483648 ≤ fuel →
        ∃ out, simulateSJF fuel ps = some out) := by
  refine ⟨?_, ?_, ?_, ?_⟩
  · intro n s hs
    subst hs
    have hq := SortedQueue.iterate_sjf ps n
    have hvalid : ∀ i ∈ (Nat.iterate sjfStep n (initState ps)).readyQueue,
        i < (Nat.iterate sjfStep n (initState ps)).processes.length := by
      intro i hi
      obtain ⟨p, hp, _⟩ := hq.2.2.1 i hi
      exact lt_of_getElem? hp
    refine ⟨hq.2.1, hvalid, map_getD_sublist _ _ hq.2.1 hvalid, ?_⟩
    intro cur hcur
    obtain ⟨hmem, hmin⟩ := minElement_spec
      (fun a => ((Nat.iterate sjfStep n (initState ps)).processes.getD a
        default).executionTime) _ cur hcur
    refine ⟨hmem, hmin, fun j hj he => sjfSelect_first _ hq cur hcur j hj (le_of_eq he),
      by simp [sjfStep, hcur], ?_⟩
    have hro : ReadyOK (Nat.iterate sjfStep n (initState ps)) :=
      ⟨hq.2.1.imp (fun hab => Nat.ne_of_lt hab), hq.2.2.1⟩
    obtain ⟨pc, hpc, _⟩ := hro.of_admission cur hmem
    simp only [sjfStep, hcur]
    rw [List.getD_eq_getElem?_getD, List.getElem?_set_self (lt_of_getElem? hpc)]
    rfl
  · intro hfit fuel out hout i j oi oj pi pj hoi hoj hpi hpj heq harr hlt
    have hpos := sjf_returns_pos ps fuel out hout
    have hout2 := simulateSJF_fuel_add ps fuel (ps.length + (maxArrival ps).toNat) out hout
    obtain ⟨s, T, _, _, h3, h4, h5, h6⟩ := sjf_total hpos hfit
      (fun st => SortedQueue st.1 ∧ TieOrder (sortByArrival ps) st)
      ⟨SortedQueue.at_entry ps, by intro i j oi oj pi _ _ hiT; simp at hiT⟩
      (fun st h hJ hrun => ⟨hJ.1.sjf_next,
        tieOrder_step (fun o ho => hpos o (mem_sort ho)) st h hJ.1 hJ.2 hrun⟩)
      (fuel + (ps.length + (maxArrival ps).toNat)) (by omega)
    rw [hout2] at h3
    cases h3
    obtain ⟨hperm, _⟩ := h4.final h6
    have hiT : i ∈ T := hperm.mem_iff.2 (List.mem_range.2 (lt_of_getElem? hoi))
    have hjT : j ∈ T := hperm.mem_iff.2 (List.mem_range.2 (lt_of_getElem? hoj))
    obtain ⟨qi, ti, hqi, hfi, _⟩ := h4.done i oi hoi hiT
    obtain ⟨qj, tj, hqj, hfj, _⟩ := h4.done j oj hoj hjT
    rw [hpi] at hqi
    cases hqi
    rw [hpj] at hqj
    cases hqj
    have hij : i ≤ j := h5.2 i j oi oj pi hoi hoj hiT hpi (by rw [← hfj.2.1]; exact harr)
      (Or.inr ⟨pj, hpj, hlt⟩) heq
    refine ⟨hij, ?_⟩
    rw [hfi.2.1, hfj.2.1]
    exact sorted_index_le (sortByArrival_sorted ps) hoi hoj hij
  · intro hpos hfit fuel hfuel
    obtain ⟨out, h1, _⟩ := sjf_finished hpos hfit fuel hfuel
    exact ⟨out, h1⟩
  · intro hpre fuel hfuel
    obtain ⟨out, _, h1, _⟩ := sjf_returns hpre fuel hfuel
    exact ⟨out, h1⟩

/-- C16 on `tieBatch`: the processes at positions 1 and 2 tie on execution time
2 and are both ready at time 5, after one iteration; position 1 (the earlier
arrival) is selected, and the run dispatches 0, 1, 2 in this order. -/
theorem sjf_tie_break_witness :
    NoOverflow tieBatch ∧ (∀ p ∈ tieBatch, 0 < p.executionTime) ∧
    tieBatch.length + (maxArrival tieBatch).toNat ≤ 5 ∧
    sjfDispatchLog 5 tieBatch = some [0, 1, 2] ∧
    admission (Nat.iterate sjfStep 1 (initState tieBatch)).processes
      (Nat.iterate sjfStep 1 (initState tieBatch)).currentTime
      (Nat.iterate sjfStep 1 (initState tieBatch)).readyQueue = [1, 2] ∧
    sjfSelect (Nat.iterate sjfStep 1 (initState tieBatch)) = some 1 ∧
    (∀ cur, sjfSelect (Nat.iterate sjfStep 1 (initState tieBatch)) = some cur →
      ∀ j ∈ admission (Nat.iterate sjfStep 1 (initState tieBatch)).processes
          (Nat.iterate sjfStep 1 (initState tieBatch)).currentTime
          (Nat.iterate sjfStep 1 (initState tieBatch)).readyQueue,
        ((Nat.iterate sjfStep 1 (initState tieBatch)).processes.getD j
            default).executionTime
          = ((Nat.iterate sjfStep 1 (initState tieBatch)).processes.getD cur
              default).executionTime → cur ≤ j) ∧
    (∃ out, simulateSJF 5 tieBatch = some out ∧
      ∀ (i j : Nat) (oi oj pi pj : Process), (sortByArrival tieBatch)[i]? = some oi →
        (sortByArrival tieBatch)[j]? = some oj → out[i]? = some pi → out[j]? = some pj →
        oi.executionTime = oj.executionTime →
        pj.arrivalTime ≤ pi.startTime → pi.startTime < pj.startTime →
        i ≤ j ∧ pi.arrivalTime ≤ pj.arrivalTime) := by
  obtain ⟨h1, h2, h3, _⟩ := sjf_tie_break tieBatch
  obtain ⟨out, hout⟩ := h3 (by decide) ⟨by decide, by decide⟩ 5 (by decide)
  exact ⟨⟨by decide, by decide⟩, by decide, by decide, by decide, by decide, by decide,
    fun cur hcur => ((h1 1 _ rfl).2.2.2 cur hcur).2.2.1,
    out, hout, h2 ⟨by decide, by decide⟩ 5 out hout⟩

/-! ## C17: idle-jump equivalence -/

theorem nextArrival_spec (ps : List Process) :
    (∀ m, nextArrival ps = some m →
      (∃ p ∈ ps, 0 < p.executionTime ∧ p.arrivalTime = m) ∧
      ∀ p ∈ ps, 0 < p.executionTime → m ≤ p.arrivalTime) := by
  induction ps with
  | nil => intro m h; simp [nextArrival] at h
  | cons q rest ih =>
    intro m h
    simp only [nextArrival] at h
    by_cases hq : q.executionTime > 0
    · simp only [hq, if_true] at h
      cases hr : nextArrival rest with
      | none =>
        simp only [hr, Option.some.injEq] at h
        subst h
        have hnone : ∀ p ∈ rest, ¬ 0 < p.executionTime := by
          intro p hp hpos
          clear ih
          induction rest with
          | nil => simp at hp
          | cons a as ih2 =>
            simp only [nextArrival] at hr
            by_cases ha : a.executionTime > 0
            · simp only [ha, if_true] at hr
              cases h2 : nextArrival as <;> simp [h2] at hr
            · simp only [ha, if_false] at hr
              rcases List.mem_cons.1 hp with rfl | hp
              · exact ha hpos
              · exact ih2 hr hp
        refine ⟨⟨q, List.mem_cons_self _ _, hq, rfl⟩, ?_⟩
        intro p hp hpos
        rcases List.mem_cons.1 hp with rfl | hp
        · exact le_refl _
        · exact absurd hpos (hnone p hp)
      | some m' =>
        simp only [hr, Option.some.injEq] at h
        obtain ⟨⟨p0, hp0, hp0pos, hp0a⟩, hmin⟩ := ih m' hr
        subst h
        constructor
        · by_cases hle : q.arrivalTime ≤ m'
          · exact ⟨q, List.mem_cons_self _ _, hq, (min_eq_left hle).symm⟩
          · exact ⟨p0, List.mem_cons_of_mem _ hp0, hp0pos, by
              rw [hp0a]; exact (min_eq_right (by omega)).symm⟩
        · intro p hp hpos
          rcases List.mem_cons.1 hp with rfl | hp
          · exact min_le_left _ _
          · exact le_trans (min_le_right _ _) (hmin p hp hpos)
    · simp only [hq, if_false] at h
      obtain ⟨⟨p0, hp0, hp0pos, hp0a⟩, hmin⟩ := ih m h
      refine ⟨⟨p0, List.mem_cons_of_mem _ hp0, hp0pos, hp0a⟩, ?_⟩
      intro p hp hpos
      rcases List.mem_cons.1 hp with rfl | hp
      · exact absurd hpos hq
      · exact hmin p hp hpos

theorem admission_nil_iff (ps : List Process) (now : Int) :
    admission ps now [] = [] ↔ ∀ p ∈ ps, 0 < p.executionTime → now < p.arrivalTime := by
  constructor
  · intro h p hp hpos
    by_contra hcon
    obtain ⟨j, hj⟩ := List.mem_iff_getElem?.1 hp
    have : j ∈ admission ps now [] :=
      (mem_admission ps now [] j).2 (Or.inr ⟨p, hj, by omega, hpos⟩)
    rw [h] at this
    simp at this
  · intro h
    apply List.eq_nil_iff_forall_not_mem.2
    intro j hj
    rcases (mem_admission ps now [] j).1 hj with hin | ⟨p, hp, ha, he⟩
    · simp at hin
    · have := h p (mem_of_getElem? hp) he
      omega

theorem sjfSelect_none_iff (s : SimState) :
    sjfSelect s = none ↔ admission s.processes s.currentTime s.readyQueue = [] :=
  minElement_eq_none _ _

theorem sjfStep_idle (s : SimState) (h : sjfSelect s = none) :
    s.readyQueue = [] ∧ sjfStep s = atTime s (wrapInt (s.currentTime + 1)) := by
  have hadm := (sjfSelect_none_iff s).1 h
  have hrq : s.readyQueue = [] := by
    apply List.eq_nil_iff_forall_not_mem.2
    intro i hi
    have : i ∈ admission s.processes s.currentTime s.readyQueue :=
      (mem_admission _ _ _ _).2 (Or.inl hi)
    rw [hadm] at this
    simp at this
  refine ⟨hrq, ?_⟩
  simp only [sjfStep, h, hadm, atTime]

theorem sjfSelect_atTime (s : SimState) (t m : Int)
    (hm : ∀ p ∈ s.processes, 0 < p.executionTime → m ≤ p.arrivalTime) (ht : t < m) :
    sjfSelect (atTime s t) = none := by
  rw [sjfSelect_none_iff]
  simp only [atTime]
  rw [admission_nil_iff]
  intro p hp hpos
  have := hm p hp hpos
  omega

theorem ClockOK.sjf_step {s : SimState} (h : ClockOK s) : ClockOK (sjfStep s) := by
  unfold sjfStep
  split
  · refine ⟨(wrapInt_range _).1, ?_⟩
    intro p hp hpos
    simp only at hp
    rcases List.mem_or_eq_of_mem_set hp with hp | hp
    · exact h.2 p hp hpos
    · subst hp
      simp at hpos
  · exact ⟨(wrapInt_range _).1, h.2⟩

/-- A run of per-tick idle iterations from time `t` up to the next arrival `m`
ends in the state the idle jump produces: no increment on the way overflows. -/
theorem tick_chain (s : SimState) (m : Int) (hrun : running s = true)
    (hm : ∀ p ∈ s.processes, 0 < p.executionTime → m ≤ p.arrivalTime)
    (hmax : m ≤ 2147483647) :
    ∀ (d : Nat) (t : Int), t + d = m → -2147483648 ≤ t → ∀ (fuel : Nat) (r : SimState),
      whileLoop running sjfStep fuel (atTime s t) = some r →
      d ≤ fuel ∧ whileLoop running sjfStep (fuel - d) (atTime s m) = some r := by
  intro d
  induction d with
  | zero =>
    intro t ht _ fuel r h
    have : t = m := by simpa using ht
    subst this
    exact ⟨Nat.zero_le _, by simpa using h⟩
  | succ d ih =>
    intro t ht hlo fuel r h
    have hrt : running (atTime s t) = true := hrun
    have hsel := sjfSelect_atTime s t m hm (by push_cast at ht; omega)
    cases fuel with
    | zero => simp [whileLoop, hrt] at h
    | succ f =>
      simp only [whileLoop, hrt, if_true] at h
      rw [(sjfStep_idle _ hsel).2] at h
      have hw : wrapInt ((atTime s t).currentTime + 1) = t + 1 := by
        show wrapInt (t + 1) = t + 1
        exact wrapInt_eq (by omega) (by push_cast at ht; omega)
      have hst : atTime (atTime s t) (wrapInt ((atTime s t).currentTime + 1))
          = atTime s (t + 1) := by
        rw [hw]
        rfl
      rw [hst] at h
      obtain ⟨h1, h2⟩ := ih (t + 1) (by push_cast at ht ⊢; omega) (by omega) f r h
      refine ⟨by omega, ?_⟩
      have : f + 1 - (d + 1) = f - d := by omega
      rw [this]
      exact h2

/-- Whatever the per-tick loop returns, the idle-jump loop returns as well, with
the same fuel. -/
theorem jump_of_tick : ∀ (fuel : Nat) (s r : SimState), ClockOK s →
    whileLoop running sjfStep fuel s = some r →
    whileLoop running sjfJumpStep fuel s = some r := by
  intro fuel
  induction fuel using Nat.strong_induction_on with
  | _ fuel ih =>
    intro s r hok h
    by_cases hrun : running s = true
    · cases fuel with
      | zero => simp [whileLoop, hrun] at h
      | succ f =>
        simp only [whileLoop, hrun, if_true] at h ⊢
        cases hsel : sjfSelect s with
        | some cur =>
          have hj : sjfJumpStep s = sjfStep s := by simp [sjfJumpStep, hsel]
          rw [hj]
          exact ih f (Nat.lt_succ_self f) _ r hok.sjf_step h
        | none =>
          obtain ⟨hrq, hstep⟩ := sjfStep_idle s hsel
          have hadm := (sjfSelect_none_iff s).1 hsel
          rw [hstep] at h
          cases hnext : nextArrival s.processes with
          | none =>
            have hj : sjfJumpStep s = atTime s (wrapInt (s.currentTime + 1)) := by
              simp [sjfJumpStep, hsel, hnext, hadm, atTime]
            rw [hj]
            exact ih f (Nat.lt_succ_self f) (atTime s (wrapInt (s.currentTime + 1))) r
              ⟨(wrapInt_range _).1, hok.2⟩ h
          | some m =>
            have hj : sjfJumpStep s = atTime s m := by
              simp [sjfJumpStep, hsel, hnext, hadm, atTime]
            rw [hj]
            obtain ⟨⟨p0, hp0, hp0pos, hp0a⟩, hmin⟩ := nextArrival_spec s.processes m hnext
            have hmax : m ≤ 2147483647 := by
              rw [← hp0a]
              exact hok.2 p0 hp0 hp0pos
            have hlo := hok.1
            have hlate : s.currentTime < m := by
              rw [hrq] at hadm
              have := (admission_nil_iff s.processes s.currentTime).1 hadm p0 hp0 hp0pos
              omega
            have hw : wrapInt (s.currentTime + 1) = s.currentTime + 1 :=
              wrapInt_eq (by omega) (by omega)
            rw [hw] at h
            obtain ⟨hd, hrest⟩ := tick_chain s m hrun hmin hmax
              (m - (s.currentTime + 1)).toNat (s.currentTime + 1) (by omega) (by omega) f r h
            have := ih (f - (m - (s.currentTime + 1)).toNat) (by omega) (atTime s m) r
              ⟨by show -2147483648 ≤ m; omega, hok.2⟩ hrest
            have hadd := whileLoop_fuel_add running sjfJumpStep
              (m - (s.currentTime + 1)).toNat _ _ r this
            have hf : f - (m - (s.currentTime + 1)).toNat + (m - (s.currentTime + 1)).toNat
                = f := by omega
            rw [hf] at hadd
            exact hadd
    · cases fuel with
      | zero => simpa [whileLoop, hrun] using h
      | succ f => simpa [whileLoop, hrun] using h

/-- C17 (idle-jump equivalence). For a batch with all `executionTime > 0` and
`arrivalTime >= 0` (arrival times being `int` values), whatever the stored times
are: whenever the per-tick loop of `simulateSJF` returns a batch, the variant
that jumps from an idle state directly to the smallest `arrivalTime` among the
not-yet-completed processes returns exactly the same batch (every field of every
process), with the same fuel.  The per-tick loop does return: within
`length + maxArrival` iterations when the simulation does not overflow an `int`,
and within 2^32 iterations per process plus 2^31 in any case. -/
theorem idle_jump_equivalence (ps : List Process)
    (hpre : ∀ p ∈ ps, 0 < p.executionTime ∧ 0 ≤ p.arrivalTime ∧
      p.arrivalTime ≤ 2147483647) :
    (∀ fuel out, simulateSJF fuel ps = some out → simulateSJFJump fuel ps = some out) ∧
    (NoOverflow ps → ∀ fuel, ps.length + (maxArrival ps).toNat ≤ fuel →
      ∃ out, simulateSJF fuel ps = some out ∧ simulateSJFJump fuel ps = some out ∧
        out.length = ps.length) ∧
    (∀ fuel, ps.length * 4294967296 + 2147483648 ≤ fuel →
      ∃ out, simulateSJF fuel ps = some out ∧ simulateSJFJump fuel ps = some out ∧
        out.length = ps.length) := by
  have hok : ClockOK (initState ps) :=
    ⟨by simp [initState], fun p hp _ => (hpre p (mem_sort hp)).2.2⟩
  have heq : ∀ fuel out, simulateSJF fuel ps = some out →
      simulateSJFJump fuel ps = some out := by
    intro fuel out h1
    unfold simulateSJF sjfRun at h1
    obtain ⟨s1, hs1, rfl⟩ := Option.map_eq_some'.1 h1
    unfold simulateSJFJump
    rw [jump_of_tick fuel _ s1 hok hs1]
    rfl
  refine ⟨heq, ?_, ?_⟩
  · intro hfit fuel hfuel
    obtain ⟨out, h1, h2⟩ := sjf_finished (fun o ho => (hpre o ho).1) hfit fuel hfuel
    exact ⟨out, h1, heq fuel out h1, by rw [← h2.length_eq, sortByArrival_length]⟩
  · intro fuel hfuel
    obtain ⟨out, _, h1, _, h2, _⟩ := sjf_returns
      (fun o ho => ⟨(hpre o ho).1, (hpre o ho).2.2⟩) fuel hfuel
    exact ⟨out, h1, heq fuel out h1, h2⟩

/-- C17 on `gapBatch`, which has an idle gap from 5 to 7: both loops return the
same batch; the per-tick loop needs 5 iterations, the jump variant 4. -/
theorem idle_jump_equivalence_witness :
    (∀ p ∈ gapBatch, 0 < p.executionTime ∧ 0 ≤ p.arrivalTime ∧
      p.arrivalTime ≤ 2147483647) ∧
    NoOverflow gapBatch ∧ gapBatch.length + (maxArrival gapBatch).toNat ≤ 10 ∧
    (∀ fuel out, simulateSJF fuel gapBatch = some out →
        simulateSJFJump fuel gapBatch = some out) ∧
    (∃ out, simulateSJF 10 gapBatch = some out ∧
        simulateSJFJump 10 gapBatch = some out ∧ out.length = gapBatch.length) ∧
    simulateSJFJump 4 gapBatch = some
      [ { id := 2, arrivalTime := 0, executionTime := 0, priority := 2,
          startTime := 0, endTime := 2, waitingTime := 0 },
        { id := 1, arrivalTime := 2, executionTime := 0, priority := 4,
          startTime := 2, endTime := 5, waitingTime := 0 },
        { id := 3, arrivalTime := 7, executionTime := 0, priority := 1,
          startTime := 7, endTime := 8, waitingTime := 0 } ] ∧
    simulateSJF 4 gapBatch = none ∧
    simulateSJF 5 gapBatch = simulateSJFJump 4 gapBatch := by
  obtain ⟨h1, h2, _⟩ := idle_jump_equivalence gapBatch (by decide)
  exact ⟨by decide, ⟨by decide, by decide⟩, by decide, h1,
    h2 ⟨by decide, by decide⟩ 10 (by decide), by decide, by decide, by decide⟩

/-! ## C18: one job at a time -/

theorem noOverlap_step {g : Bool} {M : Int} {orig : List Process}
    {select : SimState → Option Nat} {step : SimState → SimState}
    (hspec : StepSpec g select step) (st : SimState × List Nat)
    (h : Inv g M orig st.2 st.1) (hJ : NoOverlap orig st) (hrun : running st.1 = true) :
    NoOverlap orig (logged select step st) := by
  rcases h.ideal hrun hspec with ⟨hsel, hid⟩ | ⟨cur, hsel, hd⟩
  · obtain ⟨_, hps, _, _, _⟩ := hid
    intro i j oi oj pi pj hoi hoj hiT hjT hne hpi hpj
    simp only [logged, hsel, hps] at hiT hjT hpi hpj
    exact hJ i j oi oj pi pj hoi hoj hiT hjT hne hpi hpj
  · obtain ⟨hmem, _, _, hlen, hoth, hcur⟩ := hd
    obtain ⟨hcT, p, hp, _⟩ := h.admission_pend cur hmem
    obtain ⟨hnow, p1, hp1, _, _, _, c4, _⟩ := hcur p hp
    -- a process dispatched earlier ended before the clock; the new one starts at it
    have hnew : ∀ (i : Nat) (oi oc pi pc : Process), orig[i]? = some oi →
        orig[cur]? = some oc → i ∈ st.2 →
        (step st.1).processes[i]? = some pi → (step st.1).processes[cur]? = some pc →
        pi.endTime ≤ pc.endTime - oc.executionTime := by
      intro i oi oc pi pc hoi hoc hiT hpi hpc
      have hic : i ≠ cur := fun hx => hcT (hx ▸ hiT)
      obtain ⟨qi, t, hqi, hf, ht⟩ := h.done i oi hoi hiT
      obtain ⟨q1, hq1, e1⟩ := hoth i hic qi hqi
      rw [hpi] at hq1
      cases hq1
      rw [hp1] at hpc
      cases hpc
      obtain ⟨p2, hp2, e⟩ := h.pend cur oc hoc hcT
      rw [hp] at hp2
      cases hp2
      have := hf.2.2.2.2.2.1
      have := e1.2.2.2.2.1
      have := e.2.2.1
      omega
    intro i j oi oj pi pj hoi hoj hiT hjT hne hpi hpj
    simp only [logged, hsel] at hiT hjT hpi hpj
    have hmemT : ∀ k, k ∈ st.2 ++ [cur] → k ≠ cur → k ∈ st.2 := by
      intro k hk hkc
      rcases List.mem_append.1 hk with hx | hx
      · exact hx
      · simp at hx
        exact absurd hx hkc
    by_cases hic : i = cur
    · subst hic
      exact Or.inr (hnew j oj oi pj pi hoj hoi (hmemT j hjT (fun hx => hne hx.symm)) hpj hpi)
    · by_cases hjc : j = cur
      · subst hjc
        exact Or.inl (hnew i oi oj pi pj hoi hoj (hmemT i hiT hic) hpi hpj)
      · have hiT1 := hmemT i hiT hic
        have hjT1 := hmemT j hjT hjc
        obtain ⟨qi, _, hqi, _, _⟩ := h.done i oi hoi hiT1
        obtain ⟨qj, _, hqj, _, _⟩ := h.done j oj hoj hjT1
        obtain ⟨q1, hq1, e1⟩ := hoth i hic qi hqi
        obtain ⟨q2, hq2, e2⟩ := hoth j hjc qj hqj
        rw [hpi] at hq1
        cases hq1
        rw [hpj] at hq2
        cases hq2
        rw [e1.2.2.2.2.1, e2.2.2.2.2.1]
        exact hJ i j oi oj qi qj hoi hoj hiT1 hjT1 hne hqi hqj

/-- What the invariant `NoOverlap` gives for the returned batch: the intervals
of two distinct processes whose `startTime` was written at dispatch are
disjoint. -/
theorem noOverlap_final {g : Bool} {M : Int} {orig : List Process} {T : List Nat}
    {s : SimState} (h : Inv g M orig T s) (hrun : running s = false)
    (hJ : NoOverlap orig (s, T)) (i j : Nat) (oi oj pi pj : Process)
    (hoi : orig[i]? = some oi) (hoj : orig[j]? = some oj)
    (hpi : s.processes[i]? = some pi) (hpj : s.processes[j]? = some pj) (hne : i ≠ j)
    (hgi : g = false ∨ oi.startTime = -1) (hgj : g = false ∨ oj.startTime = -1) :
    pi.endTime ≤ pj.startTime ∨ pj.endTime ≤ pi.startTime := by
  obtain ⟨hperm, _⟩ := h.final hrun
  have hiT : i ∈ T := hperm.mem_iff.2 (List.mem_range.2 (lt_of_getElem? hoi))
  have hjT : j ∈ T := hperm.mem_iff.2 (List.mem_range.2 (lt_of_getElem? hoj))
  obtain ⟨qi, ti, hqi, hfi, _⟩ := h.done i oi hoi hiT
  obtain ⟨qj, tj, hqj, hfj, _⟩ := h.done j oj hoj hjT
  rw [hpi] at hqi
  cases hqi
  rw [hpj] at hqj
  cases hqj
  have hsi : pi.startTime = ti := by
    have := hfi.2.2.2.2.2.2
    rw [if_neg (by rintro ⟨h1, h2⟩; rcases hgi with h3 | h3 <;> simp_all)] at this
    exact this.1
  have hsj : pj.startTime = tj := by
    have := hfj.2.2.2.2.2.2
    rw [if_neg (by rintro ⟨h1, h2⟩; rcases hgj with h3 | h3 <;> simp_all)] at this
    exact this.1
  have hei := hfi.2.2.2.2.2.1
  have hej := hfj.2.2.2.2.2.1
  rcases hJ i j oi oj pi pj hoi hoj hiT hjT hne hpi hpj with h1 | h1
  · left; omega
  · right; omega

/-- C18 (one job at a time). For a batch with all `executionTime > 0` whose
simulation does not overflow an `int` (`NoOverflow`) both engines return; after
`simulateSJF` the execution intervals of any two distinct processes do not
overlap (`p.endTime <= q.startTime` or `q.endTime <= p.startTime`); after
`simulateWithPriorityAndAging` the same holds for any two distinct processes
that both entered with `startTime = -1`, the value with which every process is
created. -/
theorem no_overlap (ps : List Process) (agingThreshold : Int) (fuel : Nat)
    (hpos : ∀ p ∈ ps, 0 < p.executionTime) (hfit : NoOverflow ps)
    (hfuel : ps.length + (maxArrival ps).toNat ≤ fuel) :
    (∃ out, simulateSJF fuel ps = some out ∧ out.length = ps.length ∧
      ∀ (i j : Nat) (pi pj : Process), out[i]? = some pi → out[j]? = some pj → i ≠ j →
        pi.endTime ≤ pj.startTime ∨ pj.endTime ≤ pi.startTime) ∧
    (∃ out, simulateWithPriorityAndAging fuel ps agingThreshold = some out ∧
      out.length = ps.length ∧
      ∀ (i j : Nat) (oi oj pi pj : Process), (sortByArrival ps)[i]? = some oi →
        (sortByArrival ps)[j]? = some oj → out[i]? = some pi → out[j]? = some pj →
        i ≠ j → oi.startTime = -1 → oj.startTime = -1 →
        pi.endTime ≤ pj.startTime ∨ pj.endTime ≤ pi.startTime) := by
  constructor
  · obtain ⟨s, T, _, _, h3, h4, h5, h6⟩ := sjf_total hpos hfit (NoOverlap (sortByArrival ps))
      (by intro i j oi oj pi pj _ _ hiT; simp at hiT)
      (fun st h hJ hrun => noOverlap_step (fun x => sjfStep_spec x) st h hJ hrun) fuel hfuel
    refine ⟨s.processes, h3, by rw [h4.len, sortByArrival_length], ?_⟩
    intro i j pi pj hpi hpj hne
    obtain ⟨oi, hoi, _⟩ := get_of_lt (by rw [← h4.len]; exact lt_of_getElem? hpi :
      i < (sortByArrival ps).length)
    obtain ⟨oj, hoj, _⟩ := get_of_lt (by rw [← h4.len]; exact lt_of_getElem? hpj :
      j < (sortByArrival ps).length)
    exact noOverlap_final h4 h6 h5 i j oi oj pi pj hoi hoj hpi hpj hne (Or.inl rfl)
      (Or.inl rfl)
  · obtain ⟨s, T, _, _, h3, h4, h5, h6⟩ := aging_total agingThreshold hpos hfit
      (NoOverlap (sortByArrival ps))
      (by intro i j oi oj pi pj _ _ hiT; simp at hiT)
      (fun st h hJ hrun =>
        noOverlap_step (fun x => agingStep_spec agingThreshold x) st h hJ hrun)
      fuel hfuel
    refine ⟨s.processes, h3, by rw [h4.len, sortByArrival_length], ?_⟩
    intro i j oi oj pi pj hoi hoj hpi hpj hne hsi hsj
    exact noOverlap_final h4 h6 h5 i j oi oj pi pj hoi hoj hpi hpj hne (Or.inr hsi)
      (Or.inr hsj)

/-- C18 on `gapBatch` with `agingThreshold = 2` and fuel 10. -/
theorem no_overlap_witness :
    (∀ p ∈ gapBatch, 0 < p.executionTime) ∧ NoOverflow gapBatch ∧
    gapBatch.length + (maxArrival gapBatch).toNat ≤ 10 ∧
    (∃ out, simulateSJF 10 gapBatch = some out ∧ out.length = gapBatch.length ∧
      ∀ (i j : Nat) (pi pj : Process), out[i]? = some pi → out[j]? = some pj → i ≠ j →
        pi.endTime ≤ pj.startTime ∨ pj.endTime ≤ pi.startTime) ∧
    (∃ out, simulateWithPriorityAndAging 10 gapBatch 2 = some out ∧
      out.length = gapBatch.length ∧
      ∀ (i j : Nat) (oi oj pi pj : Process), (sortByArrival gapBatch)[i]? = some oi →
        (sortByArrival gapBatch)[j]? = some oj → out[i]? = some pi → out[j]? = some pj →
        i ≠ j → oi.startTime = -1 → oj.startTime = -1 →
        pi.endTime ≤ pj.startTime ∨ pj.endTime ≤ pi.startTime) :=
  ⟨by decide, ⟨by decide, by decide⟩, by decide,
    no_overlap gapBatch 2 10 (by decide) ⟨by decide, by decide⟩ (by decide)⟩

/-! ## C19: the CPU never idles while a process is ready -/

theorem workCons_step {g : Bool} {M : Int} {orig : List Process}
    {select : SimState → Option Nat} {step : SimState → SimState}
    (hspec : StepSpec g select step) (hpos : ∀ o ∈ orig, 0 < o.executionTime)
    (st : SimState × List Nat) (h : Inv g M orig st.2 st.1) (hJ : WorkCons orig st)
    (hrun : running st.1 = true) :
    WorkCons orig (logged select step st) := by
  obtain ⟨ha, hb⟩ := hJ
  rcases h.ideal hrun hspec with ⟨hsel, hid⟩ | ⟨cur, hsel, hd⟩
  · obtain ⟨hnil, hps, _, hnow, _⟩ := hid
    constructor
    · intro i oi pi hoi hiT hpi
      simp only [logged, hsel, hps] at hiT hpi ⊢
      exact ha i oi pi hoi hiT hpi
    · right
      intro i oi hoi hiT
      simp only [logged, hsel] at hiT ⊢
      obtain ⟨p, hp, e⟩ := h.pend i oi hoi hiT
      rw [hnow]
      by_contra hcon
      have : i ∈ admission st.1.processes st.1.currentTime st.1.readyQueue := by
        rw [mem_admission]
        exact Or.inr ⟨p, hp, by rw [e.2.1]; omega,
          by rw [e.2.2.1]; exact hpos oi (mem_of_getElem? hoi)⟩
      rw [hnil] at this
      simp at this
  · obtain ⟨hmem, _, _, hlen, hoth, hcur⟩ := hd
    obtain ⟨hcT, p, hp, hparr⟩ := h.admission_pend cur hmem
    obtain ⟨hnow, p1, hp1, _, _, _, c4, _⟩ := hcur p hp
    have hclt : cur < orig.length := by rw [← h.len]; exact lt_of_getElem? hp
    obtain ⟨oc, hoc, _⟩ := get_of_lt hclt
    obtain ⟨p2, hp2, ec⟩ := h.pend cur oc hoc hcT
    rw [hp] at hp2
    cases hp2
    -- an old record keeps its endTime
    have hold : ∀ (j : Nat) (pj : Process), j ∈ st.2 → st.1.processes[j]? = some pj →
        ∃ pj1, (step st.1).processes[j]? = some pj1 ∧ pj1.endTime = pj.endTime := by
      intro j pj hjT hpj
      obtain ⟨q1, hq1, e1⟩ := hoth j (fun hx => hcT (hx ▸ hjT)) pj hpj
      exact ⟨q1, hq1, e1.2.2.2.2.1⟩
    constructor
    · intro i oi pi hoi hiT hpi
      simp only [logged, hsel] at hiT hpi ⊢
      by_cases hic : i = cur
      · subst hic
        rw [hoc] at hoi
        cases hoi
        rw [hp1] at hpi
        cases hpi
        have hstart : p1.endTime - oc.executionTime = st.1.currentTime := by
          rw [c4, ec.2.2.1]; omega
        rw [hstart]
        rcases hb with ⟨j, pj, hjT, hpj, hje⟩ | hb
        · right
          obtain ⟨pj1, hpj1, he⟩ := hold j pj hjT hpj
          exact ⟨j, pj1, List.mem_append.2 (Or.inl hjT), fun hx => hcT (hx ▸ hjT), hpj1,
            by rw [he, hje]⟩
        · left
          have h1 := hb i oc hoc hcT
          have h2 := ec.2.1
          omega
      · have hiT1 : i ∈ st.2 := by
          rcases List.mem_append.1 hiT with hx | hx
          · exact hx
          · simp at hx
            exact absurd hx hic
        obtain ⟨qi, _, hqi, _, _⟩ := h.done i oi hoi hiT1
        obtain ⟨q1, hq1, e1⟩ := hoth i hic qi hqi
        rw [hpi] at hq1
        cases hq1
        rw [e1.2.2.2.2.1]
        rcases ha i oi qi hoi hiT1 hqi with h1 | ⟨j, pj, hjT, hji, hpj, hje⟩
        · exact Or.inl h1
        · right
          obtain ⟨pj1, hpj1, he⟩ := hold j pj hjT hpj
          exact ⟨j, pj1, List.mem_append.2 (Or.inl hjT), hji, hpj1, by rw [he, hje]⟩
    · left
      simp only [logged, hsel]
      exact ⟨cur, p1, List.mem_append.2 (Or.inr (by simp)), hp1, by rw [c4, hnow]⟩

theorem workCons_final {g : Bool} {M : Int} {orig : List Process} {T : List Nat}
    {s : SimState} (h : Inv g M orig T s) (hrun : running s = false)
    (hJ : WorkCons orig (s, T)) (i : Nat) (oi pi : Process)
    (hoi : orig[i]? = some oi) (hpi : s.processes[i]? = some pi)
    (hgi : g = false ∨ oi.startTime = -1) :
    pi.startTime = pi.arrivalTime ∨
      ∃ (j : Nat) (pj : Process), j ≠ i ∧ s.processes[j]? = some pj ∧
        pj.endTime = pi.startTime := by
  obtain ⟨hperm, _⟩ := h.final hrun
  have hiT : i ∈ T := hperm.mem_iff.2 (List.mem_range.2 (lt_of_getElem? hoi))
  obtain ⟨qi, ti, hqi, hfi, _⟩ := h.done i oi hoi hiT
  rw [hpi] at hqi
  cases hqi
  have hsi : pi.startTime = ti := by
    have := hfi.2.2.2.2.2.2
    rw [if_neg (by rintro ⟨h1, h2⟩; rcases hgi with h3 | h3 <;> simp_all)] at this
    exact this.1
  have hei := hfi.2.2.2.2.2.1
  have hai := hfi.2.1
  rcases hJ.1 i oi pi hoi hiT hpi with h1 | ⟨j, pj, _, hji, hpj, hje⟩
  · left; omega
  · right
    exact ⟨j, pj, hji, hpj, by omega⟩

/-- C19 (work-conserving). For a batch with all `executionTime > 0` and
`arrivalTime >= 0` whose simulation does not overflow an `int` (`NoOverflow`)
both engines return; after `simulateSJF` every process `p` satisfies
`p.startTime = p.arrivalTime` or `p.startTime = q.endTime` for some other process
`q` of the batch; after `simulateWithPriorityAndAging` the same holds for every
process `p` that entered with `startTime = -1`, the value with which every
process is created. -/
theorem work_conserving (ps : List Process) (agingThreshold : Int) (fuel : Nat)
    (hpre : ∀ p ∈ ps, 0 < p.executionTime ∧ 0 ≤ p.arrivalTime)
    (hfit : NoOverflow ps)
    (hfuel : ps.length + (maxArrival ps).toNat ≤ fuel) :
    (∃ out, simulateSJF fuel ps = some out ∧ out.length = ps.length ∧
      ∀ (i : Nat) (pi : Process), out[i]? = some pi →
        pi.startTime = pi.arrivalTime ∨
          ∃ (j : Nat) (pj : Process), j ≠ i ∧ out[j]? = some pj ∧
            pj.endTime = pi.startTime) ∧
    (∃ out, simulateWithPriorityAndAging fuel ps agingThreshold = some out ∧
      out.length = ps.length ∧
      ∀ (i : Nat) (oi pi : Process), (sortByArrival ps)[i]? = some oi →
        out[i]? = some pi → oi.startTime = -1 →
        pi.startTime = pi.arrivalTime ∨
          ∃ (j : Nat) (pj : Process), j ≠ i ∧ out[j]? = some pj ∧
            pj.endTime = pi.startTime) := by
  have hpos : ∀ p ∈ ps, 0 < p.executionTime := fun p hp => (hpre p hp).1
  have hpos' : ∀ o ∈ sortByArrival ps, 0 < o.executionTime :=
    fun o ho => hpos o (mem_sort ho)
  have hJ0 : WorkCons (sortByArrival ps) (initState ps, []) := by
    refine ⟨by intro i oi pi _ hiT; simp at hiT, Or.inr ?_⟩
    intro i oi hoi _
    exact (hpre oi (mem_sort (mem_of_getElem? hoi))).2
  constructor
  · obtain ⟨s, T, _, _, h3, h4, h5, h6⟩ := sjf_total hpos hfit
      (WorkCons (sortByArrival ps)) hJ0
      (fun st h hJ hrun => workCons_step (fun x => sjfStep_spec x) hpos' st h hJ hrun)
      fuel hfuel
    refine ⟨s.processes, h3, by rw [h4.len, sortByArrival_length], ?_⟩
    intro i pi hpi
    obtain ⟨oi, hoi, _⟩ := get_of_lt (by rw [← h4.len]; exact lt_of_getElem? hpi :
      i < (sortByArrival ps).length)
    exact workCons_final h4 h6 h5 i oi pi hoi hpi (Or.inl rfl)
  · obtain ⟨s, T, _, _, h3, h4, h5, h6⟩ := aging_total agingThreshold hpos hfit
      (WorkCons (sortByArrival ps)) hJ0
      (fun st h hJ hrun =>
        workCons_step (fun x => agingStep_spec agingThreshold x) hpos' st h hJ hrun)
      fuel hfuel
    refine ⟨s.processes, h3, by rw [h4.len, sortByArrival_length], ?_⟩
    intro i oi pi hoi hpi hsi
    exact workCons_final h4 h6 h5 i oi pi hoi hpi (Or.inr hsi)

/-- C19 on `gapBatch` with `agingThreshold = 2` and fuel 10. -/
theorem work_conserving_witness :
    (∀ p ∈ gapBatch, 0 < p.executionTime ∧ 0 ≤ p.arrivalTime) ∧ NoOverflow gapBatch ∧
    gapBatch.length + (maxArrival gapBatch).toNat ≤ 10 ∧
    (∃ out, simulateSJF 10 gapBatch = some out ∧ out.length = gapBatch.length ∧
      ∀ (i : Nat) (pi : Process), out[i]? = some pi →
        pi.startTime = pi.arrivalTime ∨
          ∃ (j : Nat) (pj : Process), j ≠ i ∧ out[j]? = some pj ∧
            pj.endTime = pi.startTime) ∧
    (∃ out, simulateWithPriorityAndAging 10 gapBatch 2 = some out ∧
      out.length = gapBatch.length ∧
      ∀ (i : Nat) (oi pi : Process), (sortByArrival gapBatch)[i]? = some oi →
        out[i]? = some pi → oi.startTime = -1 →
        pi.startTime = pi.arrivalTime ∨
          ∃ (j : Nat) (pj : Process), j ≠ i ∧ out[j]? = some pj ∧
            pj.endTime = pi.startTime) :=
  ⟨by decide, ⟨by decide, by decide⟩, by decide,
    work_conserving gapBatch 2 10 (by decide) ⟨by decide, by decide⟩ (by decide)⟩

/-! ## C20: aging touches only processes that waited long enough -/

theorem notAged_step {M : Int} {orig : List Process} (thr : Int)
    (hpos : ∀ o ∈ orig, 0 < o.executionTime) (st : SimState × List Nat)
    (h : Inv true M orig st.2 st.1) (hJ : NotAged orig thr st)
    (hrun : running st.1 = true) :
    NotAged orig thr (logged (agingSelect thr) (agingStep thr) st) := by
  rcases h.ideal hrun (fun s => agingStep_spec thr s) with ⟨hsel, hid⟩ | ⟨cur, hsel, hd⟩
  · obtain ⟨_, hps, _, hnow, _⟩ := hid
    intro i o p ho hp hne
    simp only [logged, hsel, hps] at hp ⊢
    obtain ⟨h1, h2⟩ := hJ i o p ho hp hne
    exact ⟨fun hiT => by rw [hnow]; have := h1 hiT; omega, h2⟩
  · have ht := h.dispatch_time hpos hd
    obtain ⟨hmem, _, _, hlen, hoth, hcur⟩ := hd
    obtain ⟨hcT, pc, hpc, _⟩ := h.admission_pend cur hmem
    intro i o p ho hp hne
    simp only [logged, hsel] at hp ⊢
    have hilt : i < st.1.processes.length := by rw [h.len]; exact lt_of_getElem? ho
    have hq := List.getElem?_eq_getElem hilt
    obtain ⟨q1, hq1, hpr⟩ := agingStep_priority thr st.1 h.rq_nodup i _ hq
    rw [hp] at hq1
    cases hq1
    by_cases hiT : i ∈ st.2
    · have hic : i ≠ cur := fun hx => hcT (hx ▸ hiT)
      have hnadm : i ∉ admission st.1.processes st.1.currentTime st.1.readyQueue :=
        fun hx => (h.admission_pend i hx).1 hiT
      rw [if_neg (fun hx => hnadm hx.1)] at hpr
      obtain ⟨q2, hq2, e2⟩ := hoth i hic _ hq
      rw [hp] at hq2
      cases hq2
      have hold := (hJ i o _ ho hq (by rw [← hpr]; exact hne)).2 hiT
      refine ⟨fun hx => absurd (List.mem_append.2 (Or.inl hiT)) hx, fun _ => ?_⟩
      rw [e2.2.2.2.2.1]
      exact hold
    · obtain ⟨q0, hq0, e0⟩ := h.pend i o ho hiT
      rw [hq] at hq0
      cases hq0
      have key : thr ≤ st.1.currentTime - o.arrivalTime := by
        by_cases hc : i ∈ admission st.1.processes st.1.currentTime st.1.readyQueue ∧
            thr ≤ wrapInt (st.1.currentTime - (st.1.processes[i]).arrivalTime)
        · rw [← e0.2.1, ← (h.wait_fits i hc.1 _ hq).1]
          exact hc.2
        · rw [if_neg hc] at hpr
          exact (hJ i o _ ho hq (by rw [← hpr]; exact hne)).1 hiT
      by_cases hic : i = cur
      · subst hic
        obtain ⟨_, p1, hp1, _, _, _, c4, _⟩ := hcur _ hq
        rw [hp] at hp1
        cases hp1
        refine ⟨fun hx => absurd (List.mem_append.2 (Or.inr (by simp))) hx, fun _ => ?_⟩
        rw [c4, e0.2.2.1]
        omega
      · refine ⟨fun _ => by omega, fun hx => ?_⟩
        rcases List.mem_append.1 hx with hx | hx
        · exact absurd hx hiT
        · simp at hx
          exact absurd hx hic

/-- C20 (aging touches only processes that waited long enough). For a batch
with all `executionTime > 0` whose simulation does not overflow an `int`
(`NoOverflow`) and for every `agingThreshold`, `simulateWithPriorityAndAging`
returns, and every process that entered with `startTime = -1` (the value with
which every process is created) and whose waiting time is below the threshold
(`startTime - arrivalTime < agingThreshold`) has exactly the priority it entered
with. -/
theorem aging_untouched (ps : List Process) (agingThreshold : Int) (fuel : Nat)
    (hpos : ∀ p ∈ ps, 0 < p.executionTime) (hfit : NoOverflow ps)
    (hfuel : ps.length + (maxArrival ps).toNat ≤ fuel) :
    ∃ out, simulateWithPriorityAndAging fuel ps agingThreshold = some out ∧
      List.Forall₂ (fun o p => o.startTime = -1 →
          p.startTime - p.arrivalTime < agingThreshold → p.priority = o.priority)
        (sortByArrival ps) out := by
  obtain ⟨s, T, _, _, h3, h4, h5, h6⟩ := aging_total agingThreshold hpos hfit
    (NotAged (sortByArrival ps) agingThreshold)
    (by
      intro i o p ho hp hne
      have hp' : (sortByArrival ps)[i]? = some p := hp
      rw [ho] at hp'
      cases hp'
      exact absurd rfl hne)
    (fun st h hJ hrun =>
      notAged_step agingThreshold (fun o ho => hpos o (mem_sort ho)) st h hJ hrun)
    fuel hfuel
  obtain ⟨hperm, _⟩ := h4.final h6
  refine ⟨s.processes, h3, ?_⟩
  rw [List.forall₂_iff_get]
  refine ⟨h4.len.symm, ?_⟩
  intro i h1 h2 hstart hwait
  simp only [List.get_eq_getElem] at hstart hwait ⊢
  have hiT : i ∈ T := hperm.mem_iff.2 (List.mem_range.2 h1)
  have ho := List.getElem?_eq_getElem h1
  have hp := List.getElem?_eq_getElem h2
  obtain ⟨q, t, hq, hf, _⟩ := h4.done i _ ho hiT
  rw [hp] at hq
  cases hq
  by_contra hne
  have hage := (h5 i _ _ ho hp hne).2 hiT
  obtain ⟨_, f2, _, _, _, f6, f7⟩ := hf
  simp [hstart] at f7
  omega

/-- C20 on the scenario batch with `agingThreshold = 4`: B waits 3 ticks, less
than the threshold, and keeps priority 5. -/
theorem aging_untouched_witness :
    (∀ p ∈ agingScenario, 0 < p.executionTime) ∧ NoOverflow agingScenario ∧
    agingScenario.length + (maxArrival agingScenario).toNat ≤ 3 ∧
    (∃ out, simulateWithPriorityAndAging 3 agingScenario 4 = some out ∧
      List.Forall₂ (fun o p => o.startTime = -1 →
          p.startTime - p.arrivalTime < 4 → p.priority = o.priority)
        (sortByArrival agingScenario) out) ∧
    simulateWithPriorityAndAging 3 agingScenario 4 = some
      [ { id := 1, arrivalTime := 0, executionTime := 0, priority := 3,
          startTime := 0, endTime := 4, waitingTime := 0 },
        { id := 2, arrivalTime := 1, executionTime := 0, priority := 5,
          startTime := 4, endTime := 5, waitingTime := 3 } ] :=
  ⟨by decide, ⟨by decide, by decide⟩, by decide,
    aging_untouched agingScenario 4 3 (by decide) ⟨by decide, by decide⟩ (by decide),
    by decide⟩

end Sched
